import Mathlib

/-!
# sqlmaper: a verification development

A shallow embedding of `sqlmaper.go` and `iterator.go`.

Go strings are byte sequences; a string is embedded as the list of its bytes
(`Str`), so `len`, indexing and slicing are list length, element access and
`take`/`drop`.  Go `int` values that only count (ordinals, positions) are `Nat`.
-/

set_option linter.dupNamespace false

namespace Sqlmaper

/-- A Go string: the sequence of its bytes. -/
abbrev Str := List Nat

/-- The UTF-8 bytes of a string literal. -/
def bytes (s : String) : Str :=
  (s.toList.flatMap String.utf8EncodeChar).map UInt8.toNat

/-! ## Standard-library string functions -/

/-- The byte-wise `strings.HasPrefix(s, prefix)`. -/
def HasPrefix (s pre : Str) : Bool := pre.isPrefixOf s

/-- Search of `strings.Index`: `i` is the offset of the text still to scan. -/
def indexFrom (sub : Str) : Str → Nat → Int
  | [], i => if sub.isPrefixOf [] then (i : Int) else -1
  | c :: rest, i => if sub.isPrefixOf (c :: rest) then (i : Int) else indexFrom sub rest (i + 1)

/-- The byte offset of the first occurrence of `sub` in `s`, or `-1`: `strings.Index(s, sub)`. -/
def Index (s sub : Str) : Int := indexFrom sub s 0

/-- The UTF-8 encodings of the code points for which `unicode.IsSpace` holds:
tab, LF, VT, FF, CR, space, U+0085, U+00A0, U+1680, U+2000..U+200A, U+2028,
U+2029, U+202F, U+205F and U+3000. -/
def spaceRunes : List Str :=
  [[9], [10], [11], [12], [13], [32], [0xC2, 0x85], [0xC2, 0xA0], [0xE1, 0x9A, 0x80],
   [0xE2, 0x80, 0x80], [0xE2, 0x80, 0x81], [0xE2, 0x80, 0x82], [0xE2, 0x80, 0x83],
   [0xE2, 0x80, 0x84], [0xE2, 0x80, 0x85], [0xE2, 0x80, 0x86], [0xE2, 0x80, 0x87],
   [0xE2, 0x80, 0x88], [0xE2, 0x80, 0x89], [0xE2, 0x80, 0x8A], [0xE2, 0x80, 0xA8],
   [0xE2, 0x80, 0xA9], [0xE2, 0x80, 0xAF], [0xE2, 0x81, 0x9F], [0xE3, 0x80, 0x80]]

/-- Number of bytes of the white-space rune `s` starts with, `0` when it starts with none. -/
def spacePrefixLen (s : Str) : Nat :=
  match spaceRunes.find? (fun r => r.isPrefixOf s) with
  | some r => r.length
  | none => 0

/-- Number of bytes of the white-space rune `s` ends with, `0` when it ends with none. -/
def spaceSuffixLen (s : Str) : Nat :=
  match spaceRunes.find? (fun r => r.isSuffixOf s) with
  | some r => r.length
  | none => 0

/-- Removal of leading white space, at most `n` runes. -/
def trimLeftAux : Nat → Str → Str
  | 0, s => s
  | n + 1, s => if spacePrefixLen s = 0 then s else trimLeftAux n (s.drop (spacePrefixLen s))

/-- Removal of trailing white space, at most `n` runes. -/
def trimRightAux : Nat → Str → Str
  | 0, s => s
  | n + 1, s =>
    if spaceSuffixLen s = 0 then s else trimRightAux n (s.take (s.length - spaceSuffixLen s))

/-- All leading and trailing Unicode white space removed: `strings.TrimSpace(s)`. -/
def TrimSpace (s : Str) : Str :=
  let l := trimLeftAux s.length s
  trimRightAux l.length l

/-- The non-ASCII part of `strings.ToUpper` and `strings.ToLower`, that is,
`strings.Map(unicode.ToUpper, s)` and `strings.Map(unicode.ToLower, s)`: they
read the Unicode case tables, which are not part of the program, and are
consulted only for a string holding a byte `>= 0x80`. -/
structure CaseTables where
  upper : Str → Str
  lower : Str → Str

/-- Case tables for text that is ASCII only, where they are never consulted. -/
def CaseTables.ascii : CaseTables := ⟨id, id⟩

/-- Upper-casing of one ASCII byte. -/
def upperByte (c : Nat) : Nat := if 97 ≤ c ∧ c ≤ 122 then c - 32 else c

/-- Lower-casing of one ASCII byte. -/
def lowerByte (c : Nat) : Nat := if 65 ≤ c ∧ c ≤ 90 then c + 32 else c

/-- Every byte is below `utf8.RuneSelf`. -/
def isASCII (s : Str) : Bool := s.all (fun c => decide (c < 128))

/-- The function `strings.ToUpper`: byte-wise on ASCII text, by the case tables otherwise. -/
def ToUpper (T : CaseTables) (s : Str) : Str :=
  if isASCII s then s.map upperByte else T.upper s

/-- The function `strings.ToLower`: byte-wise on ASCII text, by the case tables otherwise. -/
def ToLower (T : CaseTables) (s : Str) : Str :=
  if isASCII s then s.map lowerByte else T.lower s

/-! ## The two regular expressions -/

/-- The class `\s` of Go regular expressions: `[\t\n\f\r ]`. -/
def reSpace (c : Nat) : Bool := c = 9 || c = 10 || c = 12 || c = 13 || c = 32

/-- Greedy `\s*`: what is left after it. -/
def skipSpaces (s : Str) : Str := s.dropWhile reSpace

/-- Number of bytes of the rune of the class `(?i)[a-z0-9_-]` that `s` starts
with, `0` when it starts with none.  Under case folding the class holds the
ASCII letters, the digits, `_`, `-`, U+017F (long s) and U+212A (Kelvin sign). -/
def identRuneLen : Str → Nat
  | 0xC5 :: 0xBF :: _ => 2
  | 0xE2 :: 0x84 :: 0xAA :: _ => 3
  | c :: _ =>
    if (97 ≤ c ∧ c ≤ 122) ∨ (65 ≤ c ∧ c ≤ 90) ∨ (48 ≤ c ∧ c ≤ 57) ∨ c = 95 ∨ c = 45 then 1 else 0
  | [] => 0

/-- Greedy run of identifier runes, at most `n` of them: what is left after it. -/
def skipIdentAux : Nat → Str → Str
  | 0, s => s
  | n + 1, s => if identRuneLen s = 0 then s else skipIdentAux n (s.drop (identRuneLen s))

/-- Match of `TagPrefixRegExp`, `(?i)^\s*--\s*tag\s*=\s*`, at the start of `s`:
the text after the match.  Each `\s*` is followed by a byte outside `\s`, so
the greedy match is the only one. -/
def matchTagPrefix (s : Str) : Option Str :=
  match skipSpaces s with
  | 45 :: 45 :: s1 =>
    match skipSpaces s1 with
    | t :: a :: g :: s2 =>
      if lowerByte t = 116 ∧ lowerByte a = 97 ∧ lowerByte g = 103 then
        match skipSpaces s2 with
        | 61 :: s3 => some (skipSpaces s3)
        | _ => none
      else none
    | _ => none
  | _ => none

/-- Match of `TagRegularRegExp`, `(?i)^\s*--\s*tag\s*=\s*[a-z0-9_-]+\s*:\s*`, at
the start of `s`: the text after the match. -/
def matchTagRegular (s : Str) : Option Str :=
  match matchTagPrefix s with
  | none => none
  | some s1 =>
    if identRuneLen s1 = 0 then none
    else
      match skipSpaces (skipIdentAux s1.length s1) with
      | 58 :: s2 => some (skipSpaces s2)
      | _ => none

/-- The matched text `matches[0]` of a match at the start of `line` that leaves `rest`. -/
def matched (line rest : Str) : Str := line.take (line.length - rest.length)

/-! ## Line classification -/

def UKN : Nat := 0
def DML : Nat := 1
def DQL : Nat := 2
def DDL : Nat := 3

def lineName : Nat := 0
def lineQuery : Nat := 1
def lastLineQuery : Nat := 2
def lineTag : Nat := 3
def lineToSkip : Nat := 4
def lineComment : Nat := 5

/-- The struct `parsedLine`. -/
structure parsedLine where
  Type_ : Nat
  Tag : Str
  Value : Str
deriving DecidableEq, Repr

/-- The function `tagName` of `sqlmaper.go`. -/
def tagName (T : CaseTables) (tag : Str) : Str :=
  let tag1 := match matchTagPrefix tag with
    | some rest => rest
    | none => tag
  let i := Index tag1 [58]
  let tag2 := if i > 0 then tag1.take i.toNat else tag1
  TrimSpace (ToLower T tag2)

/-- The function `isQueryLastLine` of `sqlmaper.go`. -/
def isQueryLastLine (line : Str) : Bool :=
  let sc := Index line [59]
  if sc = -1 then false
  else
    let slc := Index line [45, 45]
    let mlco := Index line [47, 42]
    let mlcc := Index line [42, 47]
    if slc > 0 ∧ mlco = -1 ∧ mlcc = -1 ∧ slc < sc then false
    else if mlco > 0 then
      if mlcc > 0 ∧ sc > mlco ∧ sc < mlcc then false
      else if sc > mlco ∧ mlcc = -1 then false
      else true
    else true

/-- The function `parseLine` of `sqlmaper.go`. -/
def parseLine (T : CaseTables) (line0 : Str) : parsedLine :=
  let line := TrimSpace line0
  if line = [] then ⟨lineToSkip, [], []⟩
  else if line.length ≥ 6 ∧ ToUpper T (line.take 6) = bytes "COMMIT" then ⟨lineToSkip, [], []⟩
  else if line.length ≥ 8 ∧ ToUpper T (line.take 8) = bytes "ROLLBACK" then ⟨lineToSkip, [], []⟩
  else
    match matchTagRegular line with
    | some rest =>
      let name := tagName T (matched line rest)
      -- Value: strings.TrimPrefix(line, matches[0]), the text after the match
      ⟨if name = bytes "name" then lineName else lineTag, name, rest⟩
    | none =>
      if HasPrefix line [45, 45] then ⟨lineComment, [], []⟩
      else
        let pos := Index line [45, 45]
        let line1 := if pos > 0 then TrimSpace (line.take pos.toNat) else line
        if isQueryLastLine line1 then ⟨lastLineQuery, [], line1⟩ else ⟨lineQuery, [], line1⟩

/-! ## `sqlType` -/

/-- The function `sqlType` of `sqlmaper.go`; `none` is the run-time panic of a
slice expression `s[:6]` or `s[:10]` whose bound exceeds `len(s)`. -/
def sqlType (T : CaseTables) (q : Str) : Option Nat :=
  if q.length < 10 then some UKN
  else
    let s := ToUpper T (q.take 10)
    if s.length < 6 then none
    else if s.take 6 = bytes "INSERT" ∨ s.take 6 = bytes "UPDATE" ∨ s.take 6 = bytes "DELETE"
        ∨ s.take 6 = bytes "MERGE" then some DML
    else if s.take 6 = bytes "SELECT" then some DQL
    else if s.take 6 = bytes "CREATE" then some DDL
    else if s.length < 10 then none
    else if s.take 10 = bytes "DROP TABLE" ∨ s.take 10 = bytes "DROP INDEX" then some DDL
    else some UKN

/-! ## `scapeColon` -/

/-- The local variables of the loop of `scapeColon`: the `strings.Builder`
and the three flags. -/
structure ScapeState where
  str : Str
  colon : Bool
  equal : Bool
  bindVarFound : Bool
deriving DecidableEq, Repr

/-- One iteration of the `for i := 0; i < len(s); i++` loop of `scapeColon`,
on the byte `c = s[i]` (`' '` is 32, `':'` is 58, `'='` is 61). -/
def scapeStep (st : ScapeState) (c : Nat) : ScapeState :=
  -- if equal == true && s[i] != ' ' { equal = false; if s[i] == ':' { ...; continue } }
  if st.equal = true ∧ c ≠ 32 ∧ c = 58 then
    { st with equal := false, str := st.str ++ [c], bindVarFound := true }
  else
    let st1 : ScapeState := if st.equal = true ∧ c ≠ 32 then { st with equal := false } else st
    -- if colon == true { if s[i] != ':' { str.WriteByte(':'); colon = false } }
    let st2 : ScapeState :=
      if st1.colon = true ∧ c ≠ 58 then { st1 with str := st1.str ++ [58], colon := false } else st1
    -- if s[i] == ':' { colon = !colon }
    let st3 : ScapeState := if c = 58 then { st2 with colon := !st2.colon } else st2
    -- str.WriteByte(s[i])
    let st4 : ScapeState := { st3 with str := st3.str ++ [c] }
    -- if s[i] == '=' { equal = true }
    if c = 61 then { st4 with equal := true } else st4

/-- The state of `scapeColon` before its loop. -/
def scapeInit : ScapeState := ⟨[], false, false, false⟩

/-- The function `scapeColon` of `sqlmaper.go`. -/
def scapeColon (s : Str) : Str :=
  if ¬ (58 ∈ s) then s
  else if ¬ (61 ∈ s) then s
  else
    let st := s.foldl scapeStep scapeInit
    let st1 : ScapeState := if st.colon = true then { st with str := st.str ++ [58] } else st
    if st1.bindVarFound = false then s else st1.str

/-! ## The collection and `ParseReader` -/

/-- The struct `Query`. -/
structure Query where
  Query : Str
  Type_ : Nat
  Tags : List (Str × Str)
  idx : Nat
deriving DecidableEq, Repr

/-- Lookup `m[k]` in a Go map, embedded as an association list; `none` when absent. -/
def mapGet {β : Type} : List (Str × β) → Str → Option β
  | [], _ => none
  | (k1, v) :: m, k => if k1 = k then some v else mapGet m k

/-- Assignment `m[k] = v` in a Go map: the entry of `k` is replaced, or a new
entry is added. -/
def mapSet {β : Type} : List (Str × β) → Str → β → List (Str × β)
  | [], k, v => [(k, v)]
  | (k1, v1) :: m, k, v => if k1 = k then (k, v) :: m else (k1, v1) :: mapSet m k v

/-- The type `Queries`, `map[string]*Query`: an association list with one entry
for each key; `len(q)` is its length, and `range q` visits its entries in an
order the language leaves open, that is, in the order of any permutation of
the list. -/
abbrev Queries := List (Str × Query)

/-- What `ParseReader` returns in place of a collection: the error
`duplicated query name: "qName"`, or a run-time panic. -/
inductive Failure where
  | duplicated (qName : Str)
  | panic
deriving DecidableEq, Repr

deriving instance DecidableEq for Except

/-- The local variables of `ParseReader`.  The pointer `q` is `nil` or points
to the statement being assembled; every name line makes it point to a fresh
`Query`, and it is written through only while `FF` is false, which ends with
the insertion into `queries`, so an inserted statement is never written again. -/
structure ParseState where
  queries : Queries
  q : Option Query
  qName : Str
  idx : Nat
  FF : Bool
deriving DecidableEq, Repr

/-- The state of `ParseReader` before its loop. -/
def parseInit : ParseState := ⟨[], none, [], 0, true⟩

/-- The body of `for scn.Scan()` in `ParseReader`, for one line of the input. -/
def parseStep (T : CaseTables) (st : ParseState) (line : Str) : Except Failure ParseState :=
  let pl := parseLine T line
  if pl.Type_ = lineToSkip then .ok st
  else if pl.Type_ = lineName then
    let qName := ToLower T pl.Value
    if (mapGet st.queries qName).isSome then .error (.duplicated qName)
    else
      .ok { st with
        FF := false, qName := qName,
        q := some ⟨[], 0, mapSet [] (ToLower T pl.Tag) pl.Value, 0⟩ }
  else if pl.Type_ = lineTag then
    if st.FF then .ok st
    else
      match st.q with
      | none => .error .panic
      | some q => .ok { st with q := some { q with Tags := mapSet q.Tags (ToLower T pl.Tag) pl.Value } }
  else if pl.Type_ = lineQuery ∨ pl.Type_ = lastLineQuery then
    if st.FF then .ok st
    else
      match st.q with
      | none => .error .panic
      | some q =>
        let q1 : Query := if q.Query.length > 0 then { q with Query := q.Query ++ [32] } else q
        let q2 : Query := { q1 with Query := q1.Query ++ pl.Value }
        if pl.Type_ = lastLineQuery then
          match sqlType T q2.Query with
          | none => .error .panic
          | some ty =>
            let q3 : Query := { q2 with Type_ := ty }
            let q4 : Query := if q3.Type_ ≠ DDL then { q3 with Query := scapeColon q3.Query } else q3
            let q5 : Query := { q4 with idx := st.idx }
            .ok { st with
              FF := true, q := some q5,
              queries := mapSet st.queries st.qName q5, idx := st.idx + 1 }
        else .ok { st with q := some q2 }
  else .ok st

/-- The loop of `ParseReader` over the lines the scanner yields. -/
def parseLoop (T : CaseTables) : ParseState → List Str → Except Failure ParseState
  | st, [] => .ok st
  | st, line :: rest =>
    match parseStep T st line with
    | .error e => .error e
    | .ok st1 => parseLoop T st1 rest

/-- The function `ParseReader` of `sqlmaper.go`, on the sequence of lines its
`bufio.Scanner` yields; `scanLines` gives that sequence from the lines of the
input. -/
def ParseReader (T : CaseTables) (lines : List Str) : Except Failure Queries :=
  match parseLoop T parseInit lines with
  | .error e => .error e
  | .ok st => .ok st.queries

/-! ## Iterators -/

/-- The struct `Iterator`; `query` is `nil` or the statement bound by the last `Iterate`. -/
structure Iterator where
  queries : Queries
  orderedNames : List Str
  idNames : Int
  query : Option Query
deriving DecidableEq, Repr

/-- The method `Queries.Query`. -/
def Queries.Query (q : Queries) (label : Str) : Option Query := mapGet q label

/-- The assignment `a[i] = k` of a slice element; `none` is the index-out-of-range panic. -/
def setAt (a : List Str) (i : Nat) (k : Str) : Option (List Str) :=
  if i < a.length then some (a.set i k) else none

/-- The function `initFileOrderIterator` of `iterator.go`. -/
def initFileOrderIterator (q : Queries) : Option (List Str) :=
  q.foldlM (fun foi kv => setAt foi kv.2.idx kv.1) (List.replicate q.length [])

/-- The body of the first loop of `initIterator`, on the pair `(foi, cant)`. -/
def initIteratorStep (dql : Bool) (acc : List Str × Nat) (kv : Str × Query) :
    Option (List Str × Nat) :=
  if dql = true ∧ kv.2.Type_ ≠ DQL then some acc
  else if dql = false ∧ kv.2.Type_ = DQL then some acc
  else (setAt acc.1 kv.2.idx kv.1).map (fun foi => (foi, acc.2 + 1))

/-- The body of the second loop of `initIterator`, on the pair `(si, i)`. -/
def compactStep (acc : List Str × Nat) (f : Str) : Option (List Str × Nat) :=
  if f ≠ [] then (setAt acc.1 acc.2 f).map (fun si => (si, acc.2 + 1)) else some acc

/-- The function `initIterator` of `iterator.go`; the `nil` slice is the empty list. -/
def initIterator (q : Queries) (dql : Bool) : Option (List Str) :=
  match q.foldlM (initIteratorStep dql) (List.replicate q.length [], 0) with
  | none => none
  | some (foi, cant) =>
    if cant = 0 then some []
    else (foi.foldlM compactStep (List.replicate cant [], 0)).map Prod.fst

/-- The function `initSequentialIterator` of `iterator.go`. -/
def initSequentialIterator (q : Queries) : Option (List Str) := initIterator q false

/-- The function `initConcurrentIterator` of `iterator.go`. -/
def initConcurrentIterator (q : Queries) : Option (List Str) := initIterator q true

/-- The method `NewFileOrderIterator`. -/
def NewFileOrderIterator (q : Queries) : Option Iterator :=
  (initFileOrderIterator q).map (fun names => ⟨q, names, -1, none⟩)

/-- The method `NewConcurrentIterators`. -/
def NewConcurrentIterators (q : Queries) : Option (Iterator × Iterator) :=
  match initSequentialIterator q, initConcurrentIterator q with
  | some s, some c => some (⟨q, s, -1, none⟩, ⟨q, c, -1, none⟩)
  | _, _ => none

/-- The method `Iterate`: the returned flag and the iterator after the call;
`none` is the panic of indexing `orderedNames` below zero. -/
def Iterate (i : Iterator) : Option (Bool × Iterator) :=
  let i1 : Iterator := { i with idNames := i.idNames + 1 }
  if i1.idNames > (i1.orderedNames.length : Int) - 1 then some (false, i1)
  else if i1.idNames < 0 then none
  else
    let i2 : Iterator :=
      { i1 with query := i1.queries.Query (i1.orderedNames.getD i1.idNames.toNat []) }
    if i2.query = none then some (false, i2) else some (true, i2)

/-- The flags returned by `n` successive calls of `Iterate`, and the iterator after them. -/
def iterateN : Nat → Iterator → Option (List Bool × Iterator)
  | 0, i => some ([], i)
  | n + 1, i =>
    match Iterate i with
    | none => none
    | some (b, i1) => (iterateN n i1).map (fun r => (b :: r.1, r.2))

/-! ## Specification-level notions for `scapeColon` -/

/-- Some colon of `s` is the first character other than a space after an `=`:
`s[j]` is `=`, `s[i]` is `:`, and only spaces lie between them. -/
def BindColon (s : Str) : Prop :=
  ∃ i < s.length, ∃ j < i, s[j]? = some 61 ∧ s[i]? = some 58 ∧ ∀ k < i, j < k → s[k]? = some 32

instance (s : Str) : Decidable (BindColon s) := by
  unfold BindColon; infer_instance

/-- The text `s` is some spaces followed by a colon, followed by anything. -/
def SpacesThenColon (s : Str) : Prop :=
  ∃ i < s.length, s[i]? = some 58 ∧ ∀ k < i, s[k]? = some 32

/-- The escaping described run by run, for at most `n` runs.  `awaiting` says
that the last character other than a space was an `=`.  A colon met while
`awaiting` is a bind-variable colon and is copied; any other colon starts a
maximal run of colons, copied and followed by one more colon when `pad` holds
of its length; every other character is copied. -/
def escapeRunsAux (pad : Nat → Bool) : Nat → Bool → Str → Str
  | 0, _, s => s
  | _ + 1, _, [] => []
  | n + 1, awaiting, c :: rest =>
    if c = 58 then
      if awaiting then 58 :: escapeRunsAux pad n false rest
      else
        let run := (c :: rest).takeWhile (fun x => decide (x = 58))
        let after := (c :: rest).dropWhile (fun x => decide (x = 58))
        run ++ (if pad run.length then [58] else []) ++ escapeRunsAux pad n false after
    else c :: escapeRunsAux pad n (decide (c = 61) || (awaiting && decide (c = 32))) rest

/-- The escaping described run by run (see `escapeRunsAux`). -/
def escapeRuns (pad : Nat → Bool) (s : Str) : Str := escapeRunsAux pad s.length false s

/-- A run is padded when it is one colon long: "a run of one colon becomes
two; a run of two or more is left as found". -/
def padSingle (n : Nat) : Bool := decide (n = 1)

/-- A run is padded when its length is odd. -/
def padOdd (n : Nat) : Bool := decide (n % 2 = 1)

/-! ## The loop of `scapeColon`, flag by flag -/

/-- The bytes one iteration of the loop writes. -/
def scapeChunk (colon equal : Bool) (c : Nat) : Str :=
  if equal = true ∧ c = 58 then [c] else if colon = true ∧ c ≠ 58 then [58, c] else [c]

/-- The flag `colon` after one iteration. -/
def nextColon (colon equal : Bool) (c : Nat) : Bool :=
  if equal = true ∧ c = 58 then colon else if c = 58 then !colon else false

/-- The flag `equal` after one iteration. -/
def nextEqual (equal : Bool) (c : Nat) : Bool :=
  if c = 61 then true else if c = 32 then equal else false

/-- The flag `bindVarFound` after one iteration. -/
def nextFound (equal found : Bool) (c : Nat) : Bool :=
  if equal = true ∧ c = 58 then true else found

/-- Everything the loop and the closing `if colon == true` write from given flags. -/
def outFrom : Bool → Bool → Str → Str
  | colon, _, [] => if colon then [58] else []
  | colon, equal, c :: s =>
    scapeChunk colon equal c ++ outFrom (nextColon colon equal c) (nextEqual equal c) s

/-- The flag `bindVarFound` after the loop, from given flags. -/
def foundFrom : Bool → Bool → Str → Bool
  | _, found, [] => found
  | equal, found, c :: s => foundFrom (nextEqual equal c) (nextFound equal found c) s

/-! ## Specification-level notions for `ParseReader` -/

/-- The names of the statements whose terminating fragment is met in `lines`,
in the order in which they are met.  `inside` says that a name line has been
read and no terminating fragment since, `name` is the lower-cased value of
that name line. -/
def completedFrom (T : CaseTables) : Bool → Str → List Str → List Str
  | _, _, [] => []
  | inside, name, line :: rest =>
    if (parseLine T line).Type_ = lineName then
      completedFrom T true (ToLower T (parseLine T line).Value) rest
    else if (parseLine T line).Type_ = lastLineQuery ∧ inside = true then
      name :: completedFrom T false name rest
    else completedFrom T inside name rest

/-- The names of the statements completed in `lines`, in completion order. -/
def completed (T : CaseTables) (lines : List Str) : List Str := completedFrom T false [] lines

/-- The invariant of the loop of `ParseReader`: the names in the collection are
distinct, the statements were inserted with the ordinals `0, 1, ...` up to
`idx`, and the name of a statement being assembled is not in the collection. -/
def ParseInv (st : ParseState) : Prop :=
  (st.queries.map Prod.fst).Nodup
  ∧ st.queries.map (fun e => e.2.idx) = List.range st.idx
  ∧ (st.FF = false → mapGet st.queries st.qName = none)

/-! ## The loops of the iterator constructors -/

/-- Whether the first loop of `initIterator` keeps a statement: its kind is
`DQL` when `dql` is set, and is not `DQL` otherwise. -/
def qualifies (dql : Bool) (e : Str × Query) : Bool :=
  if dql then decide (e.2.Type_ = DQL) else decide (e.2.Type_ ≠ DQL)

/-- The write `foi[v.idx] = k`, made for the statements that `p` keeps. -/
def writeStep (p : Str × Query → Bool) (foi : List Str) (kv : Str × Query) :
    Option (List Str) :=
  if p kv then setAt foi kv.2.idx kv.1 else some foi

/-- The test `f != ""` of the second loop of `initIterator`. -/
def notEmpty (f : Str) : Bool := decide (f ≠ [])

/-- The names of `names` that are not empty, followed by one empty name for
each empty name of `names`. -/
def emptyLast (names : List Str) : List Str :=
  names.filter notEmpty ++ List.replicate (names.length - (names.filter notEmpty).length) []

/-! ## Sample inputs -/

/-- Two complete statements, a query and an update. -/
def sampleTwo : List Str :=
  [bytes "-- tag=name: Select1", bytes "select * from peoples;",
   bytes "-- tag=name: Update1", bytes "update peoples set Name = 'Leo' where ID = 1;"]

/-- The collection `ParseReader` builds from `sampleTwo`. -/
def sampleTwoQueries : Queries :=
  [(bytes "select1", ⟨bytes "select * from peoples;", DQL, [(bytes "name", bytes "Select1")], 0⟩),
   (bytes "update1", ⟨bytes "update peoples set Name = 'Leo' where ID = 1;", DML,
      [(bytes "name", bytes "Update1")], 1⟩)]

/-- Two name lines that carry the same name, with no complete statement between them. -/
def sampleRepeatedName : List Str :=
  [bytes "-- tag=name: a", bytes "-- tag=name: A", bytes "select 1 from dual;"]

/-- A statement of kind Unknown: its text is shorter than ten bytes. -/
def sampleUnknown : List Str := [bytes "-- tag=name: a", bytes "x;"]

/-- The collection `ParseReader` builds from `sampleUnknown`. -/
def sampleUnknownQueries : Queries :=
  [(bytes "a", ⟨bytes "x;", UKN, [(bytes "name", bytes "a")], 0⟩)]

/-- Two updates, the first under the empty name. -/
def sampleEmptyName : List Str :=
  [bytes "-- tag=name:", bytes "update t set a = 1;",
   bytes "-- tag=name: b", bytes "update t set a = 2;"]

/-- The collection `ParseReader` builds from `sampleEmptyName`. -/
def sampleEmptyNameQueries : Queries :=
  [([], ⟨bytes "update t set a = 1;", DML, [(bytes "name", [])], 0⟩),
   (bytes "b", ⟨bytes "update t set a = 2;", DML, [(bytes "name", bytes "b")], 1⟩)]

/-! ## Case tables beyond ASCII -/

/-- Upper-casing by `strings.Map(unicode.ToUpper, s)` of a text whose runes
are ASCII or U+017F, LATIN SMALL LETTER LONG S: in the case tables of the Go
library the upper case of U+017F (bytes `C5 BF`) is `S`, a single byte. -/
def upperLongS : Str → Str
  | 0xC5 :: 0xBF :: rest => 83 :: upperLongS rest
  | c :: rest => upperByte c :: upperLongS rest
  | [] => []

/-- Case tables for text whose runes are ASCII or U+017F; U+017F is a
lower-case letter, which lower-casing leaves as it is. -/
def CaseTables.longS : CaseTables := ⟨upperLongS, List.map lowerByte⟩

/-- Case tables for text whose runes outside ASCII have no case. -/
def CaseTables.caseless : CaseTables := ⟨List.map upperByte, List.map lowerByte⟩

/-- What the proofs use of the case tables: casing works rune by rune, so an
ASCII byte at the head of a text is cased by itself. -/
def CaseTables.Lawful (T : CaseTables) : Prop :=
  (∀ c s, c < 128 → ToUpper T (c :: s) = upperByte c :: ToUpper T s)
  ∧ (∀ c s, c < 128 → ToLower T (c :: s) = lowerByte c :: ToLower T s)

/-! ## Specification-level notions for `sqlType` -/

/-- The text `q` starts with the upper-case keyword `kw`, letter case ignored. -/
def startsWithFold (kw q : Str) : Bool := (q.take kw.length).map upperByte == kw

/-- The reference definition of the kind of a text, clause by clause; `none`
where it says nothing, that is, for a text of ten bytes or more that starts
with MERGE. -/
def sqlTypeRef (q : Str) : Option Nat :=
  if q.length < 10 then some UKN
  else if startsWithFold (bytes "INSERT") q ∨ startsWithFold (bytes "UPDATE") q
      ∨ startsWithFold (bytes "DELETE") q then some DML
  else if startsWithFold (bytes "SELECT") q then some DQL
  else if startsWithFold (bytes "CREATE") q then some DDL
  else if startsWithFold (bytes "DROP TABLE") q ∨ startsWithFold (bytes "DROP INDEX") q then
    some DDL
  else if startsWithFold (bytes "MERGE") q then none
  else some UKN

/-! ## Specification-level notions for `isQueryLastLine` -/

/-- The text `sub` occurs in `s` at byte offset `p`. -/
def occursAt (sub s : Str) (p : Nat) : Bool := sub.isPrefixOf (s.drop p)

/-- The first occurrence of `sub` in `s` is at byte offset `p`. -/
def FirstAt (sub s : Str) (p : Nat) : Prop :=
  occursAt sub s p = true ∧ ∀ k < p, occursAt sub s k = false

/-- The text `sub` occurs nowhere in `s`. -/
def Absent (sub s : Str) : Prop := ∀ p, occursAt sub s p = false

/-- The `;` at offset `sc` of `line` is shadowed: a `--` occurs before it, or a
`/*` occurs before it with no `*/` between that `/*` and the `;`. -/
def Shadowed (line : Str) (sc : Nat) : Prop :=
  (∃ p < sc, occursAt [45, 45] line p = true)
  ∨ (∃ o < sc, occursAt [47, 42] line o = true
      ∧ ∀ k < sc, o < k → occursAt [42, 47] line k = false)

instance (line : Str) (sc : Nat) : Decidable (Shadowed line sc) := by
  unfold Shadowed; infer_instance

instance (sub s : Str) (p : Nat) : Decidable (FirstAt sub s p) := by
  unfold FirstAt; infer_instance

/-! ## Specification-level notions for the assembled statements -/

/-- The line is a query fragment, terminating or not. -/
def isFragment (T : CaseTables) (l : Str) : Bool :=
  decide ((parseLine T l).Type_ = lineQuery) || decide ((parseLine T l).Type_ = lastLineQuery)

/-- The values of the query fragments among `ls`, in order. -/
def fragmentsOf (T : CaseTables) (ls : List Str) : List Str :=
  (ls.filter (isFragment T)).map (fun l => (parseLine T l).Value)

/-- A fragment appended to the pending text, after a separating space when
the pending text is not empty. -/
def addFragment (acc v : Str) : Str := (if acc.length > 0 then acc ++ [32] else acc) ++ v

/-- The fragments joined into one text. -/
def joinFragments (fs : List Str) : Str := fs.foldl addFragment []

/-- The line is a name line or a tag-value line. -/
def isTagLine (T : CaseTables) (l : Str) : Bool :=
  decide ((parseLine T l).Type_ = lineName) || decide ((parseLine T l).Type_ = lineTag)

/-- The value that the lines `ls` give to the tag `key`: the value of the last
name or tag-value line among them whose lower-cased key is `key`; `none` when
no line carries that key. -/
def tagValueIn (T : CaseTables) (ls : List Str) (key : Str) : Option Str :=
  ((ls.filter (fun l => isTagLine T l && decide (ToLower T (parseLine T l).Tag = key))).getLast?).map
    (fun l => (parseLine T l).Value)

/-- The lines of `body` neither open a statement nor terminate one. -/
def Inner (T : CaseTables) (body : List Str) : Prop :=
  ∀ m ∈ body, (parseLine T m).Type_ ≠ lineName ∧ (parseLine T m).Type_ ≠ lastLineQuery

instance (T : CaseTables) (body : List Str) : Decidable (Inner T body) := by
  unfold Inner; infer_instance

/-- The statement `e` was assembled from one block of the lines `seen`: a name
line, lines that neither open nor terminate a statement, and a terminating
fragment.  Its name, tags, kind and text are those of that block. -/
def Origin (T : CaseTables) (seen : List Str) (e : Str × Query) : Prop :=
  ∃ (pre : List Str) (nameLine : Str) (body : List Str) (lastLine : Str) (post : List Str),
    seen = pre ++ nameLine :: (body ++ lastLine :: post)
    ∧ (parseLine T nameLine).Type_ = lineName ∧ Inner T body
    ∧ (parseLine T lastLine).Type_ = lastLineQuery
    ∧ e.1 = ToLower T (parseLine T nameLine).Value
    ∧ (∀ key, mapGet e.2.Tags key = tagValueIn T (nameLine :: body) key)
    ∧ sqlType T (joinFragments (fragmentsOf T (body ++ [lastLine]))) = some e.2.Type_
    ∧ e.2.Query = (if e.2.Type_ ≠ DDL then
        scapeColon (joinFragments (fragmentsOf T (body ++ [lastLine])))
        else joinFragments (fragmentsOf T (body ++ [lastLine])))

/-- The statement being assembled, if any, is made of the lines `seen` since
the last name line. -/
def Pending (T : CaseTables) (seen : List Str) (st : ParseState) : Prop :=
  st.FF = false →
    ∃ (pre : List Str) (nameLine : Str) (body : List Str) (q : Query),
      seen = pre ++ nameLine :: body
      ∧ (parseLine T nameLine).Type_ = lineName ∧ Inner T body
      ∧ st.qName = ToLower T (parseLine T nameLine).Value ∧ st.q = some q
      ∧ (∀ key, mapGet q.Tags key = tagValueIn T (nameLine :: body) key)
      ∧ q.Query = joinFragments (fragmentsOf T body)

/-! ## The accessors of `Query` and `Queries` -/

/-- The method `Query.Statement`. -/
def Query.Statement (q : Sqlmaper.Query) : Str := q.Query

/-- The method `Query.QueryType`. -/
def Query.QueryType (q : Sqlmaper.Query) : Nat := q.Type_

/-- The method `Query.TagValue`. -/
def Query.TagValue (T : CaseTables) (q : Sqlmaper.Query) (tag : Str) : Str :=
  match mapGet q.Tags (ToLower T tag) with
  | none => []
  | some v => v

/-- The method `Queries.Statement`. -/
def Queries.Statement (T : CaseTables) (q : Queries) (label : Str) : Str :=
  match mapGet q (ToLower T label) with
  | none => []
  | some v => v.Statement

/-- The method `Queries.TagValue`. -/
def Queries.TagValue (T : CaseTables) (q : Queries) (label tag : Str) : Str :=
  match mapGet q (ToLower T label) with
  | none => []
  | some qry => qry.TagValue T tag

/-- The method `Queries.QueryType`. -/
def Queries.QueryType (T : CaseTables) (q : Queries) (label : Str) : Nat :=
  match mapGet q (ToLower T label) with
  | none => UKN
  | some v => v.QueryType

/-! ## Specification-level notions for the tag grammar -/

/-- The byte is an ASCII letter, a digit, `_` or `-`. -/
def identByte (c : Nat) : Bool :=
  decide ((97 ≤ c ∧ c ≤ 122) ∨ (65 ≤ c ∧ c ≤ 90) ∨ (48 ≤ c ∧ c ≤ 57) ∨ c = 95 ∨ c = 45)


/-! ## Specification-level notions for the iterators -/

/-- The kind of the statement named `n` in the collection `q`; `none` when
`q` has no statement of that name. -/
def kindOf (q : Queries) (n : Str) : Option Nat := (mapGet q n).map (fun s => s.Type_)

/-! ## Specification-level notions for the text of a statement -/

/-- The texts `fs` joined by single spaces. -/
def joinSpaces : List Str → Str
  | [] => []
  | [f] => f
  | f :: g :: fs => f ++ 32 :: joinSpaces (g :: fs)

/-! ## The scanner of `ParseReader` -/

/-- The constant `bufio.MaxScanTokenSize`, the size to which the buffer of the
`bufio.Scanner` made by `bufio.NewScanner` may grow. -/
def MaxScanTokenSize : Nat := 64 * 1024

/-- The function `dropCR` of package `bufio`: a trailing carriage return is dropped. -/
def dropCR (data : Str) : Str := if data.getLast? = some 13 then data.dropLast else data

/-- The line fits the buffer of the scanner together with its line break. -/
def fitsBuffer (l : Str) : Bool := decide (l.length < MaxScanTokenSize)

/-- The lines that the calls of `scn.Scan()` in `ParseReader` yield, for an
input given by its lines, each ended by a line break.  A line is yielded
without its line break and without a carriage return before it.  At a line of
`MaxScanTokenSize` bytes or more, which does not fit the buffer with its line
break, `Scan` returns false, as it does at the end of the input; `ParseReader`
does not read `scn.Err()` and leaves its loop in both cases alike. -/
def scanLines (input : List Str) : List Str := (input.takeWhile fitsBuffer).map dropCR

/-- A comment line of `MaxScanTokenSize` bytes. -/
def sampleLongLine : Str := List.replicate MaxScanTokenSize 45
set_option maxRecDepth 20000

/-! ## Theorems: `scapeColon` -/

theorem scapeStep_eq (st : ScapeState) (c : Nat) :
    scapeStep st c = ⟨st.str ++ scapeChunk st.colon st.equal c, nextColon st.colon st.equal c,
      nextEqual st.equal c, nextFound st.equal st.bindVarFound c⟩ := by
  rcases st with ⟨str, col, eq, f⟩
  unfold scapeStep scapeChunk nextColon nextEqual nextFound
  by_cases h1 : c = 58
  · subst h1; cases col <;> cases eq <;> simp
  · by_cases h2 : c = 61
    · subst h2; cases col <;> cases eq <;> simp
    · by_cases h3 : c = 32
      · subst h3; cases col <;> cases eq <;> simp
      · cases col <;> cases eq <;> simp [h1, h2, h3]

theorem foldl_scapeStep (s : Str) : ∀ st : ScapeState,
    (if (s.foldl scapeStep st).colon = true then (s.foldl scapeStep st).str ++ [58]
      else (s.foldl scapeStep st).str) = st.str ++ outFrom st.colon st.equal s
    ∧ (s.foldl scapeStep st).bindVarFound = foundFrom st.equal st.bindVarFound s := by
  induction s with
  | nil => intro st; cases h : st.colon <;> simp [outFrom, foundFrom, h]
  | cons c s ih =>
    intro st
    have h := ih (scapeStep st c)
    simp only [List.foldl_cons, outFrom, foundFrom]
    refine ⟨h.1.trans ?_, h.2.trans ?_⟩
    · rw [scapeStep_eq, List.append_assoc]
    · rw [scapeStep_eq]

theorem scapeColon_eq (s : Str) :
    scapeColon s = if ¬ (58 ∈ s) then s else if ¬ (61 ∈ s) then s
      else if foundFrom false false s = false then s else outFrom false false s := by
  have h := foldl_scapeStep s scapeInit
  unfold scapeColon
  by_cases h1 : 58 ∈ s
  · by_cases h2 : 61 ∈ s
    · simp only [h1, h2, not_true_eq_false, if_false]
      simp only [scapeInit, List.nil_append] at h
      obtain ⟨ho, hf⟩ := h
      by_cases hc : (List.foldl scapeStep scapeInit s).colon = true
      · simp only [scapeInit] at hc
        simp only [scapeInit, hc, if_true] at ho ⊢
        rw [← hf, ← ho]
      · simp only [scapeInit] at hc
        simp only [scapeInit, hc, if_false] at ho ⊢
        rw [← hf, ← ho]
        simp
    · simp [h1, h2]
  · simp [h1]

theorem next_flags_excl (col eq : Bool) (c : Nat) (h : ¬ (col = true ∧ eq = true)) :
    ¬ (nextColon col eq c = true ∧ nextEqual eq c = true) := by
  unfold nextColon nextEqual
  by_cases h1 : c = 58
  · subst h1; cases col <;> cases eq <;> simp at h ⊢
  · by_cases h2 : c = 61
    · subst h2; cases col <;> cases eq <;> simp at h ⊢
    · simp [h1, h2]

theorem outFrom_chunk (col eq : Bool) (c : Nat) (t : Str) (h : ¬ (col = true ∧ eq = true)) :
    outFrom col eq (scapeChunk col eq c ++ t)
      = scapeChunk col eq c ++ outFrom (nextColon col eq c) (nextEqual eq c) t := by
  by_cases h1 : c = 58
  · subst h1; cases col <;> cases eq <;> simp [scapeChunk, outFrom] at h ⊢
  · by_cases h2 : c = 61
    · subst h2; cases col <;> cases eq <;> simp [scapeChunk, outFrom, nextColon, nextEqual] at h ⊢
    · by_cases h3 : c = 32
      · subst h3
        cases col <;> cases eq <;> simp [scapeChunk, outFrom, nextColon, nextEqual] at h ⊢
      · cases col <;> cases eq <;>
          simp [scapeChunk, outFrom, nextColon, nextEqual, h1, h2, h3] at h ⊢

theorem foundFrom_chunk (col eq f : Bool) (c : Nat) (t : Str) (h : ¬ (col = true ∧ eq = true)) :
    foundFrom eq f (scapeChunk col eq c ++ t)
      = foundFrom (nextEqual eq c) (nextFound eq f c) t := by
  by_cases h1 : c = 58
  · subst h1; cases col <;> cases eq <;> simp [scapeChunk, foundFrom] at h ⊢
  · by_cases h2 : c = 61
    · subst h2
      cases col <;> cases eq <;> simp [scapeChunk, foundFrom, nextFound, nextEqual] at h ⊢
    · by_cases h3 : c = 32
      · subst h3
        cases col <;> cases eq <;> simp [scapeChunk, foundFrom, nextFound, nextEqual] at h ⊢
      · cases col <;> cases eq <;>
          simp [scapeChunk, foundFrom, nextFound, nextEqual, h1, h2, h3] at h ⊢

theorem outFrom_idem (s : Str) : ∀ col eq : Bool, ¬ (col = true ∧ eq = true) →
    outFrom col eq (outFrom col eq s) = outFrom col eq s := by
  induction s with
  | nil =>
    intro col eq h
    cases col <;> cases eq <;> simp [outFrom, scapeChunk, nextColon] at h ⊢
  | cons c s ih =>
    intro col eq h
    simp only [outFrom]
    rw [outFrom_chunk col eq c _ h, ih _ _ (next_flags_excl col eq c h)]

theorem foundFrom_outFrom (s : Str) : ∀ col eq f : Bool, ¬ (col = true ∧ eq = true) →
    foundFrom eq f (outFrom col eq s) = foundFrom eq f s := by
  induction s with
  | nil =>
    intro col eq f h
    cases col <;> cases eq <;> simp [outFrom, foundFrom, nextFound] at h ⊢
  | cons c s ih =>
    intro col eq f h
    simp only [outFrom, foundFrom]
    rw [foundFrom_chunk col eq f c _ h, ih _ _ _ (next_flags_excl col eq c h)]

/-- C7: `scapeColon` is idempotent: escaping an escaped text changes nothing. -/
theorem scapeColon_idempotent (s : Str) : scapeColon (scapeColon s) = scapeColon s := by
  by_cases h1 : 58 ∈ s
  · by_cases h2 : 61 ∈ s
    · by_cases h3 : foundFrom false false s = false
      · have hs : scapeColon s = s := by rw [scapeColon_eq]; simp [h1, h2, h3]
        rw [hs, hs]
      · have hs : scapeColon s = outFrom false false s := by
          rw [scapeColon_eq]; simp [h1, h2, h3]
        rw [hs, scapeColon_eq (outFrom false false s)]
        rw [outFrom_idem s false false (by simp)]
        split_ifs <;> rfl
    · have hs : scapeColon s = s := by rw [scapeColon_eq]; simp [h1, h2]
      rw [hs, hs]
  · have hs : scapeColon s = s := by rw [scapeColon_eq]; simp [h1]
    rw [hs, hs]

theorem spacesThenColon_nil : ¬ SpacesThenColon [] := by
  rintro ⟨i, hi, _⟩
  simp at hi

theorem bindColon_nil : ¬ BindColon [] := by
  rintro ⟨i, hi, _⟩
  simp at hi

theorem spacesThenColon_cons (c : Nat) (t : Str) :
    SpacesThenColon (c :: t) ↔ c = 58 ∨ (c = 32 ∧ SpacesThenColon t) := by
  constructor
  · rintro ⟨i, hi, h58, hk⟩
    cases i with
    | zero => left; simpa using h58
    | succ i =>
      right
      refine ⟨by simpa using hk 0 (by omega), i, by simpa using hi, by simpa using h58, ?_⟩
      intro k hki
      simpa using hk (k + 1) (by omega)
  · rintro (h | ⟨h32, i, hi, h58, hk⟩)
    · exact ⟨0, by simp, by simp [h], by intro k hk; omega⟩
    · refine ⟨i + 1, by simpa using hi, by simpa using h58, ?_⟩
      intro k hki
      cases k with
      | zero => simp [h32]
      | succ k => simpa using hk k (by omega)

theorem bindColon_cons (c : Nat) (t : Str) :
    BindColon (c :: t) ↔ (c = 61 ∧ SpacesThenColon t) ∨ BindColon t := by
  constructor
  · rintro ⟨i, hi, j, hj, h61, h58, hk⟩
    cases i with
    | zero => omega
    | succ i =>
      cases j with
      | zero =>
        left
        refine ⟨by simpa using h61, i, by simpa using hi, by simpa using h58, ?_⟩
        intro k hki
        simpa using hk (k + 1) (by omega) (by omega)
      | succ j =>
        right
        refine ⟨i, by simpa using hi, j, by omega, by simpa using h61, by simpa using h58, ?_⟩
        intro k hki hjk
        simpa using hk (k + 1) (by omega) (by omega)
  · rintro (⟨h61, i, hi, h58, hk⟩ | ⟨i, hi, j, hj, h61, h58, hk⟩)
    · refine ⟨i + 1, by simpa using hi, 0, by omega, by simp [h61], by simpa using h58, ?_⟩
      intro k hki hk0
      cases k with
      | zero => omega
      | succ k => simpa using hk k (by omega)
    · refine ⟨i + 1, by simpa using hi, j + 1, by omega, by simpa using h61,
        by simpa using h58, ?_⟩
      intro k hki hjk
      cases k with
      | zero => omega
      | succ k => simpa using hk k (by omega) (by omega)

theorem foundFrom_iff (s : Str) : ∀ eq f : Bool,
    foundFrom eq f s = true ↔ f = true ∨ (eq = true ∧ SpacesThenColon s) ∨ BindColon s := by
  induction s with
  | nil =>
    intro eq f
    simp [foundFrom, spacesThenColon_nil, bindColon_nil]
  | cons c s ih =>
    intro eq f
    simp only [foundFrom]
    rw [ih, spacesThenColon_cons, bindColon_cons]
    by_cases h1 : c = 58
    · subst h1; cases eq <;> simp [nextFound, nextEqual]
    · by_cases h2 : c = 61
      · subst h2; cases eq <;> simp [nextFound, nextEqual]
      · by_cases h3 : c = 32
        · subst h3; cases eq <;> simp [nextFound, nextEqual]
        · cases eq <;> simp [nextFound, nextEqual, h1, h2, h3]

theorem foundFrom_init_iff (s : Str) : foundFrom false false s = true ↔ BindColon s := by
  rw [foundFrom_iff]; simp

/-- C10: `scapeColon` returns its argument when the text has no `:`, or has no
`=`, or has no colon that is the first character other than a space after an `=`. -/
theorem scapeColon_noop (s : Str) (h : ¬ (58 ∈ s) ∨ ¬ (61 ∈ s) ∨ ¬ BindColon s) :
    scapeColon s = s := by
  rw [scapeColon_eq]
  rcases h with h | h | h
  · simp [h]
  · simp [h]
  · have hf : foundFrom false false s = false := by
      rw [← Bool.not_eq_true, foundFrom_init_iff]; exact h
    simp [hf]

theorem scapeColon_noop_witness :
    (¬ (58 ∈ bytes "a = to_date(:b, 'HH:MI')") ∨ ¬ (61 ∈ bytes "a = to_date(:b, 'HH:MI')")
      ∨ ¬ BindColon (bytes "a = to_date(:b, 'HH:MI')"))
    ∧ scapeColon (bytes "a = to_date(:b, 'HH:MI')") = bytes "a = to_date(:b, 'HH:MI')" :=
  ⟨Or.inr (Or.inr (by decide)), scapeColon_noop _ (Or.inr (Or.inr (by decide)))⟩

theorem outFrom_colons (n : Nat) : ∀ (col : Bool) (rest : Str),
    outFrom col false (List.replicate n 58 ++ rest)
      = List.replicate n 58 ++ outFrom (xor col (decide (n % 2 = 1))) false rest := by
  induction n with
  | zero => intro col rest; simp
  | succ n ih =>
    intro col rest
    rw [List.replicate_succ, List.cons_append, List.cons_append]
    rw [outFrom]
    have h1 : scapeChunk col false 58 = [58] := by simp [scapeChunk]
    have h2 : nextColon col false 58 = !col := by simp [nextColon]
    have h3 : nextEqual false 58 = false := by simp [nextEqual]
    rw [h1, h2, h3, ih]
    have hp : xor (!col) (decide (n % 2 = 1)) = xor col (decide ((n + 1) % 2 = 1)) := by
      rcases Nat.mod_two_eq_zero_or_one n with h | h <;>
        cases col <;> simp [h, Nat.succ_mod_two_eq_one_iff, Nat.add_mod]
    rw [hp]; rfl

theorem outFrom_pending (rest : Str) (h : ∀ r, rest ≠ 58 :: r) :
    outFrom true false rest = 58 :: outFrom false false rest := by
  cases rest with
  | nil => simp [outFrom]
  | cons c r =>
    have hc : c ≠ 58 := fun e => h r (by rw [e])
    simp [outFrom, scapeChunk, nextColon, hc]

theorem nextEqual_eq (aw : Bool) (c : Nat) :
    nextEqual aw c = (decide (c = 61) || (aw && decide (c = 32))) := by
  unfold nextEqual
  by_cases h2 : c = 61
  · simp [h2]
  · by_cases h3 : c = 32
    · simp [h3]
    · simp [h2, h3]

theorem dropWhile_colon_ne (l r : Str) :
    l.dropWhile (fun x => decide (x = 58)) ≠ 58 :: r := by
  intro h
  have h1 := List.head?_dropWhile_not (fun x => decide (x = 58)) l
  rw [h] at h1
  simp at h1

theorem takeWhile_colon_eq (l : Str) :
    l.takeWhile (fun x => decide (x = 58))
      = List.replicate (l.takeWhile (fun x => decide (x = 58))).length 58 := by
  rw [List.eq_replicate_iff]
  refine ⟨rfl, ?_⟩
  intro b hb
  simpa using List.mem_takeWhile_imp hb

theorem escapeRunsAux_padOdd (n : Nat) : ∀ (s : Str) (aw : Bool), s.length ≤ n →
    escapeRunsAux padOdd n aw s = outFrom false aw s := by
  induction n with
  | zero =>
    intro s aw h
    have hs : s = [] := List.length_eq_zero.mp (by omega)
    subst hs
    simp [escapeRunsAux, outFrom]
  | succ n ih =>
    intro s aw h
    cases s with
    | nil => simp [escapeRunsAux, outFrom]
    | cons c rest =>
      have hl : rest.length ≤ n := by simpa using h
      by_cases hc : c = 58
      · subst hc
        cases aw with
        | true =>
          simp [escapeRunsAux, outFrom, scapeChunk, nextColon, nextEqual, ih rest false hl]
        | false =>
          have hlhs : escapeRunsAux padOdd (n + 1) false (58 :: rest)
              = (58 :: rest.takeWhile (fun x => decide (x = 58)))
                ++ (if padOdd ((rest.takeWhile (fun x => decide (x = 58))).length + 1) then [58]
                    else [])
                ++ escapeRunsAux padOdd n false (rest.dropWhile (fun x => decide (x = 58))) := by
            simp [escapeRunsAux]
          have hsplit := List.takeWhile_append_dropWhile (fun x => decide (x = 58)) rest
          obtain ⟨k, hrun⟩ : ∃ k, rest.takeWhile (fun x => decide (x = 58)) = List.replicate k 58 :=
            ⟨_, takeWhile_colon_eq rest⟩
          have hne := dropWhile_colon_ne rest
          have hlen := (List.dropWhile_sublist (l := rest) (fun x => decide (x = 58))).length_le
          rw [hlhs]
          generalize rest.dropWhile (fun x => decide (x = 58)) = after at hsplit hne hlen
          rw [hrun] at hsplit ⊢
          have hrest : (58 : Nat) :: rest = List.replicate (k + 1) 58 ++ after := by
            rw [← hsplit]; simp [List.replicate_succ]
          rw [hrest, outFrom_colons, ih after false (by omega)]
          have hcons : (58 : Nat) :: List.replicate k 58 = List.replicate (k + 1) 58 := by
            simp [List.replicate_succ]
          rw [hcons, List.length_replicate]
          by_cases hodd : (k + 1) % 2 = 1
          · simp [padOdd, hodd, outFrom_pending after hne]
          · simp [padOdd, hodd]
      · simp only [escapeRunsAux, hc, if_false, outFrom]
        rw [ih rest _ hl, nextEqual_eq]
        simp [scapeChunk, nextColon, hc]

theorem mem_of_bindColon (s : Str) (h : BindColon s) : 58 ∈ s ∧ 61 ∈ s := by
  obtain ⟨i, _, j, _, h61, h58, _⟩ := h
  exact ⟨List.getElem?_mem h58, List.getElem?_mem h61⟩

/-- C8 (amended): when some colon is the first character other than a space
after an `=`, `scapeColon` copies every bind-variable colon, copies every other
maximal run of colons adding one colon to it exactly when its length is odd,
and copies every other character. -/
theorem scapeColon_runs (s : Str) (h : BindColon s) : scapeColon s = escapeRuns padOdd s := by
  obtain ⟨h1, h2⟩ := mem_of_bindColon s h
  have hf : foundFrom false false s = true := (foundFrom_init_iff s).mpr h
  rw [scapeColon_eq, escapeRuns, escapeRunsAux_padOdd s.length s false le_rfl]
  simp [h1, h2, hf]

theorem scapeColon_runs_witness :
    BindColon (bytes "a = :b 'HH:MI::SS'")
    ∧ scapeColon (bytes "a = :b 'HH:MI::SS'") = escapeRuns padOdd (bytes "a = :b 'HH:MI::SS'") :=
  ⟨by decide, scapeColon_runs _ (by decide)⟩

/-- C8, as stated, fails: a maximal run of three colons that holds no
bind-variable colon is not left as found, it is written as four colons. -/
theorem scapeColon_run_of_three :
    BindColon (bytes "a=:b c:::d")
    ∧ scapeColon (bytes "a=:b c:::d") = bytes "a=:b c::::d"
    ∧ escapeRuns padSingle (bytes "a=:b c:::d") = bytes "a=:b c:::d"
    ∧ scapeColon (bytes "a=:b c:::d") ≠ escapeRuns padSingle (bytes "a=:b c:::d") := by
  decide

/-! ## Theorems: association lists -/

theorem mapGet_eq_none_iff {β : Type} (m : List (Str × β)) (k : Str) :
    mapGet m k = none ↔ k ∉ m.map Prod.fst := by
  induction m with
  | nil => simp [mapGet]
  | cons e m ih =>
    obtain ⟨k1, v⟩ := e
    by_cases h : k1 = k
    · simp [mapGet, h]
    · simp [mapGet, h, ih, Ne.symm h]

theorem mapSet_fresh {β : Type} (m : List (Str × β)) (k : Str) (v : β)
    (h : mapGet m k = none) : mapSet m k v = m ++ [(k, v)] := by
  induction m with
  | nil => simp [mapSet]
  | cons e m ih =>
    obtain ⟨k1, v1⟩ := e
    by_cases hk : k1 = k
    · simp [mapGet, hk] at h
    · simp only [mapGet, hk, if_false] at h
      simp [mapSet, hk, ih h]

theorem mapGet_of_mem {β : Type} (m : List (Str × β)) (k : Str) (v : β)
    (hn : (m.map Prod.fst).Nodup) (h : (k, v) ∈ m) : mapGet m k = some v := by
  induction m with
  | nil => simp at h
  | cons e m ih =>
    obtain ⟨k1, v1⟩ := e
    simp only [List.map_cons, List.nodup_cons] at hn
    rcases List.mem_cons.mp h with h | h
    · cases h; simp [mapGet]
    · have hk : k1 ≠ k := by
        intro e; subst e
        exact hn.1 (List.mem_map.mpr ⟨(k1, v), h, rfl⟩)
      simp [mapGet, hk, ih hn.2 h]

theorem mem_of_mapGet {β : Type} (m : List (Str × β)) (k : Str) (v : β)
    (h : mapGet m k = some v) : (k, v) ∈ m := by
  induction m with
  | nil => simp [mapGet] at h
  | cons e m ih =>
    obtain ⟨k1, v1⟩ := e
    by_cases hk : k1 = k
    · simp only [mapGet, hk, if_true, Option.some.injEq] at h
      simp [hk, h]
    · simp only [mapGet, hk, if_false] at h
      exact List.mem_cons_of_mem _ (ih h)

/-! ## Theorems: `ParseReader` -/

/-- What one line does to the state of `ParseReader` when it raises nothing. -/
theorem parseStep_ok (T : CaseTables) (st st1 : ParseState) (line : Str)
    (h : parseStep T st line = .ok st1) :
    (st1 = st ∧ (parseLine T line).Type_ ≠ lineName
        ∧ ((parseLine T line).Type_ = lastLineQuery → st.FF = true))
    ∨ ((parseLine T line).Type_ = lineName
        ∧ mapGet st.queries (ToLower T (parseLine T line).Value) = none
        ∧ st1.queries = st.queries ∧ st1.idx = st.idx ∧ st1.FF = false
        ∧ st1.qName = ToLower T (parseLine T line).Value ∧ st1.q.isSome = true)
    ∨ (st.FF = false ∧ (parseLine T line).Type_ ≠ lineName
        ∧ (parseLine T line).Type_ ≠ lastLineQuery
        ∧ st1.queries = st.queries ∧ st1.idx = st.idx ∧ st1.FF = false
        ∧ st1.qName = st.qName ∧ st1.q.isSome = true)
    ∨ (st.FF = false ∧ (parseLine T line).Type_ = lastLineQuery
        ∧ ∃ q5 : Query, q5.idx = st.idx ∧ st1.queries = mapSet st.queries st.qName q5
          ∧ st1.idx = st.idx + 1 ∧ st1.FF = true ∧ st1.qName = st.qName) := by
  unfold parseStep at h
  generalize parseLine T line = pl at h ⊢
  obtain ⟨ty, tag, val⟩ := pl
  simp only at h ⊢
  by_cases h4 : ty = lineToSkip
  · subst h4
    simp only [if_true] at h
    cases h
    left; simp [lineToSkip, lineName, lastLineQuery]
  · simp only [h4, if_false] at h
    by_cases h0 : ty = lineName
    · subst h0
      simp only [if_true] at h
      split_ifs at h with hd
      cases h
      right; left
      simpa using hd
    · simp only [h0, if_false] at h
      by_cases h3 : ty = lineTag
      · subst h3
        simp only [if_true] at h
        by_cases hff : st.FF = true
        · simp only [hff, if_true] at h
          cases h
          left; simp [lineTag, lineName, lastLineQuery]
        · simp only [hff, if_false] at h
          cases hq : st.q with
          | none => simp [hq] at h
          | some q =>
            simp only [hq] at h
            cases h
            right; right; left
            simp [lineTag, lineName, lastLineQuery, Bool.eq_false_iff.mpr hff]
      · simp only [h3, if_false] at h
        by_cases h12 : ty = lineQuery ∨ ty = lastLineQuery
        · simp only [h12, if_true] at h
          by_cases hff : st.FF = true
          · simp only [hff, if_true] at h
            cases h
            left; simp [h0, hff]
          · simp only [hff, if_false] at h
            cases hq : st.q with
            | none => simp [hq] at h
            | some q =>
              simp only [hq] at h
              by_cases h2 : ty = lastLineQuery
              · simp only [h2, if_true] at h
                generalize sqlType T _ = r at h
                cases r with
                | none => simp at h
                | some ty1 =>
                  simp only at h
                  cases h
                  right; right; right
                  refine ⟨Bool.eq_false_iff.mpr hff, h2, _, ?_, rfl, rfl, rfl, rfl⟩
                  split_ifs <;> rfl
              · simp only [h2, if_false] at h
                cases h
                right; right; left
                simp [h0, h2, Bool.eq_false_iff.mpr hff]
        · simp only [h12, if_false] at h
          cases h
          left
          refine ⟨rfl, h0, ?_⟩
          intro e; exact absurd (Or.inr e) h12

theorem parseLoop_append (T : CaseTables) (a b : List Str) : ∀ st : ParseState,
    parseLoop T st (a ++ b) =
      match parseLoop T st a with
      | .error e => .error e
      | .ok st1 => parseLoop T st1 b := by
  induction a with
  | nil => intro st; simp [parseLoop]
  | cons l a ih =>
    intro st
    simp only [List.cons_append, parseLoop]
    cases parseStep T st l with
    | error e => rfl
    | ok st1 => exact ih st1

theorem parseStep_inv (T : CaseTables) (st st1 : ParseState) (line : Str)
    (h : parseStep T st line = .ok st1) (hi : ParseInv st) :
    ParseInv st1 ∧ ∀ rest : List Str,
      st.queries.map Prod.fst ++ completedFrom T (!st.FF) st.qName (line :: rest)
        = st1.queries.map Prod.fst ++ completedFrom T (!st1.FF) st1.qName rest := by
  obtain ⟨hnd, hidx, hpend⟩ := hi
  rcases parseStep_ok T st st1 line h with
    ⟨rfl, hn, hl⟩ | ⟨hn, hfree, hq, hi1, hff, hname, _⟩ | ⟨hff0, hn, hl, hq, hi1, hff, hname, _⟩
      | ⟨hff0, hl, q5, hq5, hq, hi1, hff, hname⟩
  · refine ⟨⟨hnd, hidx, hpend⟩, fun rest => ?_⟩
    have : ¬ ((parseLine T line).Type_ = lastLineQuery ∧ (!st1.FF) = true) := by
      rintro ⟨a, b⟩
      rw [hl a] at b
      simp at b
    simp only [completedFrom, hn, if_false, this]
  · refine ⟨⟨by rw [hq]; exact hnd, by rw [hq, hi1]; exact hidx, fun _ => ?_⟩, fun rest => ?_⟩
    · rw [hq, hname]; exact hfree
    · simp only [completedFrom, hn, if_true, hq, hff, hname, Bool.not_false]
  · refine ⟨⟨by rw [hq]; exact hnd, by rw [hq, hi1]; exact hidx, fun _ => ?_⟩, fun rest => ?_⟩
    · rw [hq, hname]; exact hpend hff0
    · simp only [completedFrom, hn, hl, if_false, false_and, hq, hff, hname, hff0]
  · have hfresh := mapSet_fresh st.queries st.qName q5 (hpend hff0)
    have hnot : st.qName ∉ st.queries.map Prod.fst :=
      (mapGet_eq_none_iff st.queries st.qName).mp (hpend hff0)
    refine ⟨⟨?_, ?_, fun hf => ?_⟩, fun rest => ?_⟩
    · rw [hq, hfresh, List.map_append, List.nodup_append]
      refine ⟨hnd, by simp, ?_⟩
      intro a ha hb
      simp only [List.map_cons, List.map_nil, List.mem_singleton] at hb
      subst hb
      exact hnot ha
    · rw [hq, hfresh, hi1, List.map_append, hidx, List.range_succ]
      simp [hq5]
    · rw [hff] at hf; cases hf
    · have hne : (parseLine T line).Type_ ≠ lineName := by
        rw [hl]; simp [lastLineQuery, lineName]
      have hne2 : ¬ (lastLineQuery = lineName) := by simp [lastLineQuery, lineName]
      simp only [completedFrom, hne2, if_false, hl, hff0, Bool.not_false, and_self, if_true,
        hq, hfresh, List.map_append, List.map_cons, List.map_nil, hff, hname, Bool.not_true,
        List.append_assoc, List.singleton_append]

theorem parseLoop_inv (T : CaseTables) (lines : List Str) : ∀ st st1 : ParseState,
    parseLoop T st lines = .ok st1 → ParseInv st →
    ParseInv st1 ∧ st1.queries.map Prod.fst
      = st.queries.map Prod.fst ++ completedFrom T (!st.FF) st.qName lines := by
  induction lines with
  | nil =>
    intro st st1 h hi
    simp only [parseLoop] at h
    cases h
    exact ⟨hi, by simp [completedFrom]⟩
  | cons l ls ih =>
    intro st st1 h hi
    simp only [parseLoop] at h
    cases hs : parseStep T st l with
    | error e => rw [hs] at h; cases h
    | ok st2 =>
      rw [hs] at h
      obtain ⟨hi2, hc⟩ := parseStep_inv T st st2 l hs hi
      obtain ⟨hi1, hk⟩ := ih st2 st1 h hi2
      exact ⟨hi1, by rw [hk, hc ls]⟩

theorem parseInit_inv : ParseInv parseInit := by
  simp [ParseInv, parseInit]

/-- The shape of a collection `ParseReader` returns: its entries carry the
names of the completed statements, in completion order, with the ordinals
`0, 1, ...`. -/
theorem ParseReader_shape (T : CaseTables) (lines : List Str) (qs : Queries)
    (h : ParseReader T lines = .ok qs) :
    (qs.map Prod.fst).Nodup ∧ qs.map (fun e => e.2.idx) = List.range qs.length
      ∧ qs.map Prod.fst = completed T lines := by
  unfold ParseReader at h
  cases hl : parseLoop T parseInit lines with
  | error e => rw [hl] at h; cases h
  | ok st =>
    rw [hl] at h
    cases h
    obtain ⟨⟨hnd, hidx, _⟩, hk⟩ := parseLoop_inv T lines parseInit st hl parseInit_inv
    have hlen : st.queries.length = st.idx := by
      have := congrArg List.length hidx
      simpa using this
    refine ⟨hnd, by rw [hlen]; exact hidx, ?_⟩
    rw [hk]
    simp [parseInit, completed]

theorem idx_of_getElem? (qs : Queries) (hidx : qs.map (fun e => e.2.idx) = List.range qs.length)
    (k : Nat) (e : Str × Query) (h : qs[k]? = some e) : e.2.idx = k := by
  have h1 : (qs.map (fun e => e.2.idx))[k]? = some e.2.idx := by
    rw [List.getElem?_map, h]; rfl
  rw [hidx] at h1
  have hk : k < qs.length := (List.getElem?_eq_some_iff.mp h).1
  rw [List.getElem?_range hk] at h1
  exact (Option.some.inj h1).symm

/-- C1: when `ParseReader` succeeds with a collection of `N` statements, the
names are distinct, `N` is the number of completed statements, the ordinals
are exactly `0 .. N-1`, each used once, and the statement of ordinal `k` is the
one whose terminating fragment was the `(k+1)`-th to be met. -/
theorem ParseReader_ordinals (T : CaseTables) (lines : List Str) (qs : Queries)
    (h : ParseReader T lines = .ok qs) :
    (qs.map Prod.fst).Nodup
    ∧ qs.length = (completed T lines).length
    ∧ (qs.map (fun e => e.2.idx)).Perm (List.range qs.length)
    ∧ (∀ k name, (completed T lines)[k]? = some name →
        ∃ q, mapGet qs name = some q ∧ q.idx = k)
    ∧ (∀ name q, mapGet qs name = some q → (completed T lines)[q.idx]? = some name) := by
  obtain ⟨hnd, hidx, hkeys⟩ := ParseReader_shape T lines qs h
  refine ⟨hnd, ?_, ?_, ?_, ?_⟩
  · rw [← hkeys, List.length_map]
  · rw [hidx]
  · intro k name hk
    rw [← hkeys, List.getElem?_map] at hk
    cases he : qs[k]? with
    | none => rw [he] at hk; cases hk
    | some e =>
      rw [he] at hk
      obtain ⟨n, q⟩ := e
      simp only [Option.map_some', Option.some.injEq] at hk
      subst hk
      exact ⟨q, mapGet_of_mem qs n q hnd (List.getElem?_mem he),
        idx_of_getElem? qs hidx k (n, q) he⟩
  · intro name q hq
    obtain ⟨k, hk⟩ := List.mem_iff_getElem?.mp (mem_of_mapGet qs name q hq)
    have hi : q.idx = k := idx_of_getElem? qs hidx k (name, q) hk
    rw [← hkeys, List.getElem?_map, hi, hk]
    rfl

theorem ParseReader_ordinals_witness :
    ParseReader CaseTables.ascii sampleTwo = .ok sampleTwoQueries
    ∧ completed CaseTables.ascii sampleTwo = [bytes "select1", bytes "update1"]
    ∧ sampleTwoQueries.length = (completed CaseTables.ascii sampleTwo).length
    ∧ (sampleTwoQueries.map (fun e => e.2.idx)).Perm (List.range sampleTwoQueries.length) :=
  ⟨by decide, by decide,
    (ParseReader_ordinals CaseTables.ascii sampleTwo sampleTwoQueries (by decide)).2.1,
    (ParseReader_ordinals CaseTables.ascii sampleTwo sampleTwoQueries (by decide)).2.2.1⟩

theorem parseStep_duplicate (T : CaseTables) (st : ParseState) (line : Str)
    (hname : (parseLine T line).Type_ = lineName)
    (hdup : (mapGet st.queries (ToLower T (parseLine T line).Value)).isSome = true) :
    parseStep T st line = .error (.duplicated (ToLower T (parseLine T line).Value)) := by
  unfold parseStep
  have h4 : ¬ (lineName = lineToSkip) := by simp [lineName, lineToSkip]
  simp only [hname, h4, if_false, if_true, hdup]

theorem ParseReader_stops_at_duplicate (T : CaseTables) (pre : List Str) (line : Str)
    (post : List Str) (qs : Queries) (hpre : ParseReader T pre = .ok qs)
    (hname : (parseLine T line).Type_ = lineName)
    (hdup : (mapGet qs (ToLower T (parseLine T line).Value)).isSome = true) :
    ParseReader T (pre ++ line :: post)
      = .error (.duplicated (ToLower T (parseLine T line).Value)) := by
  unfold ParseReader at hpre ⊢
  rw [parseLoop_append]
  cases hl : parseLoop T parseInit pre with
  | error e => rw [hl] at hpre; cases hpre
  | ok st =>
    rw [hl] at hpre
    cases hpre
    simp only [parseLoop, parseStep_duplicate T st line hname hdup]

theorem completedFrom_mem (T : CaseTables) (l1 lt : Str) (mid tail : List Str)
    (h1 : (parseLine T l1).Type_ = lineName)
    (hmid : ∀ m ∈ mid, (parseLine T m).Type_ ≠ lineName ∧ (parseLine T m).Type_ ≠ lastLineQuery)
    (ht : (parseLine T lt).Type_ = lastLineQuery) (before : List Str) :
    ∀ (inside : Bool) (name : Str),
      ToLower T (parseLine T l1).Value
        ∈ completedFrom T inside name (before ++ l1 :: (mid ++ lt :: tail)) := by
  have hmidk : ∀ (ms : List Str), (∀ m ∈ ms, (parseLine T m).Type_ ≠ lineName
      ∧ (parseLine T m).Type_ ≠ lastLineQuery) → ∀ n : Str,
      n ∈ completedFrom T true n (ms ++ lt :: tail) := by
    intro ms
    induction ms with
    | nil =>
      intro _ n
      have hne : ¬ (lastLineQuery = lineName) := by simp [lastLineQuery, lineName]
      simp [completedFrom, ht, hne]
    | cons m ms ih =>
      intro hm n
      have := hm m (List.mem_cons_self _ _)
      simp only [List.cons_append, completedFrom, this.1, this.2, if_false, false_and]
      exact ih (fun x hx => hm x (List.mem_cons_of_mem _ hx)) n
  induction before with
  | nil =>
    intro inside name
    simp only [List.nil_append, completedFrom, h1, if_true]
    exact hmidk mid hmid _
  | cons b before ih =>
    intro inside name
    simp only [List.cons_append, completedFrom]
    split_ifs
    · exact ih _ _
    · exact List.mem_cons_of_mem _ (ih _ _)
    · exact ih _ _

theorem duplicate_completed_lines (T : CaseTables) (before : List Str) (l1 : Str)
    (mid : List Str) (lt : Str) (between : List Str) (l2 : Str) (post : List Str)
    (h1 : (parseLine T l1).Type_ = lineName)
    (hmid : ∀ m ∈ mid, (parseLine T m).Type_ ≠ lineName ∧ (parseLine T m).Type_ ≠ lastLineQuery)
    (ht : (parseLine T lt).Type_ = lastLineQuery)
    (h2 : (parseLine T l2).Type_ = lineName)
    (hsame : ToLower T (parseLine T l2).Value = ToLower T (parseLine T l1).Value)
    (hpre : ∃ qs, ParseReader T (before ++ l1 :: (mid ++ lt :: between)) = .ok qs) :
    ParseReader T ((before ++ l1 :: (mid ++ lt :: between)) ++ l2 :: post)
      = .error (.duplicated (ToLower T (parseLine T l2).Value)) := by
  obtain ⟨qs, hqs⟩ := hpre
  obtain ⟨_, _, hkeys⟩ := ParseReader_shape T _ qs hqs
  have hmem := completedFrom_mem T l1 lt mid between h1 hmid ht before false []
  have hin : ToLower T (parseLine T l2).Value ∈ qs.map Prod.fst := by
    rw [hkeys, hsame]; exact hmem
  have hsome : (mapGet qs (ToLower T (parseLine T l2).Value)).isSome = true := by
    cases hg : mapGet qs (ToLower T (parseLine T l2).Value) with
    | none => exact absurd hin ((mapGet_eq_none_iff qs _).mp hg)
    | some q => rfl
  exact ParseReader_stops_at_duplicate T _ l2 post qs hqs h2 hsome

/-! ## Theorems: iterators -/

theorem foldlM_writeStep (p : Str × Query → Bool) (es : Queries) : ∀ foi : List Str,
    (∀ e ∈ es, e.2.idx < foi.length) → (es.map (fun e => e.2.idx)).Nodup →
    ∃ foi1, es.foldlM (writeStep p) foi = some foi1 ∧ foi1.length = foi.length
      ∧ (∀ e ∈ es, p e = true → foi1[e.2.idx]? = some e.1)
      ∧ (∀ i, (∀ e ∈ es, p e = true → e.2.idx ≠ i) → foi1[i]? = foi[i]?) := by
  induction es with
  | nil =>
    intro foi _ _
    exact ⟨foi, by simp, rfl, by simp, by simp⟩
  | cons e es ih =>
    intro foi hlt hnd
    have hlt_e : e.2.idx < foi.length := hlt e (List.mem_cons_self _ _)
    simp only [List.map_cons, List.nodup_cons] at hnd
    by_cases hp : p e = true
    · have hstep : writeStep p foi e = some (foi.set e.2.idx e.1) := by
        simp [writeStep, hp, setAt, hlt_e]
      obtain ⟨foi1, hf, hlen, hw, hu⟩ := ih (foi.set e.2.idx e.1)
        (fun x hx => by rw [List.length_set]; exact hlt x (List.mem_cons_of_mem _ hx)) hnd.2
      refine ⟨foi1, ?_, by rw [hlen, List.length_set], ?_, ?_⟩
      · rw [List.foldlM_cons, hstep]; exact hf
      · intro x hx hpx
        rcases List.mem_cons.mp hx with rfl | hx
        · rw [hu x.2.idx]
          · simp [List.getElem?_set_self, hlt_e]
          · intro y hy _ hxy
            exact hnd.1 (List.mem_map.mpr ⟨y, hy, hxy⟩)
        · exact hw x hx hpx
      · intro i hi
        rw [hu i (fun y hy hpy => hi y (List.mem_cons_of_mem _ hy) hpy)]
        have hne : e.2.idx ≠ i := hi e (List.mem_cons_self _ _) hp
        simp [List.getElem?_set_ne hne]
    · have hstep : writeStep p foi e = some foi := by
        simp [writeStep, hp]
      obtain ⟨foi1, hf, hlen, hw, hu⟩ := ih foi
        (fun x hx => hlt x (List.mem_cons_of_mem _ hx)) hnd.2
      refine ⟨foi1, ?_, hlen, ?_, ?_⟩
      · rw [List.foldlM_cons, hstep]; exact hf
      · intro x hx hpx
        rcases List.mem_cons.mp hx with rfl | hx
        · exact absurd hpx hp
        · exact hw x hx hpx
      · intro i hi
        exact hu i (fun y hy hpy => hi y (List.mem_cons_of_mem _ hy) hpy)

/-- The first loop of an iterator constructor, run over the entries of a
collection `ParseReader` built, in any order: slot `k` receives the name of
the statement of ordinal `k` when `p` keeps it, and stays empty otherwise. -/
theorem foldlM_writeStep_shape (p : Str × Query → Bool) (qs es : Queries)
    (hidx : qs.map (fun e => e.2.idx) = List.range qs.length)
    (hes : es.Perm qs) :
    es.foldlM (writeStep p) (List.replicate es.length [])
      = some (qs.map (fun e => if p e then e.1 else [])) := by
  have hlen : es.length = qs.length := hes.length_eq
  have hidx_nd : (es.map (fun e => e.2.idx)).Nodup := by
    rw [(hes.map _).nodup_iff, hidx]; exact List.nodup_range _
  have hpos : ∀ e ∈ qs, qs[e.2.idx]? = some e := by
    intro e he
    obtain ⟨k, hk⟩ := List.mem_iff_getElem?.mp he
    rw [idx_of_getElem? qs hidx k e hk]; exact hk
  have hlt : ∀ e ∈ es, e.2.idx < (List.replicate es.length ([] : Str)).length := by
    intro e he
    rw [List.length_replicate, hlen]
    exact (List.getElem?_eq_some_iff.mp (hpos e (hes.mem_iff.mp he))).1
  obtain ⟨foi1, hf, hl1, hw, hu⟩ := foldlM_writeStep p es _ hlt hidx_nd
  rw [hf]
  congr 1
  apply List.ext_getElem?
  intro i
  by_cases hi : i < qs.length
  · have hqi : qs[i]? = some qs[i] := List.getElem?_eq_getElem hi
    have hmem : qs[i] ∈ es := hes.mem_iff.mpr (List.getElem_mem hi)
    have hidxi : qs[i].2.idx = i := idx_of_getElem? qs hidx i _ hqi
    rw [List.getElem?_map, hqi, Option.map_some']
    by_cases hp : p qs[i] = true
    · rw [if_pos hp, ← hw _ hmem hp, hidxi]
    · rw [if_neg hp, hu i]
      · rw [List.getElem?_replicate]; simp [hlen, hi]
      · intro y hy hpy hyi
        have := hpos y (hes.mem_iff.mp hy)
        rw [hyi, hqi] at this
        exact hp (by rw [Option.some.inj this]; exact hpy)
  · have h1 : foi1.length ≤ i := by
      rw [hl1, List.length_replicate, hlen]; omega
    rw [List.getElem?_eq_none h1, List.getElem?_eq_none (by rw [List.length_map]; omega)]

theorem initFileOrderIterator_eq (q : Queries) :
    initFileOrderIterator q
      = q.foldlM (writeStep (fun _ => true)) (List.replicate q.length []) := by
  rfl

theorem foldlM_initIteratorStep (dql : Bool) (es : Queries) : ∀ (foi : List Str) (cant : Nat),
    es.foldlM (initIteratorStep dql) (foi, cant)
      = (es.foldlM (writeStep (qualifies dql)) foi).map
          (fun f => (f, cant + (es.filter (qualifies dql)).length)) := by
  induction es with
  | nil => intro foi cant; simp
  | cons e es ih =>
    intro foi cant
    rw [List.foldlM_cons, List.foldlM_cons]
    by_cases hq : qualifies dql e = true
    · have hstep : initIteratorStep dql (foi, cant) e
          = (setAt foi e.2.idx e.1).map (fun f => (f, cant + 1)) := by
        unfold initIteratorStep
        cases dql <;> simp [qualifies] at hq <;> simp [hq]
      rw [hstep]
      simp only [writeStep, hq, if_true, List.filter_cons_of_pos]
      cases setAt foi e.2.idx e.1 with
      | none => rfl
      | some f =>
        simp only [Option.map_some', Option.some_bind, Option.bind_eq_bind]
        rw [ih]
        simp [Nat.add_assoc, Nat.add_comm 1]
    · have hstep : initIteratorStep dql (foi, cant) e = some (foi, cant) := by
        unfold initIteratorStep
        cases dql <;> simp [qualifies] at hq <;> simp [hq]
      rw [hstep]
      simp only [writeStep, hq, List.filter_cons_of_neg, Bool.false_eq_true, if_false,
        not_false_eq_true]
      simp only [Option.some_bind, Option.bind_eq_bind]
      exact ih foi cant

theorem notEmpty_nil : notEmpty [] = false := by simp [notEmpty]

theorem notEmpty_of_ne (f : Str) (h : f ≠ []) : notEmpty f = true := by simp [notEmpty, h]

theorem foldlM_compactStep (foi : List Str) : ∀ (pre : List Str) (m : Nat),
    (foi.filter notEmpty).length ≤ m →
    foi.foldlM compactStep (pre ++ List.replicate m [], pre.length)
      = some (pre ++ foi.filter notEmpty
          ++ List.replicate (m - (foi.filter notEmpty).length) [],
        pre.length + (foi.filter notEmpty).length) := by
  induction foi with
  | nil => intro pre m _; simp
  | cons f fs ih =>
    intro pre m hm
    rw [List.foldlM_cons]
    by_cases hf : f = []
    · subst hf
      have hstep : compactStep (pre ++ List.replicate m [], pre.length) []
          = some (pre ++ List.replicate m [], pre.length) := by
        simp [compactStep]
      rw [hstep]
      simp only [Option.some_bind, Option.bind_eq_bind]
      have hfil : List.filter notEmpty (([] : Str) :: fs) = List.filter notEmpty fs :=
        List.filter_cons_of_neg (by simp [notEmpty_nil])
      rw [hfil] at hm ⊢
      exact ih pre m hm
    · have hfil : List.filter notEmpty (f :: fs) = f :: List.filter notEmpty fs :=
        List.filter_cons_of_pos (notEmpty_of_ne f hf)
      rw [hfil] at hm ⊢
      simp only [List.length_cons] at hm ⊢
      obtain ⟨m1, rfl⟩ : ∃ m1, m = m1 + 1 := ⟨m - 1, by omega⟩
      have hset : (pre ++ List.replicate (m1 + 1) ([] : Str)).set pre.length f
          = (pre ++ [f]) ++ List.replicate m1 [] := by
        rw [List.set_append_right _ _ (le_refl _)]
        simp [List.replicate_succ]
      have hstep : compactStep (pre ++ List.replicate (m1 + 1) [], pre.length) f
          = some ((pre ++ [f]) ++ List.replicate m1 [], (pre ++ [f]).length) := by
        simp only [compactStep, setAt, ne_eq, hf, not_false_eq_true, if_true]
        rw [if_pos (by simp), hset]
        simp
      rw [hstep]
      simp only [Option.some_bind, Option.bind_eq_bind]
      rw [ih (pre ++ [f]) m1 (by omega)]
      simp [Nat.add_assoc, Nat.add_comm 1]

theorem filter_notEmpty_slots (p : Str × Query → Bool) (qs : Queries) :
    (qs.map (fun e => if p e then e.1 else [])).filter notEmpty
      = ((qs.filter p).map Prod.fst).filter notEmpty := by
  induction qs with
  | nil => rfl
  | cons e qs ih =>
    by_cases hp : p e = true
    · rw [List.map_cons, if_pos hp, List.filter_cons_of_pos hp, List.map_cons]
      by_cases he : notEmpty e.1 = true
      · rw [List.filter_cons_of_pos he, List.filter_cons_of_pos he, ih]
      · rw [List.filter_cons_of_neg he, List.filter_cons_of_neg he, ih]
    · rw [List.map_cons, if_neg hp, List.filter_cons_of_neg hp,
        List.filter_cons_of_neg (by simp [notEmpty_nil]), ih]

/-- The list `initIterator` returns for a collection `ParseReader` built,
whatever the order in which `range` visits the collection: the names of the
statements it keeps, in ordinal order, except that an empty name is moved to
the end. -/
theorem initIterator_shape (dql : Bool) (qs es : Queries)
    (hidx : qs.map (fun e => e.2.idx) = List.range qs.length) (hes : es.Perm qs) :
    initIterator es dql = some (emptyLast ((qs.filter (qualifies dql)).map Prod.fst)) := by
  unfold initIterator
  rw [foldlM_initIteratorStep, foldlM_writeStep_shape (qualifies dql) qs es hidx hes]
  have hcant : (es.filter (qualifies dql)).length = (qs.filter (qualifies dql)).length :=
    (hes.filter _).length_eq
  simp only [Option.map_some', Nat.zero_add, hcant]
  by_cases h0 : (qs.filter (qualifies dql)).length = 0
  · rw [if_pos h0]
    have : qs.filter (qualifies dql) = [] := List.length_eq_zero.mp h0
    simp [this, emptyLast]
  · rw [if_neg h0]
    have hle : ((qs.map (fun e => if qualifies dql e then e.1 else [])).filter
        notEmpty).length ≤ (qs.filter (qualifies dql)).length := by
      rw [filter_notEmpty_slots]
      exact (List.length_filter_le _ _).trans (by rw [List.length_map])
    have := foldlM_compactStep (qs.map (fun e => if qualifies dql e then e.1 else [])) []
      (qs.filter (qualifies dql)).length hle
    simp only [List.nil_append, List.length_nil] at this
    rw [this, filter_notEmpty_slots]
    simp [emptyLast]

theorem mapGet_perm (qs es : Queries) (hnd : (qs.map Prod.fst).Nodup) (hes : es.Perm qs)
    (name : Str) : mapGet es name = mapGet qs name := by
  have hnd2 : (es.map Prod.fst).Nodup := ((hes.map _).nodup_iff).mpr hnd
  cases hq : mapGet qs name with
  | none =>
    rw [mapGet_eq_none_iff] at hq ⊢
    intro hm
    exact hq (((hes.map Prod.fst).mem_iff).mp hm)
  | some q =>
    exact mapGet_of_mem es name q hnd2 (hes.mem_iff.mpr (mem_of_mapGet qs name q hq))

theorem Iterate_true (it : Iterator) (j : Nat) (q : Query) (hid : it.idNames = (j : Int) - 1)
    (hj : j < it.orderedNames.length)
    (hq : mapGet it.queries (it.orderedNames.getD j []) = some q) :
    Iterate it = some (true, { it with idNames := (j : Int), query := some q }) := by
  unfold Iterate
  have h1 : it.idNames + 1 = (j : Int) := by rw [hid]; omega
  have h2 : ¬ ((j : Int) > (it.orderedNames.length : Int) - 1) := by omega
  have h3 : ¬ ((j : Int) < 0) := by omega
  simp only [h1, h2, h3, if_false, Int.toNat_ofNat, Queries.Query, hq]
  simp

theorem Iterate_end (it : Iterator) (j : Nat) (hid : it.idNames = (j : Int) - 1)
    (hj : it.orderedNames.length ≤ j) :
    Iterate it = some (false, { it with idNames := (j : Int) }) := by
  unfold Iterate
  have h1 : it.idNames + 1 = (j : Int) := by rw [hid]; omega
  have h2 : (j : Int) > (it.orderedNames.length : Int) - 1 := by omega
  simp only [h1, h2, if_true]

theorem iterateN_true (es : Queries) (names : List Str)
    (hall : ∀ k, k < names.length → ∃ q, mapGet es (names.getD k []) = some q) (m : Nat) :
    ∀ (j : Nat) (it : Iterator), it.queries = es → it.orderedNames = names →
      it.idNames = (j : Int) - 1 → j + m ≤ names.length →
      ∃ it1, iterateN m it = some (List.replicate m true, it1) ∧ it1.queries = es
        ∧ it1.orderedNames = names ∧ it1.idNames = ((j + m : Nat) : Int) - 1
        ∧ it1.query = if m = 0 then it.query else mapGet es (names.getD (j + m - 1) []) := by
  induction m with
  | zero =>
    intro j it hq hn hid _
    exact ⟨it, rfl, hq, hn, by simpa using hid, by simp⟩
  | succ m ih =>
    intro j it hq hn hid hjm
    obtain ⟨q, hget⟩ := hall j (by omega)
    have hstep := Iterate_true it j q hid (by rw [hn]; omega) (by rw [hq, hn]; exact hget)
    obtain ⟨it1, hrun, h1, h2, h3, h4⟩ :=
      ih (j + 1) { it with idNames := (j : Int), query := some q } hq hn
        (by simp) (by omega)
    refine ⟨it1, ?_, h1, h2, ?_, ?_⟩
    · simp only [iterateN, hstep, hrun, Option.map_some', List.replicate_succ]
    · rw [h3]; congr 2; omega
    · rw [h4]
      by_cases hm : m = 0
      · subst hm
        simp only [if_true, Nat.add_one_ne_zero, if_false, Nat.zero_add, Nat.add_sub_cancel]
        exact hget.symm
      · simp only [hm, if_false, Nat.add_one_ne_zero]
        congr 2
        omega

theorem iterateN_exhaust (es : Queries) (names : List Str)
    (hall : ∀ k, k < names.length → ∃ q, mapGet es (names.getD k []) = some q) (m : Nat) :
    ∀ (j : Nat) (it : Iterator), it.queries = es → it.orderedNames = names →
      it.idNames = (j : Int) - 1 → j + m = names.length →
      ∃ it1, iterateN (m + 1) it = some (List.replicate m true ++ [false], it1) := by
  induction m with
  | zero =>
    intro j it _ hn hid hjm
    have hstep := Iterate_end it j hid (by rw [hn]; omega)
    exact ⟨{ it with idNames := (j : Int) }, by simp [iterateN, hstep]⟩
  | succ m ih =>
    intro j it hq hn hid hjm
    obtain ⟨q, hget⟩ := hall j (by omega)
    have hstep := Iterate_true it j q hid (by rw [hn]; omega) (by rw [hq, hn]; exact hget)
    obtain ⟨it1, hrun⟩ :=
      ih (j + 1) { it with idNames := (j : Int), query := some q } hq hn
        (by simp) (by omega)
    refine ⟨it1, ?_⟩
    rw [iterateN, hstep]
    simp only [hrun, Option.map_some', List.replicate_succ, List.cons_append]

theorem initFileOrderIterator_shape (qs es : Queries)
    (hidx : qs.map (fun e => e.2.idx) = List.range qs.length) (hes : es.Perm qs) :
    initFileOrderIterator es = some (qs.map Prod.fst) := by
  rw [initFileOrderIterator_eq, foldlM_writeStep_shape (fun _ => true) qs es hidx hes]
  simp

/-- C4: for a collection of `N` statements built by `ParseReader`, in whatever
order `range` visits it, `initFileOrderIterator` makes no out-of-range write
and returns a list of length `N` holding at position `k` the name of the
statement of ordinal `k`, every statement once; a fresh file-order iterator
answers `true` to each of its first `N` calls of `Iterate`, the `(k+1)`-th
binding the statement of ordinal `k`, and `false` to call `N+1`. -/
theorem fileOrder_iterator (T : CaseTables) (lines : List Str) (qs es : Queries)
    (h : ParseReader T lines = .ok qs) (hes : es.Perm qs) :
    ∃ foi, initFileOrderIterator es = some foi
      ∧ foi.length = qs.length
      ∧ foi.Perm (qs.map Prod.fst)
      ∧ (∀ name q, mapGet qs name = some q → foi[q.idx]? = some name)
      ∧ ∃ it, NewFileOrderIterator es = some it
        ∧ (∀ k, k < qs.length → ∃ it1 q,
            iterateN (k + 1) it = some (List.replicate (k + 1) true, it1)
            ∧ it1.query = some q ∧ q.idx = k ∧ mapGet qs (foi.getD k []) = some q)
        ∧ ∃ it2, iterateN (qs.length + 1) it
            = some (List.replicate qs.length true ++ [false], it2) := by
  obtain ⟨hnd, hidx, hkeys⟩ := ParseReader_shape T lines qs h
  have hfoi := initFileOrderIterator_shape qs es hidx hes
  have hname : ∀ k, k < (qs.map Prod.fst).length →
      ∃ q, mapGet es ((qs.map Prod.fst).getD k []) = some q ∧ q.idx = k := by
    intro k hk
    rw [List.length_map] at hk
    have hqk : qs[k]? = some qs[k] := List.getElem?_eq_getElem hk
    refine ⟨qs[k].2, ?_, idx_of_getElem? qs hidx k _ hqk⟩
    rw [mapGet_perm qs es hnd hes]
    have : (qs.map Prod.fst).getD k [] = qs[k].1 := by
      simp [List.getD, List.getElem?_map, hqk]
    rw [this]
    exact mapGet_of_mem qs _ _ hnd (List.getElem_mem hk)
  have hall : ∀ k, k < (qs.map Prod.fst).length →
      ∃ q, mapGet es ((qs.map Prod.fst).getD k []) = some q :=
    fun k hk => (hname k hk).imp fun _ hq => hq.1
  refine ⟨qs.map Prod.fst, hfoi, by simp, List.Perm.refl _, ?_, ?_⟩
  · intro name q hq
    obtain ⟨k, hk⟩ := List.mem_iff_getElem?.mp (mem_of_mapGet qs name q hq)
    have hi : q.idx = k := idx_of_getElem? qs hidx k (name, q) hk
    rw [List.getElem?_map, hi, hk]
    rfl
  · refine ⟨⟨es, qs.map Prod.fst, -1, none⟩, by simp [NewFileOrderIterator, hfoi], ?_, ?_⟩
    · intro k hk
      obtain ⟨it1, hrun, _, _, _, hq⟩ :=
        iterateN_true es (qs.map Prod.fst) hall (k + 1) 0 ⟨es, qs.map Prod.fst, -1, none⟩
          rfl rfl (by simp) (by simp; omega)
      obtain ⟨q, hget, hqi⟩ := hname k (by simpa using hk)
      refine ⟨it1, q, hrun, ?_, hqi, ?_⟩
      · rw [hq]; simpa using hget
      · rw [← mapGet_perm qs es hnd hes]; exact hget
    · have := iterateN_exhaust es (qs.map Prod.fst) hall qs.length 0
        ⟨es, qs.map Prod.fst, -1, none⟩ rfl rfl (by simp) (by simp)
      exact this

theorem fileOrder_iterator_witness :
    ParseReader CaseTables.ascii sampleTwo = .ok sampleTwoQueries
    ∧ sampleTwoQueries.reverse.Perm sampleTwoQueries
    ∧ ∃ foi, initFileOrderIterator sampleTwoQueries.reverse = some foi
        ∧ foi.length = sampleTwoQueries.length :=
  ⟨by decide, List.reverse_perm _,
    (fileOrder_iterator CaseTables.ascii sampleTwo sampleTwoQueries sampleTwoQueries.reverse
      (by decide) (List.reverse_perm _)).imp fun _ hf => ⟨hf.1, hf.2.1⟩⟩

/-- C5: on two updates of which the first has the empty name, the sequential
ordering is not the list of names in ordinal order: whichever way `range`
visits the collection, `initSequentialIterator` returns the name `b` of the
statement of ordinal 1 first and the empty name of the statement of ordinal 0
last, while the file order has them the other way round. -/
theorem initSequentialIterator_empty_name :
    ParseReader CaseTables.ascii sampleEmptyName = .ok sampleEmptyNameQueries
    ∧ initFileOrderIterator sampleEmptyNameQueries = some [[], bytes "b"]
    ∧ initSequentialIterator sampleEmptyNameQueries = some [bytes "b", []]
    ∧ initSequentialIterator sampleEmptyNameQueries.reverse = some [bytes "b", []] := by
  decide

theorem emptyLast_perm (names : List Str) : (emptyLast names).Perm names := by
  have hsplit := List.filter_append_perm notEmpty names
  have hrest : names.filter (fun x => !notEmpty x)
      = List.replicate (names.length - (names.filter notEmpty).length) [] := by
    rw [List.eq_replicate_iff]
    constructor
    · have := hsplit.length_eq
      rw [List.length_append] at this
      omega
    · intro b hb
      have := (List.mem_filter.mp hb).2
      simpa [notEmpty] using this
  unfold emptyLast
  rw [← hrest]
  exact hsplit

theorem qualifies_length (qs : Queries) :
    (qs.filter (qualifies false)).length + (qs.filter (qualifies true)).length = qs.length := by
  induction qs with
  | nil => rfl
  | cons e qs ih =>
    by_cases h : e.2.Type_ = DQL
    · have h1 : qualifies false e = false := by simp [qualifies, h]
      have h2 : qualifies true e = true := by simp [qualifies, h]
      rw [List.filter_cons_of_neg (by simp [h1]), List.filter_cons_of_pos h2]
      simp only [List.length_cons]
      omega
    · have h1 : qualifies false e = true := by simp [qualifies, h]
      have h2 : qualifies true e = false := by simp [qualifies, h]
      rw [List.filter_cons_of_pos h1, List.filter_cons_of_neg (by simp [h2])]
      simp only [List.length_cons]
      omega

/-- C6 (amended): for a collection built by `ParseReader`, in whatever order
`range` visits it, a statement of kind Unknown appears in the sequential
ordering and does not appear in the concurrent-eligible ordering, and
`len(sequential) + len(concurrent)` equals the size of the collection. -/
theorem unknown_is_sequential (T : CaseTables) (lines : List Str) (qs es1 es2 : Queries)
    (h : ParseReader T lines = .ok qs) (h1 : es1.Perm qs) (h2 : es2.Perm qs) :
    ∃ seq conc, initSequentialIterator es1 = some seq ∧ initConcurrentIterator es2 = some conc
      ∧ (∀ name q, mapGet qs name = some q → q.Type_ = UKN → name ∈ seq ∧ name ∉ conc)
      ∧ seq.length + conc.length = qs.length := by
  obtain ⟨hnd, hidx, _⟩ := ParseReader_shape T lines qs h
  refine ⟨_, _, initIterator_shape false qs es1 hidx h1, initIterator_shape true qs es2 hidx h2,
    ?_, ?_⟩
  · intro name q hq hu
    have hmem := mem_of_mapGet qs name q hq
    constructor
    · rw [(emptyLast_perm _).mem_iff]
      refine List.mem_map.mpr ⟨(name, q), List.mem_filter.mpr ⟨hmem, ?_⟩, rfl⟩
      simp [qualifies, hu, UKN, DQL]
    · rw [(emptyLast_perm _).mem_iff]
      intro hc
      obtain ⟨e, he, hn⟩ := List.mem_map.mp hc
      obtain ⟨he1, he2⟩ := List.mem_filter.mp he
      obtain ⟨n, q1⟩ := e
      simp only at hn
      subst hn
      have := mapGet_of_mem qs n q1 hnd he1
      rw [hq] at this
      cases this
      simp [qualifies, hu, UKN, DQL] at he2
  · rw [(emptyLast_perm _).length_eq, (emptyLast_perm _).length_eq, List.length_map,
      List.length_map]
    exact qualifies_length qs

theorem unknown_is_sequential_witness :
    ParseReader CaseTables.ascii sampleUnknown = .ok sampleUnknownQueries
    ∧ ∃ seq conc, initSequentialIterator sampleUnknownQueries = some seq
        ∧ initConcurrentIterator sampleUnknownQueries = some conc
        ∧ seq.length + conc.length = sampleUnknownQueries.length :=
  ⟨by decide,
    (unknown_is_sequential CaseTables.ascii sampleUnknown sampleUnknownQueries
      sampleUnknownQueries sampleUnknownQueries (by decide) (List.Perm.refl _)
      (List.Perm.refl _)).imp fun _ hs => hs.imp fun _ hc => ⟨hc.1, hc.2.1, hc.2.2.2⟩⟩

/-- C6, as stated, fails: the only statement of this collection is of kind
Unknown, it is in the sequential ordering, and the two orderings together are
as long as the collection, not shorter. -/
theorem unknown_not_excluded :
    ParseReader CaseTables.ascii sampleUnknown = .ok sampleUnknownQueries
    ∧ (mapGet sampleUnknownQueries (bytes "a")).map (fun q => q.Type_) = some UKN
    ∧ initSequentialIterator sampleUnknownQueries = some [bytes "a"]
    ∧ initConcurrentIterator sampleUnknownQueries = some []
    ∧ ¬ ([bytes "a"].length + ([] : List Str).length < sampleUnknownQueries.length) := by
  decide

/-- C9: on the text of the test of `scapeColon`, the colons of the placeholders
`:FechaIni` and `:FechaFin`, which follow `(`, are doubled, while `:CenterID`,
which follows `= `, is left as it is. -/
theorem scapeColon_doubles_placeholder :
    scapeColon (bytes "con.Cen_ID = :CenterID and con.Fecha between to_date(:FechaIni, 'YYYYMMDD') and to_date(:FechaFin, 'YYYYMMDD')")
      = bytes "con.Cen_ID = :CenterID and con.Fecha between to_date(::FechaIni, 'YYYYMMDD') and to_date(::FechaFin, 'YYYYMMDD')" := by
  decide

/-! ## Theorems: `sqlType` -/

theorem ToUpper_ascii (T : CaseTables) (s : Str) (h : isASCII s = true) :
    ToUpper T s = s.map upperByte := by
  simp [ToUpper, h]

theorem ToLower_ascii (T : CaseTables) (s : Str) (h : isASCII s = true) :
    ToLower T s = s.map lowerByte := by
  simp [ToLower, h]

theorem sqlType_ascii_eq (T : CaseTables) (q : Str) (h10 : ¬ q.length < 10)
    (ha : isASCII (q.take 10) = true) :
    sqlType T q =
      if startsWithFold (bytes "INSERT") q ∨ startsWithFold (bytes "UPDATE") q
          ∨ startsWithFold (bytes "DELETE") q then some DML
      else if startsWithFold (bytes "SELECT") q then some DQL
      else if startsWithFold (bytes "CREATE") q then some DDL
      else if startsWithFold (bytes "DROP TABLE") q ∨ startsWithFold (bytes "DROP INDEX") q then
        some DDL
      else some UKN := by
  have hl : ((q.take 10).map upperByte).length = 10 := by
    rw [List.length_map, List.length_take]; omega
  have h6 : ((q.take 10).map upperByte).take 6 = (q.take 6).map upperByte := by
    rw [← List.map_take, List.take_take]; rfl
  have h10' : ((q.take 10).map upperByte).take 10 = (q.take 10).map upperByte := by
    rw [← List.map_take, List.take_take]; rfl
  have hm : (q.take 6).map upperByte ≠ bytes "MERGE" := by
    intro e
    have := congrArg List.length e
    rw [List.length_map, List.length_take] at this
    have hb : (bytes "MERGE").length = 5 := by decide
    omega
  have l6 : ∀ kw : Str, kw.length = 6 →
      (startsWithFold kw q = true ↔ (q.take 6).map upperByte = kw) := by
    intro kw hk
    simp [startsWithFold, hk]
  have l10 : ∀ kw : Str, kw.length = 10 →
      (startsWithFold kw q = true ↔ (q.take 10).map upperByte = kw) := by
    intro kw hk
    simp [startsWithFold, hk]
  unfold sqlType
  rw [if_neg h10, ToUpper_ascii T _ ha]
  simp only [hl, h6, h10', hm, or_false]
  have e1 := l6 (bytes "INSERT") (by decide)
  have e2 := l6 (bytes "UPDATE") (by decide)
  have e3 := l6 (bytes "DELETE") (by decide)
  have e4 := l6 (bytes "SELECT") (by decide)
  have e5 := l6 (bytes "CREATE") (by decide)
  have e6 := l10 (bytes "DROP TABLE") (by decide)
  have e7 := l10 (bytes "DROP INDEX") (by decide)
  simp only [e1, e2, e3, e4, e5, e6, e7]
  simp

/-- On a text whose first ten bytes are ASCII, `sqlType` returns what the
reference definition says, wherever the reference definition says something. -/
theorem sqlType_ascii_ref (T : CaseTables) (q : Str) (k : Nat)
    (ha : isASCII (q.take 10) = true) (h : sqlTypeRef q = some k) : sqlType T q = some k := by
  by_cases h10 : q.length < 10
  · simp only [sqlTypeRef, h10, if_true] at h
    simp [sqlType, h10, h]
  · rw [sqlType_ascii_eq T q h10 ha]
    simp only [sqlTypeRef, h10, if_false] at h
    split_ifs at h ⊢ <;> exact h

/-- C11: the text `ſſſſſ;` has eleven bytes and starts with none of the
keywords, so the reference definition makes it Unknown; `sqlType` upper-cases
its first ten bytes to the five bytes `SSSSS` and panics on `s[:6]`. -/
theorem sqlType_panics_on_long_s :
    (bytes "ſſſſſ;").length = 11
    ∧ sqlTypeRef (bytes "ſſſſſ;") = some UKN
    ∧ ToUpper CaseTables.longS ((bytes "ſſſſſ;").take 10) = bytes "SSSSS"
    ∧ sqlType CaseTables.longS (bytes "ſſſſſ;") = none := by
  decide

/-- C12: a text of ten bytes or more that starts with MERGE, letter case
ignored, and whose first ten bytes are ASCII, is given the kind Unknown, not
DML: the five letters of MERGE never equal the six bytes `s[:6]`. -/
theorem sqlType_merge_unknown (T : CaseTables) (q : Str) (h10 : 10 ≤ q.length)
    (ha : isASCII (q.take 10) = true) (hm : startsWithFold (bytes "MERGE") q = true) :
    sqlType T q = some UKN := by
  have h5 : (q.take 5).map upperByte = bytes "MERGE" := by
    have hb : (bytes "MERGE").length = 5 := by decide
    simpa [startsWithFold, hb] using hm
  have no6 : ∀ kw : Str, kw.length = 6 → kw.take 5 ≠ bytes "MERGE" →
      startsWithFold kw q = false := by
    intro kw hk hne
    rw [Bool.eq_false_iff]
    intro hs
    have : (q.take 6).map upperByte = kw := by simpa [startsWithFold, hk] using hs
    apply hne
    rw [← this, ← List.map_take, List.take_take]
    exact h5
  have no10 : ∀ kw : Str, kw.length = 10 → kw.take 5 ≠ bytes "MERGE" →
      startsWithFold kw q = false := by
    intro kw hk hne
    rw [Bool.eq_false_iff]
    intro hs
    have : (q.take 10).map upperByte = kw := by simpa [startsWithFold, hk] using hs
    apply hne
    rw [← this, ← List.map_take, List.take_take]
    exact h5
  rw [sqlType_ascii_eq T q (by omega) ha,
    no6 (bytes "INSERT") (by decide) (by decide), no6 (bytes "UPDATE") (by decide) (by decide),
    no6 (bytes "DELETE") (by decide) (by decide), no6 (bytes "SELECT") (by decide) (by decide),
    no6 (bytes "CREATE") (by decide) (by decide),
    no10 (bytes "DROP TABLE") (by decide) (by decide),
    no10 (bytes "DROP INDEX") (by decide) (by decide)]
  simp

theorem sqlType_merge_unknown_witness :
    10 ≤ (bytes "merge into t using s on (t.id = s.id)").length
    ∧ isASCII ((bytes "merge into t using s on (t.id = s.id)").take 10) = true
    ∧ startsWithFold (bytes "MERGE") (bytes "merge into t using s on (t.id = s.id)") = true
    ∧ sqlType CaseTables.ascii (bytes "merge into t using s on (t.id = s.id)") = some UKN :=
  ⟨by decide, by decide, by decide,
    sqlType_merge_unknown CaseTables.ascii _ (by decide) (by decide) (by decide)⟩

/-! ## Theorems: `strings.Index` and `isQueryLastLine` -/

theorem occursAt_nil (sub : Str) (h : sub ≠ []) (p : Nat) : occursAt sub [] p = false := by
  cases sub with
  | nil => exact absurd rfl h
  | cons a t => simp [occursAt, List.isPrefixOf]

theorem occursAt_cons_succ (sub : Str) (c : Nat) (s : Str) (p : Nat) :
    occursAt sub (c :: s) (p + 1) = occursAt sub s p := by
  simp [occursAt]

theorem indexFrom_spec (sub : Str) (h : sub ≠ []) (s : Str) : ∀ i : Nat,
    (indexFrom sub s i = -1 ∧ Absent sub s)
    ∨ (∃ p, indexFrom sub s i = ((i + p : Nat) : Int) ∧ FirstAt sub s p) := by
  induction s with
  | nil =>
    intro i
    left
    have : sub.isPrefixOf [] = false := by
      cases sub with
      | nil => exact absurd rfl h
      | cons a t => rfl
    exact ⟨by simp [indexFrom, this], fun p => occursAt_nil sub h p⟩
  | cons c s ih =>
    intro i
    by_cases hp : sub.isPrefixOf (c :: s) = true
    · right
      refine ⟨0, by simp [indexFrom, hp], by simpa [occursAt] using hp, ?_⟩
      intro k hk; omega
    · have hp' : sub.isPrefixOf (c :: s) = false := Bool.eq_false_iff.mpr hp
      rcases ih (i + 1) with ⟨h1, h2⟩ | ⟨p, h1, h2, h3⟩
      · left
        refine ⟨by simp [indexFrom, hp', h1], ?_⟩
        intro p
        cases p with
        | zero => simpa [occursAt] using hp'
        | succ p => rw [occursAt_cons_succ]; exact h2 p
      · right
        refine ⟨p + 1, ?_, ?_, ?_⟩
        · simp only [indexFrom, hp', Bool.false_eq_true, if_false, h1]
          congr 1; omega
        · rw [occursAt_cons_succ]; exact h2
        · intro k hk
          cases k with
          | zero => simpa [occursAt] using hp'
          | succ k => rw [occursAt_cons_succ]; exact h3 k (by omega)

theorem firstAt_unique (sub s : Str) (p r : Nat) (hp : FirstAt sub s p) (hr : FirstAt sub s r) :
    p = r := by
  rcases Nat.lt_trichotomy p r with h | h | h
  · have := hr.2 p h; rw [hp.1] at this; cases this
  · exact h
  · have := hp.2 r h; rw [hr.1] at this; cases this

theorem Index_of_firstAt (sub s : Str) (h : sub ≠ []) (p : Nat) (hp : FirstAt sub s p) :
    Index s sub = (p : Int) := by
  rcases indexFrom_spec sub h s 0 with ⟨_, h2⟩ | ⟨r, h1, h2⟩
  · have := h2 p; rw [hp.1] at this; cases this
  · rw [Index, h1, firstAt_unique sub s p r hp h2]; simp

theorem Index_of_absent (sub s : Str) (h : sub ≠ []) (ha : Absent sub s) : Index s sub = -1 := by
  rcases indexFrom_spec sub h s 0 with ⟨h1, _⟩ | ⟨r, _, h2⟩
  · exact h1
  · have := ha r; rw [h2.1] at this; cases this

theorem Index_cases (sub s : Str) (h : sub ≠ []) :
    (Index s sub = -1 ∧ Absent sub s) ∨ (∃ p : Nat, Index s sub = (p : Int) ∧ FirstAt sub s p) := by
  rcases indexFrom_spec sub h s 0 with h1 | ⟨r, h1, h2⟩
  · exact Or.inl h1
  · exact Or.inr ⟨r, by rw [Index, h1]; simp, h2⟩

/-- Where `isQueryLastLine` does see that the first `;` of a line is shadowed:
the first `--` lies before it and not at the start of the line, in a line that
holds no `/*` and no `*/`; or the first `/*` lies before it and not at the
start of the line, with no `*/` before that `;`. -/
theorem isQueryLastLine_shadowed (line : Str) (sc : Nat) (hsc : FirstAt [59] line sc)
    (h : (∃ p, FirstAt [45, 45] line p ∧ 0 < p ∧ p < sc
            ∧ Absent [47, 42] line ∧ Absent [42, 47] line)
        ∨ (∃ o, FirstAt [47, 42] line o ∧ 0 < o ∧ o < sc
            ∧ ∀ k < sc, occursAt [42, 47] line k = false)) :
    isQueryLastLine line = false := by
  have hsemi : Index line [59] = (sc : Int) := Index_of_firstAt _ _ (by simp) sc hsc
  unfold isQueryLastLine
  have hne : ¬ ((sc : Int) = -1) := by omega
  simp only [hsemi, hne, if_false]
  rcases h with ⟨p, hp, h0, hlt, ha1, ha2⟩ | ⟨o, ho, h0, hlt, hno⟩
  · rw [Index_of_firstAt _ _ (by simp) p hp, Index_of_absent _ _ (by simp) ha1,
      Index_of_absent _ _ (by simp) ha2]
    have : (p : Int) > 0 ∧ (-1 : Int) = -1 ∧ (-1 : Int) = -1 ∧ (p : Int) < (sc : Int) := by
      refine ⟨by omega, rfl, rfl, by omega⟩
    simp only [this, and_self, if_true]
  · rw [Index_of_firstAt _ _ (by simp) o ho]
    rcases Index_cases [42, 47] line (by simp) with ⟨hc, _⟩ | ⟨c, hc, hcf⟩
    · rw [hc]
      have h1 : ¬ ((Index line [45, 45] > 0 ∧ (o : Int) = -1 ∧ (-1 : Int) = -1
          ∧ Index line [45, 45] < (sc : Int))) := by
        rintro ⟨_, h2, _⟩; omega
      have h2 : (o : Int) > 0 := by omega
      have h3 : ¬ ((-1 : Int) > 0 ∧ (sc : Int) > (o : Int) ∧ (sc : Int) < -1) := by
        rintro ⟨h4, _⟩; omega
      have h4 : (sc : Int) > (o : Int) ∧ (-1 : Int) = -1 := ⟨by omega, rfl⟩
      rw [if_neg h1, if_pos h2, if_neg h3, if_pos h4]
    · rw [hc]
      have hcs : sc < c := by
        rcases Nat.lt_trichotomy c sc with hlt2 | heq | hgt
        · have := hno c hlt2; rw [hcf.1] at this; cases this
        · subst heq
          have h1 := hsc.1
          have h2 := hcf.1
          simp only [occursAt] at h1 h2
          cases hd : line.drop c with
          | nil => rw [hd] at h1; simp [List.isPrefixOf] at h1
          | cons a t =>
            rw [hd] at h1 h2
            simp [List.isPrefixOf] at h1 h2
            omega
        · exact hgt
      have h1 : ¬ ((Index line [45, 45] > 0 ∧ (o : Int) = -1 ∧ (c : Int) = -1
          ∧ Index line [45, 45] < (sc : Int))) := by
        rintro ⟨_, h2, _⟩; omega
      have h2 : (o : Int) > 0 := by omega
      have h3 : (c : Int) > 0 ∧ (sc : Int) > (o : Int) ∧ (sc : Int) < (c : Int) :=
        ⟨by omega, by omega, by omega⟩
      rw [if_neg h1, if_pos h2, if_pos h3]

theorem isQueryLastLine_shadowed_witness :
    FirstAt [59] (bytes "select id /* comment; */") 20
    ∧ isQueryLastLine (bytes "select id /* comment; */") = false :=
  ⟨by decide, isQueryLastLine_shadowed _ 20 (by decide)
    (Or.inr ⟨10, by decide, by decide, by decide, by decide⟩)⟩

/-! ## Theorems: what each line does to the state of `ParseReader` -/

theorem parseStep_name (T : CaseTables) (st : ParseState) (line : Str)
    (hn : (parseLine T line).Type_ = lineName)
    (hfree : mapGet st.queries (ToLower T (parseLine T line).Value) = none) :
    parseStep T st line = .ok { st with
      FF := false, qName := ToLower T (parseLine T line).Value,
      q := some ⟨[], 0, mapSet [] (ToLower T (parseLine T line).Tag) (parseLine T line).Value,
        0⟩ } := by
  unfold parseStep
  have h4 : ¬ (lineName = lineToSkip) := by decide
  simp only [hn, h4, if_false, if_true, hfree, Option.isSome_none, Bool.false_eq_true]

theorem parseStep_outside (T : CaseTables) (st : ParseState) (line : Str)
    (hn : (parseLine T line).Type_ ≠ lineName) (hff : st.FF = true) :
    parseStep T st line = .ok st := by
  unfold parseStep
  simp only [hn, if_false, hff, if_true]
  split_ifs <;> rfl

theorem parseStep_idle (T : CaseTables) (st : ParseState) (line : Str)
    (hn : (parseLine T line).Type_ ≠ lineName) (ht : (parseLine T line).Type_ ≠ lineTag)
    (hq : (parseLine T line).Type_ ≠ lineQuery) (hl : (parseLine T line).Type_ ≠ lastLineQuery) :
    parseStep T st line = .ok st := by
  unfold parseStep
  simp only [hn, ht, hq, hl, if_false, or_self]
  split_ifs <;> rfl

theorem parseStep_tag (T : CaseTables) (st : ParseState) (line : Str) (q : Query)
    (ht : (parseLine T line).Type_ = lineTag) (hff : st.FF = false) (hq : st.q = some q) :
    parseStep T st line = .ok { st with
      q := some { q with
        Tags := mapSet q.Tags (ToLower T (parseLine T line).Tag) (parseLine T line).Value } } := by
  unfold parseStep
  have h4 : ¬ (lineTag = lineToSkip) := by decide
  have h0 : ¬ (lineTag = lineName) := by decide
  simp only [ht, h4, h0, if_false, if_true, hff, Bool.false_eq_true, hq]

theorem parseStep_query (T : CaseTables) (st : ParseState) (line : Str) (q : Query)
    (ht : (parseLine T line).Type_ = lineQuery) (hff : st.FF = false) (hq : st.q = some q) :
    parseStep T st line = .ok { st with
      q := some { q with Query := addFragment q.Query (parseLine T line).Value } } := by
  unfold parseStep
  have h4 : ¬ (lineQuery = lineToSkip) := by decide
  have h0 : ¬ (lineQuery = lineName) := by decide
  have h3 : ¬ (lineQuery = lineTag) := by decide
  have h2 : ¬ (lineQuery = lastLineQuery) := by decide
  simp only [ht, h4, h0, h3, h2, if_false, if_true, hff, Bool.false_eq_true, hq, true_or,
    addFragment]
  split_ifs <;> rfl

theorem parseStep_last (T : CaseTables) (st : ParseState) (line : Str) (q : Query) (ty : Nat)
    (ht : (parseLine T line).Type_ = lastLineQuery) (hff : st.FF = false) (hq : st.q = some q)
    (hs : sqlType T (addFragment q.Query (parseLine T line).Value) = some ty) :
    parseStep T st line = .ok { st with
      FF := true,
      q := some ⟨if ty ≠ DDL then scapeColon (addFragment q.Query (parseLine T line).Value)
          else addFragment q.Query (parseLine T line).Value, ty, q.Tags, st.idx⟩,
      queries := mapSet st.queries st.qName
        ⟨if ty ≠ DDL then scapeColon (addFragment q.Query (parseLine T line).Value)
          else addFragment q.Query (parseLine T line).Value, ty, q.Tags, st.idx⟩,
      idx := st.idx + 1 } := by
  have hJ : (if q.Query.length > 0 then
        ({ q with Query := q.Query ++ [32] } : Query) else q).Query ++ (parseLine T line).Value
      = addFragment q.Query (parseLine T line).Value := by
    unfold addFragment; split_ifs <;> rfl
  have hTags : (if q.Query.length > 0 then
        ({ q with Query := q.Query ++ [32] } : Query) else q).Tags = q.Tags := by
    split_ifs <;> rfl
  unfold parseStep
  have h4 : ¬ (lastLineQuery = lineToSkip) := by decide
  have h0 : ¬ (lastLineQuery = lineName) := by decide
  have h3 : ¬ (lastLineQuery = lineTag) := by decide
  simp only [ht, h4, h0, h3, if_false, if_true, hff, Bool.false_eq_true, hq, or_true, hJ, hs,
    hTags]
  split_ifs <;> rfl

theorem parseStep_last_panic (T : CaseTables) (st : ParseState) (line : Str) (q : Query)
    (ht : (parseLine T line).Type_ = lastLineQuery) (hff : st.FF = false) (hq : st.q = some q)
    (hs : sqlType T (addFragment q.Query (parseLine T line).Value) = none) :
    parseStep T st line = .error .panic := by
  have hJ : (if q.Query.length > 0 then
        ({ q with Query := q.Query ++ [32] } : Query) else q).Query ++ (parseLine T line).Value
      = addFragment q.Query (parseLine T line).Value := by
    unfold addFragment; split_ifs <;> rfl
  unfold parseStep
  have h4 : ¬ (lastLineQuery = lineToSkip) := by decide
  have h0 : ¬ (lastLineQuery = lineName) := by decide
  have h3 : ¬ (lastLineQuery = lineTag) := by decide
  simp only [ht, h4, h0, h3, if_false, if_true, hff, Bool.false_eq_true, hq, or_true, hJ, hs]

/-! ## Theorems: where the statements of a collection come from -/

theorem mapGet_mapSet {β : Type} (m : List (Str × β)) (k key : Str) (v : β) :
    mapGet (mapSet m k v) key = if k = key then some v else mapGet m key := by
  induction m with
  | nil => simp [mapSet, mapGet]
  | cons e m ih =>
    obtain ⟨k1, v1⟩ := e
    by_cases h1 : k1 = k
    · subst h1
      by_cases h2 : k1 = key
      · simp [mapSet, mapGet, h2]
      · simp [mapSet, mapGet, h2]
    · by_cases h2 : k1 = key
      · have h3 : ¬ k = key := fun e => h1 (h2.trans e.symm)
        subst h2
        simp [mapSet, mapGet, h1, h3]
      · simp only [mapSet, h1, if_false, mapGet, h2, ih]

theorem tagValueIn_append_single (T : CaseTables) (ls : List Str) (l key : Str) :
    tagValueIn T (ls ++ [l]) key =
      if (isTagLine T l && decide (ToLower T (parseLine T l).Tag = key)) = true then
        some (parseLine T l).Value
      else tagValueIn T ls key := by
  unfold tagValueIn
  rw [List.filter_append]
  by_cases h : (isTagLine T l && decide (ToLower T (parseLine T l).Tag = key)) = true
  · rw [if_pos h]
    simp [List.filter_cons, h]
  · rw [if_neg h]
    simp [List.filter_cons, h]

theorem fragmentsOf_append_single (T : CaseTables) (ls : List Str) (l : Str) :
    fragmentsOf T (ls ++ [l]) =
      if isFragment T l = true then fragmentsOf T ls ++ [(parseLine T l).Value]
      else fragmentsOf T ls := by
  unfold fragmentsOf
  rw [List.filter_append]
  by_cases h : isFragment T l = true
  · rw [if_pos h]; simp [List.filter_cons, h]
  · rw [if_neg h]; simp [List.filter_cons, h]

theorem joinFragments_append_single (fs : List Str) (v : Str) :
    joinFragments (fs ++ [v]) = addFragment (joinFragments fs) v := by
  simp [joinFragments, List.foldl_append]

theorem inner_append_single (T : CaseTables) (body : List Str) (l : Str) (hb : Inner T body)
    (h1 : (parseLine T l).Type_ ≠ lineName) (h2 : (parseLine T l).Type_ ≠ lastLineQuery) :
    Inner T (body ++ [l]) := by
  intro m hm
  rcases List.mem_append.mp hm with h | h
  · exact hb m h
  · rw [List.mem_singleton.mp h]; exact ⟨h1, h2⟩

theorem origin_append (T : CaseTables) (seen more : List Str) (e : Str × Query)
    (h : Origin T seen e) : Origin T (seen ++ more) e := by
  obtain ⟨pre, nameLine, body, lastLine, post, hs, rest⟩ := h
  exact ⟨pre, nameLine, body, lastLine, post ++ more, by rw [hs]; simp, rest⟩

theorem origin_step (T : CaseTables) (seen : List Str) (st st1 : ParseState) (line : Str)
    (h : parseStep T st line = .ok st1) (hi : ParseInv st)
    (ho : ∀ e ∈ st.queries, Origin T seen e) (hp : Pending T seen st) :
    (∀ e ∈ st1.queries, Origin T (seen ++ [line]) e) ∧ Pending T (seen ++ [line]) st1 := by
  have hmono : ∀ e ∈ st.queries, Origin T (seen ++ [line]) e :=
    fun e he => origin_append T seen [line] e (ho e he)
  by_cases hn : (parseLine T line).Type_ = lineName
  · have hfree : mapGet st.queries (ToLower T (parseLine T line).Value) = none := by
      cases hg : mapGet st.queries (ToLower T (parseLine T line).Value) with
      | none => rfl
      | some q =>
        rw [parseStep_duplicate T st line hn (by rw [hg]; rfl)] at h
        cases h
    rw [parseStep_name T st line hn hfree] at h
    cases h
    refine ⟨hmono, fun _ => ⟨seen, line, [], _, rfl, hn, (by intro m hm; cases hm), rfl, rfl, ?_, rfl⟩⟩
    intro key
    have := tagValueIn_append_single T [] line key
    simp only [List.nil_append] at this
    rw [this, mapGet_mapSet]
    simp [isTagLine, hn, tagValueIn, mapGet]
  · by_cases hff : st.FF = true
    · rw [parseStep_outside T st line hn hff] at h
      cases h
      exact ⟨hmono, fun hf => by rw [hff] at hf; cases hf⟩
    · have hff0 : st.FF = false := Bool.eq_false_iff.mpr hff
      obtain ⟨pre, nameLine, body, q, hseen, hname, hinner, hqn, hq, htags, htext⟩ := hp hff0
      have hsplit : seen ++ [line] = pre ++ nameLine :: (body ++ [line]) := by
        rw [hseen]; simp
      by_cases hl : (parseLine T line).Type_ = lastLineQuery
      · have hfrag : isFragment T line = true := by simp [isFragment, hl]
        have hnotag : isTagLine T line = false := by
          have h1 : ¬ (lastLineQuery = lineTag) := by decide
          have h2 : ¬ (lastLineQuery = lineName) := by decide
          simp [isTagLine, hl, h1, h2]
        have hJ : joinFragments (fragmentsOf T (body ++ [line]))
            = addFragment q.Query (parseLine T line).Value := by
          rw [fragmentsOf_append_single, if_pos hfrag, joinFragments_append_single, htext]
        cases hs : sqlType T (addFragment q.Query (parseLine T line).Value) with
        | none =>
          rw [parseStep_last_panic T st line q hl hff0 hq hs] at h
          cases h
        | some ty =>
          rw [parseStep_last T st line q ty hl hff0 hq hs] at h
          cases h
          refine ⟨?_, fun hf => by cases hf⟩
          intro e he
          simp only at he
          rw [mapSet_fresh st.queries st.qName _ (hi.2.2 hff0)] at he
          rcases List.mem_append.mp he with he | he
          · exact hmono e he
          · rw [List.mem_singleton.mp he]
            refine ⟨pre, nameLine, body, line, [], hsplit, hname, hinner, hl, hqn, htags, ?_, ?_⟩
            · simp only; rw [hJ]; exact hs
            · simp only; rw [hJ]
      · have hinner1 : Inner T (body ++ [line]) := inner_append_single T body line hinner hn hl
        by_cases ht : (parseLine T line).Type_ = lineTag
        · rw [parseStep_tag T st line q ht hff0 hq] at h
          cases h
          refine ⟨hmono, fun _ => ⟨pre, nameLine, body ++ [line], _, hsplit, hname, hinner1, hqn,
            rfl, ?_, ?_⟩⟩
          · intro key
            have := tagValueIn_append_single T (nameLine :: body) line key
            simp only [List.cons_append] at this
            rw [this, mapGet_mapSet, htags key]
            simp [isTagLine, ht]
          · have : isFragment T line = false := by
              have h1 : ¬ (lineTag = lineQuery) := by decide
              have h2 : ¬ (lineTag = lastLineQuery) := by decide
              simp [isFragment, ht, h1, h2]
            simp only [fragmentsOf_append_single, this, Bool.false_eq_true, if_false]
            exact htext
        · have hkeep : ∀ key, tagValueIn T (nameLine :: (body ++ [line])) key
              = tagValueIn T (nameLine :: body) key := by
            intro key
            have := tagValueIn_append_single T (nameLine :: body) line key
            simp only [List.cons_append] at this
            rw [this]
            simp [isTagLine, hn, ht]
          by_cases hq1 : (parseLine T line).Type_ = lineQuery
          · rw [parseStep_query T st line q hq1 hff0 hq] at h
            cases h
            refine ⟨hmono, fun _ => ⟨pre, nameLine, body ++ [line], _, hsplit, hname, hinner1,
              hqn, rfl, ?_, ?_⟩⟩
            · intro key; rw [hkeep key]; exact htags key
            · have : isFragment T line = true := by simp [isFragment, hq1]
              simp only [fragmentsOf_append_single, this, if_true,
                joinFragments_append_single, htext]
          · rw [parseStep_idle T st line hn ht hq1 hl] at h
            cases h
            refine ⟨hmono, fun _ => ⟨pre, nameLine, body ++ [line], q, hsplit, hname, hinner1,
              hqn, hq, ?_, ?_⟩⟩
            · intro key; rw [hkeep key]; exact htags key
            · have : isFragment T line = false := by simp [isFragment, hq1, hl]
              simp only [fragmentsOf_append_single, this, Bool.false_eq_true, if_false]
              exact htext

theorem origin_loop (T : CaseTables) (rest : List Str) : ∀ (seen : List Str) (st st1 : ParseState),
    parseLoop T st rest = .ok st1 → ParseInv st →
    (∀ e ∈ st.queries, Origin T seen e) → Pending T seen st →
    (∀ e ∈ st1.queries, Origin T (seen ++ rest) e) ∧ Pending T (seen ++ rest) st1 := by
  induction rest with
  | nil =>
    intro seen st st1 h _ ho hp
    simp only [parseLoop] at h
    cases h
    rw [List.append_nil]
    exact ⟨ho, hp⟩
  | cons l ls ih =>
    intro seen st st1 h hi ho hp
    simp only [parseLoop] at h
    cases hs : parseStep T st l with
    | error e => rw [hs] at h; cases h
    | ok st2 =>
      rw [hs] at h
      obtain ⟨ho2, hp2⟩ := origin_step T seen st st2 l hs hi ho hp
      have := ih (seen ++ [l]) st2 st1 h (parseStep_inv T st st2 l hs hi).1 ho2 hp2
      rw [List.append_assoc, List.singleton_append] at this
      exact this

/-- Every statement of a collection returned by `ParseReader` was assembled
from one complete block of the input. -/
theorem ParseReader_origin (T : CaseTables) (lines : List Str) (qs : Queries)
    (h : ParseReader T lines = .ok qs) : ∀ e ∈ qs, Origin T lines e := by
  unfold ParseReader at h
  cases hl : parseLoop T parseInit lines with
  | error e => rw [hl] at h; cases h
  | ok st =>
    rw [hl] at h
    cases h
    have := origin_loop T lines [] parseInit st hl parseInit_inv
      (by intro e he; simp [parseInit] at he) (by intro hf; simp [parseInit] at hf)
    rw [List.nil_append] at this
    exact this.1

/-! ## Theorems: the classification of a line -/

/-- The five ways `parseLine` classifies a line. -/
theorem parseLine_cases (T : CaseTables) (l : Str) :
    parseLine T l = ⟨lineToSkip, [], []⟩
    ∨ (∃ rest, matchTagRegular (TrimSpace l) = some rest
        ∧ parseLine T l = ⟨if tagName T (matched (TrimSpace l) rest) = bytes "name" then lineName
            else lineTag, tagName T (matched (TrimSpace l) rest), rest⟩)
    ∨ parseLine T l = ⟨lineComment, [], []⟩
    ∨ (∃ v, parseLine T l = ⟨lastLineQuery, [], v⟩ ∧ isQueryLastLine v = true)
    ∨ (∃ v, parseLine T l = ⟨lineQuery, [], v⟩ ∧ isQueryLastLine v = false) := by
  unfold parseLine
  simp only
  by_cases h1 : TrimSpace l = []
  · left; rw [if_pos h1]
  · rw [if_neg h1]
    by_cases h2 : (TrimSpace l).length ≥ 6 ∧ ToUpper T ((TrimSpace l).take 6) = bytes "COMMIT"
    · left; rw [if_pos h2]
    · rw [if_neg h2]
      by_cases h3 : (TrimSpace l).length ≥ 8
          ∧ ToUpper T ((TrimSpace l).take 8) = bytes "ROLLBACK"
      · left; rw [if_pos h3]
      · rw [if_neg h3]
        cases hm : matchTagRegular (TrimSpace l) with
        | some rest => right; left; exact ⟨rest, rfl, rfl⟩
        | none =>
          simp only
          by_cases h4 : HasPrefix (TrimSpace l) [45, 45] = true
          · right; right; left; rw [if_pos h4]
          · rw [if_neg h4]
            right; right; right
            by_cases h5 : isQueryLastLine
                (if Index (TrimSpace l) [45, 45] > 0 then
                  TrimSpace ((TrimSpace l).take (Index (TrimSpace l) [45, 45]).toNat)
                 else TrimSpace l) = true
            · left; rw [if_pos h5]; exact ⟨_, rfl, h5⟩
            · right; rw [if_neg h5]; exact ⟨_, rfl, Bool.eq_false_iff.mpr h5⟩

theorem parseLine_last (T : CaseTables) (l : Str)
    (h : (parseLine T l).Type_ = lastLineQuery) :
    isQueryLastLine (parseLine T l).Value = true := by
  rcases parseLine_cases T l with h1 | ⟨rest, _, h1⟩ | h1 | ⟨v, h1, hv⟩ | ⟨v, h1, _⟩
  · rw [h1] at h; simp [lineToSkip, lastLineQuery] at h
  · rw [h1] at h
    simp only at h
    split_ifs at h <;> simp [lineName, lineTag, lastLineQuery] at h
  · rw [h1] at h; simp [lineComment, lastLineQuery] at h
  · rw [h1]; exact hv
  · rw [h1] at h; simp [lineQuery, lastLineQuery] at h

theorem parseLine_name_tag (T : CaseTables) (l : Str)
    (h : (parseLine T l).Type_ = lineName) : (parseLine T l).Tag = bytes "name" := by
  rcases parseLine_cases T l with h1 | ⟨rest, _, h1⟩ | h1 | ⟨v, h1, _⟩ | ⟨v, h1, _⟩
  · rw [h1] at h; simp [lineToSkip, lineName] at h
  · rw [h1] at h ⊢
    simp only at h ⊢
    by_cases hn : tagName T (matched (TrimSpace l) rest) = bytes "name"
    · exact hn
    · rw [if_neg hn] at h; simp [lineName, lineTag] at h
  · rw [h1] at h; simp [lineComment, lineName] at h
  · rw [h1] at h; simp [lineName, lastLineQuery] at h
  · rw [h1] at h; simp [lineQuery, lineName] at h

theorem isQueryLastLine_mem (s : Str) (h : isQueryLastLine s = true) : 59 ∈ s := by
  rcases Index_cases [59] s (by simp) with ⟨h1, _⟩ | ⟨p, _, hp⟩
  · simp [isQueryLastLine, h1] at h
  · have h1 := hp.1
    simp only [occursAt] at h1
    cases hd : s.drop p with
    | nil => rw [hd] at h1; simp [List.isPrefixOf] at h1
    | cons a t =>
      rw [hd] at h1
      simp [List.isPrefixOf] at h1
      have : a ∈ s.drop p := by rw [hd]; exact List.mem_cons_self _ _
      rw [h1]
      exact List.mem_of_mem_drop this

theorem mem_outFrom (c : Nat) (s : Str) : ∀ col eq : Bool, c ∈ s → c ∈ outFrom col eq s := by
  induction s with
  | nil => intro _ _ h; cases h
  | cons a s ih =>
    intro col eq h
    simp only [outFrom, List.mem_append]
    rcases List.mem_cons.mp h with h | h
    · left
      subst h
      unfold scapeChunk
      split_ifs <;> simp
    · right; exact ih _ _ h

theorem mem_scapeColon (c : Nat) (s : Str) (h : c ∈ s) : c ∈ scapeColon s := by
  rw [scapeColon_eq]
  split_ifs <;> first | exact h | exact mem_outFrom c s _ _ h

theorem mem_addFragment (c : Nat) (acc v : Str) (h : c ∈ v) : c ∈ addFragment acc v := by
  unfold addFragment
  exact List.mem_append.mpr (Or.inr h)

theorem mem_of_origin (T : CaseTables) (lines : List Str) (e : Str × Query)
    (h : Origin T lines e) : 59 ∈ e.2.Query := by
  obtain ⟨pre, nameLine, body, lastLine, post, _, _, _, hl, _, _, _, hq⟩ := h
  have hfrag : isFragment T lastLine = true := by simp [isFragment, hl]
  have hJ : 59 ∈ joinFragments (fragmentsOf T (body ++ [lastLine])) := by
    rw [fragmentsOf_append_single, if_pos hfrag, joinFragments_append_single]
    exact mem_addFragment _ _ _ (isQueryLastLine_mem _ (parseLine_last T lastLine hl))
  rw [hq]
  split_ifs
  · exact mem_scapeColon _ _ hJ
  · exact hJ

/-- C14 (amended): the stored text of every statement of a collection returned
by `ParseReader` keeps the statement terminator: it holds a `;`. -/
theorem stored_text_keeps_terminator (T : CaseTables) (lines : List Str) (qs : Queries)
    (h : ParseReader T lines = .ok qs) (name : Str) (q : Query)
    (hq : mapGet qs name = some q) : 59 ∈ q.Query :=
  mem_of_origin T lines (name, q) (ParseReader_origin T lines qs h _ (mem_of_mapGet qs name q hq))

theorem stored_text_keeps_terminator_witness :
    ParseReader CaseTables.ascii sampleTwo = .ok sampleTwoQueries
    ∧ mapGet sampleTwoQueries (bytes "update1")
        = some ⟨bytes "update peoples set Name = 'Leo' where ID = 1;", DML,
            [(bytes "name", bytes "Update1")], 1⟩
    ∧ 59 ∈ bytes "update peoples set Name = 'Leo' where ID = 1;" :=
  ⟨by decide, by decide,
    stored_text_keeps_terminator CaseTables.ascii sampleTwo sampleTwoQueries (by decide)
      (bytes "update1") ⟨bytes "update peoples set Name = 'Leo' where ID = 1;", DML,
        [(bytes "name", bytes "Update1")], 1⟩ (by decide)⟩

/-- C14, as stated, fails: the value of the terminating fragment and the
stored text of the statement both end with the `;`. -/
theorem terminator_not_stripped :
    parseLine CaseTables.ascii (bytes "select count(*) from peoples;")
      = ⟨lastLineQuery, [], bytes "select count(*) from peoples;"⟩
    ∧ ParseReader CaseTables.ascii sampleTwo = .ok sampleTwoQueries
    ∧ (mapGet sampleTwoQueries (bytes "select1")).map (fun q => q.Query.getLast?)
        = some (some 59) := by
  decide

/-! ## Theorems: abandoned statements and tags -/

theorem parseLoop_inner (T : CaseTables) (body : List Str) : ∀ st : ParseState,
    st.FF = false → st.q.isSome = true → Inner T body →
    ∃ st1, parseLoop T st body = .ok st1 ∧ st1.queries = st.queries ∧ st1.idx = st.idx := by
  induction body with
  | nil => intro st _ _ _; exact ⟨st, rfl, rfl, rfl⟩
  | cons m body ih =>
    intro st hff hq hb
    obtain ⟨hn, hl⟩ := hb m (List.mem_cons_self _ _)
    have hb1 : Inner T body := fun x hx => hb x (List.mem_cons_of_mem _ hx)
    obtain ⟨q, hq1⟩ := Option.isSome_iff_exists.mp hq
    simp only [parseLoop]
    by_cases ht : (parseLine T m).Type_ = lineTag
    · rw [parseStep_tag T st m q ht hff hq1]
      obtain ⟨st1, h1, h2, h3⟩ := ih { st with
        q := some { q with
          Tags := mapSet q.Tags (ToLower T (parseLine T m).Tag) (parseLine T m).Value } }
        hff rfl hb1
      exact ⟨st1, h1, h2, h3⟩
    · by_cases hq2 : (parseLine T m).Type_ = lineQuery
      · rw [parseStep_query T st m q hq2 hff hq1]
        obtain ⟨st1, h1, h2, h3⟩ := ih { st with
          q := some { q with Query := addFragment q.Query (parseLine T m).Value } }
          hff rfl hb1
        exact ⟨st1, h1, h2, h3⟩
      · rw [parseStep_idle T st m hn ht hq2 hl]
        exact ih st hff hq hb1

theorem parseStep_name_congr (T : CaseTables) (st st1 : ParseState) (line : Str)
    (hn : (parseLine T line).Type_ = lineName) (hq : st.queries = st1.queries)
    (hi : st.idx = st1.idx) : parseStep T st line = parseStep T st1 line := by
  cases hg : mapGet st.queries (ToLower T (parseLine T line).Value) with
  | some q =>
    rw [parseStep_duplicate T st line hn (by rw [hg]; rfl),
      parseStep_duplicate T st1 line hn (by rw [← hq, hg]; rfl)]
  | none =>
    rw [parseStep_name T st line hn hg, parseStep_name T st1 line hn (by rw [← hq]; exact hg),
      hq, hi]

/-- C15: a statement opened by an accepted name line and never terminated,
because the input ends or because another name line arrives first, raises no
error and leaves no trace: the result of `ParseReader` is the one it returns
on the input without the lines of that statement. -/
theorem abandoned_statement_leaves_no_trace (T : CaseTables) (pre : List Str) (nameLine : Str)
    (body : List Str) (qs : Queries) (hpre : ParseReader T pre = .ok qs)
    (hname : (parseLine T nameLine).Type_ = lineName)
    (hfresh : mapGet qs (ToLower T (parseLine T nameLine).Value) = none)
    (hbody : Inner T body) :
    ParseReader T (pre ++ nameLine :: body) = .ok qs
    ∧ ∀ (l2 : Str) (rest : List Str), (parseLine T l2).Type_ = lineName →
        ParseReader T (pre ++ nameLine :: (body ++ l2 :: rest))
          = ParseReader T (pre ++ l2 :: rest) := by
  unfold ParseReader at hpre ⊢
  cases hl : parseLoop T parseInit pre with
  | error e => rw [hl] at hpre; cases hpre
  | ok st =>
    rw [hl] at hpre
    cases hpre
    have hstep := parseStep_name T st nameLine hname hfresh
    obtain ⟨st3, h3, hq3, hi3⟩ := parseLoop_inner T body
      { st with
        FF := false, qName := ToLower T (parseLine T nameLine).Value,
        q := some ⟨[], 0,
          mapSet [] (ToLower T (parseLine T nameLine).Tag) (parseLine T nameLine).Value, 0⟩ }
      rfl rfl hbody
    simp only at hq3 hi3
    constructor
    · rw [parseLoop_append, hl]
      simp only [parseLoop, hstep, h3, hq3]
    · intro l2 rest h2
      rw [parseLoop_append, parseLoop_append, hl]
      simp only [parseLoop, hstep]
      rw [parseLoop_append, h3]
      simp only [parseLoop]
      rw [parseStep_name_congr T st3 st l2 h2 hq3 hi3]

theorem abandoned_statement_leaves_no_trace_witness :
    ParseReader CaseTables.ascii
        (sampleTwo ++ bytes "-- tag=name: Fake1" :: [bytes "-- tag=file: f.psv", bytes "select 1"])
      = .ok sampleTwoQueries
    ∧ ∀ (l2 : Str) (rest : List Str), (parseLine CaseTables.ascii l2).Type_ = lineName →
        ParseReader CaseTables.ascii (sampleTwo ++ bytes "-- tag=name: Fake1"
            :: ([bytes "-- tag=file: f.psv", bytes "select 1"] ++ l2 :: rest))
          = ParseReader CaseTables.ascii (sampleTwo ++ l2 :: rest) :=
  abandoned_statement_leaves_no_trace CaseTables.ascii sampleTwo (bytes "-- tag=name: Fake1")
    [bytes "-- tag=file: f.psv", bytes "select 1"] sampleTwoQueries (by decide) (by decide)
    (by decide) (by decide)

theorem tagValueIn_first (T : CaseTables) (nameLine : Str) (body : List Str) (key : Str)
    (hk : (isTagLine T nameLine && decide (ToLower T (parseLine T nameLine).Tag = key)) = true)
    (hb : ∀ m ∈ body,
      (isTagLine T m && decide (ToLower T (parseLine T m).Tag = key)) = false) :
    tagValueIn T (nameLine :: body) key = some (parseLine T nameLine).Value := by
  unfold tagValueIn
  have hnil : body.filter
      (fun l => isTagLine T l && decide (ToLower T (parseLine T l).Tag = key)) = [] := by
    rw [List.filter_eq_nil_iff]
    intro m hm
    rw [hb m hm]; simp
  simp [List.filter_cons, hk, hnil]

theorem toLower_name (T : CaseTables) : ToLower T (bytes "name") = bytes "name" := by
  rw [ToLower_ascii T _ (by decide)]
  decide

/-- C17: every statement of a collection returned by `ParseReader` comes from
a block of the input made of a name line, lines that neither open nor
terminate a statement, and a terminating fragment.  Its tag map gives to each
key the value of the last line of that block, name line or tag-value line,
whose lower-cased key it is, and nothing to a key that no line of the block
carries; the key of the name line is `name`, and it is mapped to the value of
the name line when no tag-value line of the block has that key.  Lines outside
the block give nothing to the statement. -/
theorem statement_tags (T : CaseTables) (lines : List Str) (qs : Queries)
    (h : ParseReader T lines = .ok qs) (name : Str) (q : Query)
    (hq : mapGet qs name = some q) :
    ∃ (pre : List Str) (nameLine : Str) (body : List Str) (lastLine : Str) (post : List Str),
      lines = pre ++ nameLine :: (body ++ lastLine :: post)
      ∧ (parseLine T nameLine).Type_ = lineName ∧ Inner T body
      ∧ (parseLine T lastLine).Type_ = lastLineQuery
      ∧ name = ToLower T (parseLine T nameLine).Value
      ∧ ToLower T (parseLine T nameLine).Tag = bytes "name"
      ∧ (∀ key, mapGet q.Tags key = tagValueIn T (nameLine :: body) key)
      ∧ ((∀ m ∈ body, (parseLine T m).Type_ = lineTag →
            ToLower T (parseLine T m).Tag ≠ bytes "name") →
          mapGet q.Tags (bytes "name") = some (parseLine T nameLine).Value) := by
  obtain ⟨pre, nameLine, body, lastLine, post, hs, hn, hi, hl, hname, htags, _, _⟩ :=
    ParseReader_origin T lines qs h _ (mem_of_mapGet qs name q hq)
  have hkey : ToLower T (parseLine T nameLine).Tag = bytes "name" := by
    rw [parseLine_name_tag T nameLine hn]; exact toLower_name T
  refine ⟨pre, nameLine, body, lastLine, post, hs, hn, hi, hl, hname, hkey, htags, ?_⟩
  intro hno
  rw [htags]
  apply tagValueIn_first
  · simp [isTagLine, hn, hkey]
  · intro m hm
    by_cases ht : (parseLine T m).Type_ = lineTag
    · simp [hno m hm ht]
    · simp [isTagLine, ht, (hi m hm).1]

theorem statement_tags_witness :
    ParseReader CaseTables.ascii sampleTwo = .ok sampleTwoQueries
    ∧ mapGet sampleTwoQueries (bytes "select1")
        = some ⟨bytes "select * from peoples;", DQL, [(bytes "name", bytes "Select1")], 0⟩
    ∧ ∃ (pre : List Str) (nameLine : Str) (body : List Str) (lastLine : Str) (post : List Str),
        sampleTwo = pre ++ nameLine :: (body ++ lastLine :: post)
        ∧ bytes "select1" = ToLower CaseTables.ascii (parseLine CaseTables.ascii nameLine).Value :=
  ⟨by decide, by decide,
    (statement_tags CaseTables.ascii sampleTwo sampleTwoQueries (by decide) (bytes "select1")
      ⟨bytes "select * from peoples;", DQL, [(bytes "name", bytes "Select1")], 0⟩
      (by decide)).imp fun _ h1 => h1.imp fun _ h2 => h2.imp fun _ h3 => h3.imp fun _ h4 =>
        h4.imp fun _ h5 => ⟨h5.1, h5.2.2.2.2.1⟩⟩

/-! ## Theorems: lookup by name -/

/-- C19: the collection built from `sampleTwo` holds a statement under the name
`select1`; `Queries.Query` does not lower-case its label, so the label
`Select1`, equal to that name but for letter case, gets the not-found signal,
while the sibling `Queries.Statement` finds the statement. -/
theorem Query_lookup_is_case_sensitive :
    ParseReader CaseTables.ascii sampleTwo = .ok sampleTwoQueries
    ∧ ToLower CaseTables.ascii (bytes "Select1") = bytes "select1"
    ∧ (Queries.Query sampleTwoQueries (bytes "select1")).isSome = true
    ∧ Queries.Query sampleTwoQueries (bytes "Select1") = none
    ∧ Queries.Statement CaseTables.ascii sampleTwoQueries (bytes "Select1")
        = bytes "select * from peoples;" := by
  decide

/-- C20: for a collection returned by `ParseReader`, a label and a tag key:
when a statement of the collection has for name the lower-cased label,
`Statement`, `QueryType` and `TagValue` give its text, its kind, and the value
its tag map has for the lower-cased tag key, the empty text when it has none;
when no statement has that name they give the empty text, Unknown and the
empty text. -/
theorem accessors_by_label (T : CaseTables) (lines : List Str) (qs : Queries)
    (h : ParseReader T lines = .ok qs) (label tag : Str) :
    (∀ e ∈ qs, e.1 = ToLower T label →
        Queries.Statement T qs label = e.2.Query
        ∧ Queries.QueryType T qs label = e.2.Type_
        ∧ Queries.TagValue T qs label tag = (mapGet e.2.Tags (ToLower T tag)).getD [])
    ∧ ((∀ e ∈ qs, e.1 ≠ ToLower T label) →
        Queries.Statement T qs label = []
        ∧ Queries.QueryType T qs label = UKN
        ∧ Queries.TagValue T qs label tag = []) := by
  obtain ⟨hnd, _, _⟩ := ParseReader_shape T lines qs h
  constructor
  · intro e he hname
    obtain ⟨n, q⟩ := e
    simp only at hname
    subst hname
    have hg := mapGet_of_mem qs _ q hnd he
    refine ⟨?_, ?_, ?_⟩
    · simp only [Queries.Statement, hg, Query.Statement]
    · simp only [Queries.QueryType, hg, Query.QueryType]
    · simp only [Queries.TagValue, hg, Query.TagValue]
      cases mapGet q.Tags (ToLower T tag) <;> rfl
  · intro hno
    have hg : mapGet qs (ToLower T label) = none := by
      rw [mapGet_eq_none_iff]
      intro hm
      obtain ⟨e, he, hn⟩ := List.mem_map.mp hm
      exact hno e he hn
    simp [Queries.Statement, Queries.QueryType, Queries.TagValue, hg]

theorem accessors_by_label_witness :
    ParseReader CaseTables.ascii sampleTwo = .ok sampleTwoQueries
    ∧ Queries.Statement CaseTables.ascii sampleTwoQueries (bytes "UPDATE1")
        = bytes "update peoples set Name = 'Leo' where ID = 1;"
    ∧ Queries.QueryType CaseTables.ascii sampleTwoQueries (bytes "UPDATE1") = DML
    ∧ Queries.TagValue CaseTables.ascii sampleTwoQueries (bytes "UPDATE1") (bytes "NAME")
        = bytes "Update1" :=
  ⟨by decide,
    ((accessors_by_label CaseTables.ascii sampleTwo sampleTwoQueries (by decide)
      (bytes "UPDATE1") (bytes "NAME")).1 _ (List.mem_cons_of_mem _ (List.mem_cons_self _ _))
      (by decide))⟩

/-! ## Theorems: the tag grammar -/

theorem skipSpaces_append (ws rest : Str) (hws : ∀ c ∈ ws, reSpace c = true) :
    skipSpaces (ws ++ rest) = skipSpaces rest := by
  induction ws with
  | nil => rfl
  | cons c ws ih =>
    have hc : reSpace c = true := hws c (List.mem_cons_self _ _)
    rw [List.cons_append, skipSpaces, List.dropWhile_cons_of_pos hc]
    exact ih (fun x hx => hws x (List.mem_cons_of_mem _ hx))

theorem skipSpaces_cons (c : Nat) (rest : Str) (hc : reSpace c = false) :
    skipSpaces (c :: rest) = c :: rest := by
  rw [skipSpaces, List.dropWhile_cons_of_neg (by simp [hc])]

theorem skipSpaces_until (ws : Str) (c : Nat) (rest : Str) (hws : ∀ x ∈ ws, reSpace x = true)
    (hc : reSpace c = false) : skipSpaces (ws ++ c :: rest) = c :: rest := by
  rw [skipSpaces_append ws _ hws, skipSpaces_cons c rest hc]

theorem reSpace_of_lowerByte (c k : Nat) (h : lowerByte c = k) (hk : 97 ≤ k) :
    reSpace c = false := by
  unfold lowerByte at h
  unfold reSpace
  split_ifs at h <;> simp <;> omega

theorem reSpace_of_identByte (c : Nat) (h : identByte c = true) : reSpace c = false := by
  unfold identByte at h
  unfold reSpace
  simp at h ⊢
  omega

theorem matchTagPrefix_form (ws1 ws2 ws3 : Str) (t a g c : Nat) (rest : Str)
    (h1 : ∀ x ∈ ws1, reSpace x = true) (h2 : ∀ x ∈ ws2, reSpace x = true)
    (h3 : ∀ x ∈ ws3, reSpace x = true)
    (ht : lowerByte t = 116) (ha : lowerByte a = 97) (hg : lowerByte g = 103)
    (hc : reSpace c = false) :
    matchTagPrefix (45 :: 45 :: (ws1 ++ t :: a :: g :: (ws2 ++ 61 :: (ws3 ++ c :: rest))))
      = some (c :: rest) := by
  unfold matchTagPrefix
  rw [skipSpaces_cons 45 _ (by decide)]
  simp only
  rw [skipSpaces_until ws1 t _ h1 (reSpace_of_lowerByte t 116 ht (by omega))]
  simp only [ht, ha, hg, and_self, if_true]
  rw [skipSpaces_until ws2 61 _ h2 (by decide)]
  simp only
  rw [skipSpaces_until ws3 c _ h3 hc]

theorem identRuneLen_ident (c : Nat) (rest : Str) (h : identByte c = true) :
    identRuneLen (c :: rest) = 1 := by
  unfold identByte at h
  simp at h
  unfold identRuneLen
  split
  · rename_i heq; simp at heq; omega
  · rename_i heq; simp at heq; omega
  · rename_i c1 r1 _ _ heq
    simp at heq
    obtain ⟨rfl, rfl⟩ := heq
    rw [if_pos h]
  · rename_i heq; simp at heq

theorem identRuneLen_stop (c : Nat) (rest : Str) (h : c = 58 ∨ reSpace c = true) :
    identRuneLen (c :: rest) = 0 := by
  have hc : c = 58 ∨ c = 9 ∨ c = 10 ∨ c = 12 ∨ c = 13 ∨ c = 32 := by
    rcases h with h | h
    · exact Or.inl h
    · right
      have : (((c = 9 ∨ c = 10) ∨ c = 12) ∨ c = 13) ∨ c = 32 := by simpa [reSpace] using h
      omega
  unfold identRuneLen
  split
  · rename_i heq; simp at heq; omega
  · rename_i heq; simp at heq; omega
  · rename_i c1 r1 _ _ heq
    simp at heq
    obtain ⟨rfl, rfl⟩ := heq
    rw [if_neg (by omega)]
  · rfl

theorem skipIdentAux_key (key : Str) (c : Nat) (rest : Str)
    (hk : ∀ x ∈ key, identByte x = true) (hc : c = 58 ∨ reSpace c = true) :
    ∀ n, key.length ≤ n → skipIdentAux n (key ++ c :: rest) = c :: rest := by
  induction key with
  | nil =>
    intro n _
    cases n with
    | zero => rfl
    | succ n => simp [skipIdentAux, identRuneLen_stop c rest hc]
  | cons k key ih =>
    intro n hn
    cases n with
    | zero => simp at hn
    | succ n =>
      have h1 := identRuneLen_ident k (key ++ c :: rest) (hk k (List.mem_cons_self _ _))
      simp only [List.cons_append, skipIdentAux, h1, Nat.one_ne_zero, if_false, List.drop_succ_cons,
        List.drop_zero]
      exact ih (fun x hx => hk x (List.mem_cons_of_mem _ hx)) n (by simpa using hn)

theorem matchTagRegular_form (ws1 ws2 ws3 ws4 key tail : Str) (t a g : Nat)
    (h1 : ∀ x ∈ ws1, reSpace x = true) (h2 : ∀ x ∈ ws2, reSpace x = true)
    (h3 : ∀ x ∈ ws3, reSpace x = true) (h4 : ∀ x ∈ ws4, reSpace x = true)
    (ht : lowerByte t = 116) (ha : lowerByte a = 97) (hg : lowerByte g = 103)
    (hk : ∀ x ∈ key, identByte x = true) (hne : key ≠ []) :
    matchTagRegular (45 :: 45 :: (ws1 ++ t :: a :: g :: (ws2 ++ 61 :: (ws3
        ++ (key ++ (ws4 ++ 58 :: tail))))))
      = some (skipSpaces tail) := by
  obtain ⟨k0, key1, rfl⟩ := List.exists_cons_of_ne_nil hne
  have hk0 : identByte k0 = true := hk k0 (List.mem_cons_self _ _)
  unfold matchTagRegular
  rw [List.cons_append, matchTagPrefix_form ws1 ws2 ws3 t a g k0 _ h1 h2 h3 ht ha hg
    (reSpace_of_identByte k0 hk0)]
  simp only [identRuneLen_ident k0 _ hk0, Nat.one_ne_zero, if_false]
  have hstop : ∃ c rest, ws4 ++ 58 :: tail = c :: rest ∧ (c = 58 ∨ reSpace c = true) := by
    cases ws4 with
    | nil => exact ⟨58, tail, rfl, Or.inl rfl⟩
    | cons w ws => exact ⟨w, ws ++ 58 :: tail, rfl, Or.inr (h4 w (List.mem_cons_self _ _))⟩
  obtain ⟨c, rest, hcr, hc⟩ := hstop
  have hskip : skipIdentAux (k0 :: (key1 ++ (ws4 ++ 58 :: tail))).length
      (k0 :: (key1 ++ (ws4 ++ 58 :: tail))) = ws4 ++ 58 :: tail := by
    rw [hcr]
    have := skipIdentAux_key (k0 :: key1) c rest hk hc
      (k0 :: (key1 ++ c :: rest)).length (by simp)
    simpa using this
  rw [hskip, skipSpaces_until ws4 58 tail h4 (by decide)]

theorem occursAt_single_zero (x c : Nat) (s : Str) :
    occursAt [x] (c :: s) 0 = (x == c) := by
  simp [occursAt, List.isPrefixOf]

theorem firstAt_single (x : Nat) (a b : Str) (ha : ∀ c ∈ a, c ≠ x) :
    FirstAt [x] (a ++ x :: b) a.length := by
  induction a with
  | nil =>
    refine ⟨by simp [occursAt_single_zero], fun k hk => by simp at hk⟩
  | cons c a ih =>
    obtain ⟨h1, h2⟩ := ih (fun y hy => ha y (List.mem_cons_of_mem _ hy))
    refine ⟨by simpa [occursAt_cons_succ] using h1, ?_⟩
    intro k hk
    cases k with
    | zero =>
      have : c ≠ x := ha c (List.mem_cons_self _ _)
      simp [occursAt_single_zero, Ne.symm this]
    | succ k =>
      rw [List.cons_append, occursAt_cons_succ]
      exact h2 k (by simpa using hk)

theorem spaceRunes_first :
    spaceRunes.all (fun r => match r with
      | b :: _ => decide (b ≤ 32 ∨ 128 ≤ b)
      | [] => false) = true := by
  decide

theorem spaceRunes_last :
    spaceRunes.all (fun r => match r.getLast? with
      | some b => decide (b ≤ 32 ∨ 128 ≤ b)
      | none => false) = true := by
  decide

theorem spaceRunes_single :
    spaceRunes.all (fun r => decide (r.length = 1) || match r.getLast? with
      | some b => decide (128 ≤ b)
      | none => false) = true := by
  decide

theorem identByte_range (c : Nat) (h : identByte c = true) : 32 < c ∧ c < 128 := by
  unfold identByte at h
  simp at h
  omega

theorem spacePrefixLen_ident (c : Nat) (s : Str) (h : identByte c = true) :
    spacePrefixLen (c :: s) = 0 := by
  unfold spacePrefixLen
  cases hf : spaceRunes.find? (fun r => r.isPrefixOf (c :: s)) with
  | none => rfl
  | some r =>
    exfalso
    have hp := List.find?_some hf
    have hm := List.mem_of_find?_eq_some hf
    have hfirst := List.all_eq_true.mp spaceRunes_first r hm
    cases r with
    | nil => simp at hfirst
    | cons b t =>
      simp only [decide_eq_true_eq] at hfirst
      simp [List.isPrefixOf] at hp
      have := identByte_range c h
      omega

theorem getLast?_of_isSuffixOf (r s : Str) (c : Nat) (hr : r ≠ [])
    (h : r.isSuffixOf (s ++ [c]) = true) : r.getLast? = some c := by
  rw [List.isSuffixOf_iff_suffix] at h
  obtain ⟨pre, hpre⟩ := h
  have h1 : (pre ++ r).getLast? = some c := by rw [hpre]; exact List.getLast?_concat s
  rw [List.getLast?_append_of_ne_nil _ hr] at h1
  exact h1

theorem spaceSuffixLen_ident (s : Str) (c : Nat) (h : identByte c = true) :
    spaceSuffixLen (s ++ [c]) = 0 := by
  unfold spaceSuffixLen
  cases hf : spaceRunes.find? (fun r => r.isSuffixOf (s ++ [c])) with
  | none => rfl
  | some r =>
    exfalso
    have hp := List.find?_some hf
    have hm := List.mem_of_find?_eq_some hf
    have hlast := List.all_eq_true.mp spaceRunes_last r hm
    have hr : r ≠ [] := by
      intro e; subst e; simp at hlast
    rw [getLast?_of_isSuffixOf r s c hr hp] at hlast
    simp only [decide_eq_true_eq] at hlast
    have := identByte_range c h
    omega

theorem spaceSuffixLen_space (s : Str) (c : Nat) (h : reSpace c = true) :
    spaceSuffixLen (s ++ [c]) = 1 := by
  have hc : c = 9 ∨ c = 10 ∨ c = 12 ∨ c = 13 ∨ c = 32 := by
    have : (((c = 9 ∨ c = 10) ∨ c = 12) ∨ c = 13) ∨ c = 32 := by simpa [reSpace] using h
    omega
  unfold spaceSuffixLen
  cases hf : spaceRunes.find? (fun r => r.isSuffixOf (s ++ [c])) with
  | none =>
    exfalso
    rw [List.find?_eq_none] at hf
    have hmem : [c] ∈ spaceRunes := by
      rcases hc with rfl | rfl | rfl | rfl | rfl <;> decide
    apply hf [c] hmem
    rw [List.isSuffixOf_iff_suffix]
    exact List.suffix_append s [c]
  | some r =>
    have hp := List.find?_some hf
    have hm := List.mem_of_find?_eq_some hf
    have hlast := List.all_eq_true.mp spaceRunes_last r hm
    have hsingle := List.all_eq_true.mp spaceRunes_single r hm
    have hr : r ≠ [] := by
      intro e; subst e; simp at hlast
    rw [getLast?_of_isSuffixOf r s c hr hp] at hsingle
    simp only [Bool.or_eq_true, decide_eq_true_eq] at hsingle
    simp only
    omega

theorem trimLeftAux_ident (n : Nat) (c : Nat) (s : Str) (h : identByte c = true) :
    trimLeftAux n (c :: s) = c :: s := by
  cases n with
  | zero => rfl
  | succ n => simp [trimLeftAux, spacePrefixLen_ident c s h]

theorem trimRightAux_key (k : Str) (hne : k ≠ []) (hk : ∀ c ∈ k, identByte c = true) :
    ∀ (n : Nat) (ws : Str), (∀ c ∈ ws, reSpace c = true) → ws.length ≤ n →
      trimRightAux n (k ++ ws) = k := by
  intro n
  induction n with
  | zero =>
    intro ws _ hl
    have : ws = [] := List.length_eq_zero.mp (by omega)
    subst this
    simp [trimRightAux]
  | succ n ih =>
    intro ws hws hl
    rcases List.eq_nil_or_concat ws with rfl | ⟨ws1, c, hw⟩
    · rcases List.eq_nil_or_concat k with rfl | ⟨k1, c, hk1⟩
      · exact absurd rfl hne
      · rw [List.concat_eq_append] at hk1
        subst hk1
        have hc : identByte c = true := hk c (by simp)
        simp [trimRightAux, spaceSuffixLen_ident k1 c hc]
    · rw [List.concat_eq_append] at hw
      subst hw
      have hc : reSpace c = true := hws c (by simp)
      have h1 : spaceSuffixLen (k ++ (ws1 ++ [c])) = 1 := by
        rw [← List.append_assoc]; exact spaceSuffixLen_space _ c hc
      have h2 : (k ++ (ws1 ++ [c])).take ((k ++ (ws1 ++ [c])).length - 1) = k ++ ws1 := by
        rw [← List.append_assoc]
        exact List.take_left' (by simp)
      simp only [trimRightAux, h1, Nat.one_ne_zero, if_false, h2]
      exact ih ws1 (fun x hx => hws x (by simp [hx])) (by simp at hl; omega)

theorem TrimSpace_key (k ws : Str) (hne : k ≠ []) (hk : ∀ c ∈ k, identByte c = true)
    (hws : ∀ c ∈ ws, reSpace c = true) : TrimSpace (k ++ ws) = k := by
  obtain ⟨c, k1, rfl⟩ := List.exists_cons_of_ne_nil hne
  unfold TrimSpace
  simp only [List.cons_append]
  rw [trimLeftAux_ident _ c _ (hk c (List.mem_cons_self _ _))]
  have := trimRightAux_key (c :: k1) hne hk (c :: (k1 ++ ws)).length ws hws
    (by simp only [List.length_cons, List.length_append]; omega)
  simpa using this

theorem identByte_lowerByte (c : Nat) (h : identByte c = true) :
    identByte (lowerByte c) = true := by
  unfold identByte at h ⊢
  unfold lowerByte
  simp at h ⊢
  split_ifs <;> omega

theorem lowerByte_space (c : Nat) (h : reSpace c = true) : lowerByte c = c := by
  have : (((c = 9 ∨ c = 10) ∨ c = 12) ∨ c = 13) ∨ c = 32 := by simpa [reSpace] using h
  unfold lowerByte
  rw [if_neg (by omega)]

theorem isASCII_iff (s : Str) : isASCII s = true ↔ ∀ c ∈ s, c < 128 := by
  simp [isASCII, List.all_eq_true]

theorem reSpace_lt (c : Nat) (h : reSpace c = true) : c < 128 ∧ c ≠ 58 := by
  have : (((c = 9 ∨ c = 10) ∨ c = 12) ∨ c = 13) ∨ c = 32 := by simpa [reSpace] using h
  omega

theorem identByte_ne_colon (c : Nat) (h : identByte c = true) : c ≠ 58 := by
  unfold identByte at h
  simp at h
  omega

theorem tagName_form (T : CaseTables) (ws1 ws2 ws3 ws4 key ws5 : Str) (t a g : Nat)
    (h1 : ∀ x ∈ ws1, reSpace x = true) (h2 : ∀ x ∈ ws2, reSpace x = true)
    (h3 : ∀ x ∈ ws3, reSpace x = true) (h4 : ∀ x ∈ ws4, reSpace x = true)
    (ht : lowerByte t = 116) (ha : lowerByte a = 97) (hg : lowerByte g = 103)
    (hk : ∀ x ∈ key, identByte x = true) (hne : key ≠ []) :
    tagName T (45 :: 45 :: (ws1 ++ t :: a :: g :: (ws2 ++ 61 :: (ws3
        ++ (key ++ (ws4 ++ 58 :: ws5))))))
      = key.map lowerByte := by
  obtain ⟨k0, key1, rfl⟩ := List.exists_cons_of_ne_nil hne
  have hk0 : identByte k0 = true := hk k0 (List.mem_cons_self _ _)
  unfold tagName
  rw [List.cons_append, matchTagPrefix_form ws1 ws2 ws3 t a g k0 _ h1 h2 h3 ht ha hg
    (reSpace_of_identByte k0 hk0)]
  simp only
  have hsplit : k0 :: (key1 ++ (ws4 ++ 58 :: ws5)) = ((k0 :: key1) ++ ws4) ++ 58 :: ws5 := by
    simp
  have hno : ∀ c ∈ (k0 :: key1) ++ ws4, c ≠ 58 := by
    intro c hc
    rcases List.mem_append.mp hc with h | h
    · exact identByte_ne_colon c (hk c h)
    · exact (reSpace_lt c (h4 c h)).2
  have hidx : Index (k0 :: (key1 ++ (ws4 ++ 58 :: ws5))) [58]
      = ((((k0 :: key1) ++ ws4).length : Nat) : Int) := by
    rw [hsplit]
    exact Index_of_firstAt _ _ (by simp) _ (firstAt_single 58 _ ws5 hno)
  have hpos : (((((k0 :: key1) ++ ws4).length : Nat) : Int)) > 0 := by
    simp only [List.cons_append, List.length_cons]; omega
  rw [hidx, if_pos hpos, Int.toNat_ofNat, hsplit, List.take_left' rfl]
  have hascii : isASCII ((k0 :: key1) ++ ws4) = true := by
    rw [isASCII_iff]
    intro c hc
    rcases List.mem_append.mp hc with h | h
    · exact (identByte_range c (hk c h)).2
    · exact (reSpace_lt c (h4 c h)).1
  rw [ToLower_ascii T _ hascii, List.map_append]
  apply TrimSpace_key
  · simp
  · intro c hc
    obtain ⟨x, hx, rfl⟩ := List.mem_map.mp hc
    exact identByte_lowerByte x (hk x hx)
  · intro c hc
    obtain ⟨x, hx, rfl⟩ := List.mem_map.mp hc
    rw [lowerByte_space x (h4 x hx)]
    exact h4 x hx

theorem ToUpper_take_ne (T : CaseTables) (P tail kw : Str) (n : Nat)
    (hP : isASCII P = true) (hn : n + 1 ≤ P.length) (h0 : ∃ P1, P = 45 :: P1)
    (hkw : kw.head? ≠ some 45) : ToUpper T ((P ++ tail).take (n + 1)) ≠ kw := by
  obtain ⟨P1, rfl⟩ := h0
  rw [List.take_append_of_le_length hn]
  have hascii : isASCII ((45 :: P1).take (n + 1)) = true := by
    rw [isASCII_iff] at hP ⊢
    exact fun c hc => hP c (List.mem_of_mem_take hc)
  rw [ToUpper_ascii T _ hascii]
  intro e
  apply hkw
  rw [← e]
  simp [upperByte]

/-- C16: a line whose trimmed form is `--`, white space, `tag` in any letter
case, white space, `=`, white space, a key of one or more ASCII letters, digits,
`_` and `-`, white space, `:`, white space and a value `v` (white space being
any run, possibly empty, of the bytes of the class `\s`) is classified with
the lower-cased key as `Tag`, with `v` less its leading white space as `Value`,
and as `lineName` when the lower-cased key is `name`, as `lineTag` otherwise. -/
theorem parseLine_tag_line (T : CaseTables) (line ws1 tg ws2 ws3 key ws4 ws5 v : Str)
    (h1 : ∀ x ∈ ws1, reSpace x = true) (h2 : ∀ x ∈ ws2, reSpace x = true)
    (h3 : ∀ x ∈ ws3, reSpace x = true) (h4 : ∀ x ∈ ws4, reSpace x = true)
    (h5 : ∀ x ∈ ws5, reSpace x = true) (htg : tg.map lowerByte = bytes "tag")
    (hk : ∀ x ∈ key, identByte x = true) (hne : key ≠ [])
    (h : TrimSpace line
      = [45, 45] ++ ws1 ++ tg ++ ws2 ++ [61] ++ ws3 ++ key ++ ws4 ++ [58] ++ ws5 ++ v) :
    parseLine T line
      = ⟨if key.map lowerByte = bytes "name" then lineName else lineTag, key.map lowerByte,
          v.dropWhile reSpace⟩ := by
  obtain ⟨t, a, g, rfl, ht, ha, hg⟩ : ∃ t a g, tg = [t, a, g] ∧ lowerByte t = 116
      ∧ lowerByte a = 97 ∧ lowerByte g = 103 := by
    have hb : bytes "tag" = [116, 97, 103] := by decide
    rw [hb] at htg
    have hlen : tg.length = 3 := by
      have := congrArg List.length htg
      simpa using this
    obtain ⟨t, a, g, rfl⟩ := List.length_eq_three.mp hlen
    simp only [List.map_cons, List.map_nil, List.cons.injEq, and_true] at htg
    exact ⟨t, a, g, rfl, htg.1, htg.2.1, htg.2.2⟩
  have hrest : skipSpaces (ws5 ++ v) = v.dropWhile reSpace := by
    rw [skipSpaces_append ws5 v h5]; rfl
  -- the trimmed line, as the matched text followed by the value
  have hL : TrimSpace line
      = (45 :: 45 :: (ws1 ++ t :: a :: g :: (ws2 ++ 61 :: (ws3 ++ (key ++ (ws4
          ++ 58 :: (ws5 ++ v).takeWhile reSpace)))))) ++ v.dropWhile reSpace := by
    rw [h]
    have := List.takeWhile_append_dropWhile reSpace (ws5 ++ v)
    have hd : (ws5 ++ v).dropWhile reSpace = v.dropWhile reSpace := hrest
    rw [hd] at this
    simp only [List.append_assoc, List.cons_append, List.nil_append, List.singleton_append, this]
  have hL2 : TrimSpace line
      = 45 :: 45 :: (ws1 ++ t :: a :: g :: (ws2 ++ 61 :: (ws3 ++ (key ++ (ws4
          ++ 58 :: (ws5 ++ v)))))) := by
    rw [h]; simp
  have hmatch : matchTagRegular (TrimSpace line) = some (v.dropWhile reSpace) := by
    rw [hL2, matchTagRegular_form ws1 ws2 ws3 ws4 key _ t a g h1 h2 h3 h4 ht ha hg hk hne, hrest]
  have hname : tagName T (matched (TrimSpace line) (v.dropWhile reSpace))
      = key.map lowerByte := by
    have hm : matched (TrimSpace line) (v.dropWhile reSpace)
        = 45 :: 45 :: (ws1 ++ t :: a :: g :: (ws2 ++ 61 :: (ws3 ++ (key ++ (ws4
          ++ 58 :: (ws5 ++ v).takeWhile reSpace))))) := by
      rw [hL, matched]
      exact List.take_left' (by simp only [List.length_append, List.length_cons]; omega)
    rw [hm]
    exact tagName_form T ws1 ws2 ws3 ws4 key _ t a g h1 h2 h3 h4 ht ha hg hk hne
  -- the first eight bytes are ASCII and start with a hyphen
  have hP : TrimSpace line
      = (45 :: 45 :: (ws1 ++ t :: a :: g :: (ws2 ++ 61 :: (ws3 ++ (key ++ (ws4 ++ [58]))))))
        ++ (ws5 ++ v) := by
    rw [hL2]; simp
  have hlow : ∀ c k, lowerByte c = k → k < 128 → c < 128 := by
    intro c k hc hk
    unfold lowerByte at hc
    split_ifs at hc <;> omega
  have hascii : isASCII (45 :: 45 :: (ws1 ++ t :: a :: g :: (ws2 ++ 61 :: (ws3
      ++ (key ++ (ws4 ++ [58])))))) = true := by
    rw [isASCII_iff]
    intro c hc
    simp only [List.mem_cons, List.mem_append, List.not_mem_nil, or_false] at hc
    rcases hc with rfl | rfl | hc | rfl | rfl | rfl | hc | rfl | hc | hc | hc | rfl
    · omega
    · omega
    · exact (reSpace_lt c (h1 c hc)).1
    · exact hlow _ _ ht (by omega)
    · exact hlow _ _ ha (by omega)
    · exact hlow _ _ hg (by omega)
    · exact (reSpace_lt c (h2 c hc)).1
    · omega
    · exact (reSpace_lt c (h3 c hc)).1
    · exact (identByte_range c (hk c hc)).2
    · exact (reSpace_lt c (h4 c hc)).1
    · omega
  have hlen : 8 ≤ (45 :: 45 :: (ws1 ++ t :: a :: g :: (ws2 ++ 61 :: (ws3
      ++ (key ++ (ws4 ++ [58])))))).length := by
    have : 1 ≤ key.length := List.length_pos.mpr hne
    simp only [List.length_cons, List.length_append, List.length_nil]
    omega
  have hc6 : ¬ ((TrimSpace line).length ≥ 6
      ∧ ToUpper T ((TrimSpace line).take 6) = bytes "COMMIT") := by
    rintro ⟨_, e⟩
    rw [hP] at e
    exact ToUpper_take_ne T _ _ _ 5 hascii (by omega) ⟨_, rfl⟩ (by decide) e
  have hc8 : ¬ ((TrimSpace line).length ≥ 8
      ∧ ToUpper T ((TrimSpace line).take 8) = bytes "ROLLBACK") := by
    rintro ⟨_, e⟩
    rw [hP] at e
    exact ToUpper_take_ne T _ _ _ 7 hascii (by omega) ⟨_, rfl⟩ (by decide) e
  have hnil : ¬ (TrimSpace line = []) := by rw [hL2]; simp
  unfold parseLine
  simp only [hnil, hc6, hc8, if_false, hmatch, hname]

theorem parseLine_tag_line_witness :
    parseLine CaseTables.ascii (bytes "  --  tag = FileName_2-KK : peoples.unl ")
      = ⟨if (bytes "FileName_2-KK").map lowerByte = bytes "name" then lineName else lineTag,
          (bytes "FileName_2-KK").map lowerByte, (bytes "peoples.unl").dropWhile reSpace⟩ :=
  parseLine_tag_line CaseTables.ascii (bytes "  --  tag = FileName_2-KK : peoples.unl ")
    (bytes "  ") (bytes "tag") (bytes " ") (bytes " ") (bytes "FileName_2-KK") (bytes " ")
    (bytes " ") (bytes "peoples.unl") (by decide) (by decide) (by decide) (by decide)
    (by decide) (by decide) (by decide) (by decide) (by decide)

theorem ToUpper_caseless (s : Str) : ToUpper CaseTables.caseless s = s.map upperByte := by
  unfold ToUpper CaseTables.caseless
  split_ifs <;> rfl

theorem ToLower_caseless (s : Str) : ToLower CaseTables.caseless s = s.map lowerByte := by
  unfold ToLower CaseTables.caseless
  split_ifs <;> rfl

theorem caseless_lawful : CaseTables.caseless.Lawful := by
  constructor
  · intro c s _
    rw [ToUpper_caseless, ToUpper_caseless]; rfl
  · intro c s _
    rw [ToLower_caseless, ToLower_caseless]; rfl

theorem matchTagPrefix_colon (ws1 ws2 : Str) (t a g : Nat) (rest : Str)
    (h1 : ∀ x ∈ ws1, reSpace x = true) (h2 : ∀ x ∈ ws2, reSpace x = true)
    (ht : lowerByte t = 116) :
    matchTagPrefix (45 :: 45 :: (ws1 ++ t :: a :: g :: (ws2 ++ 58 :: rest))) = none := by
  unfold matchTagPrefix
  rw [skipSpaces_cons 45 _ (by decide)]
  simp only
  rw [skipSpaces_until ws1 t _ h1 (reSpace_of_lowerByte t 116 ht (by omega))]
  simp only
  split_ifs
  · rw [skipSpaces_until ws2 58 _ h2 (by decide)]
  · rfl

/-- C18 (amended): the order `-- tag:<key>= <v>` is not recognised.  A line
whose trimmed form is `--`, white space, `tag` in any letter case, white space
and a `:` followed by anything is classified as a bare comment, with empty
`Tag` and `Value`. -/
theorem parseLine_colon_after_tag (T : CaseTables) (hT : T.Lawful)
    (line ws1 tg ws2 rest : Str)
    (h1 : ∀ x ∈ ws1, reSpace x = true) (h2 : ∀ x ∈ ws2, reSpace x = true)
    (htg : tg.map lowerByte = bytes "tag")
    (h : TrimSpace line = [45, 45] ++ ws1 ++ tg ++ ws2 ++ [58] ++ rest) :
    parseLine T line = ⟨lineComment, [], []⟩ := by
  obtain ⟨t, a, g, rfl, ht⟩ : ∃ t a g, tg = [t, a, g] ∧ lowerByte t = 116 := by
    have hb : bytes "tag" = [116, 97, 103] := by decide
    rw [hb] at htg
    have hlen : tg.length = 3 := by
      have := congrArg List.length htg
      simpa using this
    obtain ⟨t, a, g, rfl⟩ := List.length_eq_three.mp hlen
    simp only [List.map_cons, List.map_nil, List.cons.injEq, and_true] at htg
    exact ⟨t, a, g, rfl, htg.1⟩
  have hL : TrimSpace line = 45 :: 45 :: (ws1 ++ t :: a :: g :: (ws2 ++ 58 :: rest)) := by
    rw [h]; simp
  have hup : ∀ (n : Nat) (kw : Str), kw.head? ≠ some 45 →
      ToUpper T ((TrimSpace line).take (n + 1)) ≠ kw := by
    intro n kw hkw e
    apply hkw
    rw [← e, hL, List.take_succ_cons, hT.1 45 _ (by omega)]
    rfl
  have hc6 : ¬ ((TrimSpace line).length ≥ 6
      ∧ ToUpper T ((TrimSpace line).take 6) = bytes "COMMIT") := by
    rintro ⟨_, e⟩
    exact hup 5 _ (by decide) e
  have hc8 : ¬ ((TrimSpace line).length ≥ 8
      ∧ ToUpper T ((TrimSpace line).take 8) = bytes "ROLLBACK") := by
    rintro ⟨_, e⟩
    exact hup 7 _ (by decide) e
  have hnil : ¬ (TrimSpace line = []) := by rw [hL]; simp
  have hmatch : matchTagRegular (TrimSpace line) = none := by
    unfold matchTagRegular
    rw [hL, matchTagPrefix_colon ws1 ws2 t a g rest h1 h2 ht]
  have hpre : HasPrefix (TrimSpace line) [45, 45] = true := by
    rw [hL]; simp [HasPrefix, List.isPrefixOf]
  unfold parseLine
  simp only [hnil, hc6, hc8, if_false, hmatch, hpre, if_true]

theorem parseLine_colon_after_tag_witness :
    parseLine CaseTables.caseless (bytes "--tag : NAME= Quantity of pets")
      = ⟨lineComment, [], []⟩ :=
  parseLine_colon_after_tag CaseTables.caseless caseless_lawful
    (bytes "--tag : NAME= Quantity of pets") [] (bytes "tag") (bytes " ")
    (bytes " NAME= Quantity of pets") (by decide) (by decide) (by decide) (by decide)

/-- C18, as stated, fails: the two lines of the example are classified as bare
comments, not as a name line and a tag-value line. -/
theorem parseLine_reversed_order_is_comment :
    parseLine CaseTables.ascii (bytes "--tag : NAME= Quantity of pets") = ⟨lineComment, [], []⟩
    ∧ parseLine CaseTables.ascii (bytes "--tag:FileName_2-KK= peoples.unl")
        = ⟨lineComment, [], []⟩ := by
  decide


/-! ## `scapeColon` only inserts colons -/

theorem scapeChunk_filter (col eq : Bool) (c : Nat) :
    (scapeChunk col eq c).filter (fun x => decide (x ≠ 58)) = [c].filter (fun x => decide (x ≠ 58)) := by
  unfold scapeChunk
  split_ifs <;> simp [List.filter_cons]

theorem scapeChunk_sublist (col eq : Bool) (c : Nat) : [c].Sublist (scapeChunk col eq c) := by
  unfold scapeChunk
  split_ifs
  · exact List.Sublist.refl _
  · exact List.Sublist.cons _ (List.Sublist.refl _)
  · exact List.Sublist.refl _

theorem outFrom_filter (s : Str) : ∀ col eq : Bool,
    (outFrom col eq s).filter (fun x => decide (x ≠ 58)) = s.filter (fun x => decide (x ≠ 58)) := by
  induction s with
  | nil => intro col eq; cases col <;> simp [outFrom]
  | cons c s ih =>
    intro col eq
    rw [outFrom, List.filter_append, scapeChunk_filter, ih, ← List.filter_append]
    rfl

theorem outFrom_sublist (s : Str) : ∀ col eq : Bool, s.Sublist (outFrom col eq s) := by
  induction s with
  | nil => intro col eq; exact List.nil_sublist _
  | cons c s ih =>
    intro col eq
    rw [outFrom]
    exact List.Sublist.append (scapeChunk_sublist col eq c) (ih _ _)

/-- C26: `scapeColon` only ever inserts colons.  For every text `s`, removing
every `:` from `scapeColon s` gives the same text as removing every `:` from
`s`; `s` is a subsequence of `scapeColon s`; and `scapeColon s` is at least as
long as `s`. -/
theorem scapeColon_only_inserts_colons (s : Str) :
    (scapeColon s).filter (fun c => decide (c ≠ 58)) = s.filter (fun c => decide (c ≠ 58))
    ∧ s.Sublist (scapeColon s)
    ∧ s.length ≤ (scapeColon s).length := by
  have key : (scapeColon s).filter (fun c => decide (c ≠ 58)) = s.filter (fun c => decide (c ≠ 58))
      ∧ s.Sublist (scapeColon s) := by
    rw [scapeColon_eq]
    split_ifs <;>
      first
        | exact ⟨rfl, List.Sublist.refl _⟩
        | exact ⟨outFrom_filter s _ _, outFrom_sublist s _ _⟩
  exact ⟨key.1, key.2, key.2.length_le⟩

/-! ## A `;` before the first comment opener -/

theorem absent_of_Index (sub s : Str) (h : sub ≠ []) (hi : Index s sub = -1) : Absent sub s := by
  rcases Index_cases sub s h with ⟨_, ha⟩ | ⟨p, e, _⟩
  · exact ha
  · rw [e] at hi; omega

theorem firstAt_of_Index (sub s : Str) (h : sub ≠ []) (p : Nat) (hi : Index s sub = (p : Int)) :
    FirstAt sub s p := by
  rcases Index_cases sub s h with ⟨e, _⟩ | ⟨r, e, hr⟩
  · rw [e] at hi; omega
  · rw [e] at hi
    have : r = p := by omega
    subst this; exact hr

/-- C22: a line whose first `;` lies before every `--` and every `/*` of the
line (among them the lines with a `;` and no comment opener) is reported as
terminating by `isQueryLastLine`, and a line without `;` is not. -/
theorem isQueryLastLine_unshadowed (line : Str) :
    (∀ sc, FirstAt [59] line sc →
        (∀ p, occursAt [45, 45] line p = true → sc < p) →
        (∀ p, occursAt [47, 42] line p = true → sc < p) → isQueryLastLine line = true)
    ∧ (Absent [59] line → isQueryLastLine line = false) := by
  refine ⟨?_, ?_⟩
  · intro sc hsc h1 h2
    have e1 := Index_of_firstAt [59] line (by decide) sc hsc
    have c1 : ¬ (Index line [45, 45] > 0 ∧ Index line [45, 45] < (sc : Int)) := by
      rcases Index_cases [45, 45] line (by decide) with ⟨e, _⟩ | ⟨p, e, hp⟩
      · rw [e]; omega
      · have := h1 p hp.1
        rw [e]; omega
    have c2 : ¬ (Index line [47, 42] > 0 ∧ (sc : Int) > Index line [47, 42]) := by
      rcases Index_cases [47, 42] line (by decide) with ⟨e, _⟩ | ⟨p, e, hp⟩
      · rw [e]; omega
      · have := h2 p hp.1
        rw [e]; omega
    unfold isQueryLastLine
    simp only [e1]
    split_ifs <;> first | rfl | contradiction | (exfalso; omega)
  · intro ha
    have e1 := Index_of_absent [59] line (by decide) ha
    unfold isQueryLastLine
    simp only [e1]
    rfl

theorem isQueryLastLine_unshadowed_witness :
    FirstAt [59] (bytes "select 1; -- one") 8
    ∧ (∀ p, occursAt [45, 45] (bytes "select 1; -- one") p = true → 8 < p)
    ∧ (∀ p, occursAt [47, 42] (bytes "select 1; -- one") p = true → 8 < p)
    ∧ isQueryLastLine (bytes "select 1; -- one") = true
    ∧ Absent [59] (bytes "select 1 from t")
    ∧ isQueryLastLine (bytes "select 1 from t") = false := by
  have h1 : ∀ p, occursAt [45, 45] (bytes "select 1; -- one") p = true → 8 < p := by
    intro p hp
    by_contra hc
    have hle : p ≤ 8 := by omega
    interval_cases p <;> revert hp <;> decide
  have h2 : ∀ p, occursAt [47, 42] (bytes "select 1; -- one") p = true → 8 < p := by
    intro p hp
    by_contra hc
    have hle : p ≤ 8 := by omega
    interval_cases p <;> revert hp <;> decide
  have h3 : Absent [59] (bytes "select 1 from t") :=
    absent_of_Index [59] (bytes "select 1 from t") (by decide) (by decide)
  exact ⟨by decide, h1, h2,
    (isQueryLastLine_unshadowed (bytes "select 1; -- one")).1 8 (by decide) h1 h2, h3,
    (isQueryLastLine_unshadowed (bytes "select 1 from t")).2 h3⟩

/-! ## The two partial iterators split the file order -/

theorem emptyLast_of_ne (names : List Str) (h : ∀ n ∈ names, n ≠ []) : emptyLast names = names := by
  have hf : names.filter notEmpty = names :=
    List.filter_eq_self.mpr (fun n hn => notEmpty_of_ne n (h n hn))
  unfold emptyLast
  rw [hf, Nat.sub_self]
  simp

theorem kindOf_of_mem (qs : Queries) (hnd : (qs.map Prod.fst).Nodup) (e : Str × Query)
    (he : e ∈ qs) : kindOf qs e.1 = some e.2.Type_ := by
  unfold kindOf
  rw [mapGet_of_mem qs e.1 e.2 hnd he]
  rfl

theorem filter_kind_names (qs : Queries) (hnd : (qs.map Prod.fst).Nodup) (dql : Bool) :
    (qs.filter (qualifies dql)).map Prod.fst
      = (qs.map Prod.fst).filter (fun n =>
          if dql then decide (kindOf qs n = some DQL) else decide (kindOf qs n ≠ some DQL)) := by
  rw [List.filter_map]
  congr 1
  apply List.filter_congr
  intro e he
  have hk := kindOf_of_mem qs hnd e he
  cases dql <;> simp [qualifies, hk]

/-- C25: for a collection `qs` that `ParseReader` returns and in which no
name is empty, and for whatever order `range` visits it in, `initIterator`
with `dql` false returns the file-order name list restricted to the names of
the statements whose kind is not DQL, and with `dql` true that list
restricted to the names of the statements of kind DQL; the file-order list is
the list of the names in completion order; no name is in both lists, and
their lengths add up to the size of the collection. -/
theorem iterators_partition (T : CaseTables) (lines : List Str) (qs es0 es1 es2 : Queries)
    (h : ParseReader T lines = .ok qs) (h0 : es0.Perm qs) (h1 : es1.Perm qs) (h2 : es2.Perm qs)
    (hne : ∀ e ∈ qs, e.1 ≠ []) :
    ∃ foi seq conc, initFileOrderIterator es0 = some foi
      ∧ initIterator es1 false = some seq ∧ initIterator es2 true = some conc
      ∧ foi = completed T lines
      ∧ seq = foi.filter (fun n => decide (kindOf qs n ≠ some DQL))
      ∧ conc = foi.filter (fun n => decide (kindOf qs n = some DQL))
      ∧ (∀ n, n ∈ seq → n ∉ conc)
      ∧ seq.length + conc.length = qs.length := by
  obtain ⟨hnd, hidx, hcomp⟩ := ParseReader_shape T lines qs h
  have hnames : ∀ (dql : Bool), ∀ n ∈ (qs.filter (qualifies dql)).map Prod.fst, n ≠ [] := by
    intro dql n hn
    obtain ⟨e, he, rfl⟩ := List.mem_map.mp hn
    exact hne e (List.mem_of_mem_filter he)
  have hs := initIterator_shape false qs es1 hidx h1
  have hc := initIterator_shape true qs es2 hidx h2
  rw [emptyLast_of_ne _ (hnames false)] at hs
  rw [emptyLast_of_ne _ (hnames true)] at hc
  have fs := filter_kind_names qs hnd false
  have fc := filter_kind_names qs hnd true
  simp only [Bool.false_eq_true, if_false, if_true] at fs fc
  refine ⟨qs.map Prod.fst, _, _, initFileOrderIterator_shape qs es0 hidx h0, hs, hc, hcomp,
    fs, fc, ?_, ?_⟩
  · intro n hn hn2
    rw [fs] at hn
    rw [fc] at hn2
    have a := (List.mem_filter.mp hn).2
    have b := (List.mem_filter.mp hn2).2
    simp only [decide_eq_true_eq] at a b
    exact a b
  · rw [List.length_map, List.length_map]
    exact qualifies_length qs

theorem iterators_partition_witness :
    ParseReader CaseTables.ascii sampleTwo = .ok sampleTwoQueries
    ∧ sampleTwoQueries.reverse.Perm sampleTwoQueries
    ∧ (∀ e ∈ sampleTwoQueries, e.1 ≠ [])
    ∧ ∃ foi seq conc, initFileOrderIterator sampleTwoQueries.reverse = some foi
      ∧ initIterator sampleTwoQueries false = some seq
      ∧ initIterator sampleTwoQueries.reverse true = some conc
      ∧ foi = completed CaseTables.ascii sampleTwo
      ∧ seq = foi.filter (fun n => decide (kindOf sampleTwoQueries n ≠ some DQL))
      ∧ conc = foi.filter (fun n => decide (kindOf sampleTwoQueries n = some DQL))
      ∧ (∀ n, n ∈ seq → n ∉ conc)
      ∧ seq.length + conc.length = sampleTwoQueries.length :=
  ⟨by decide, List.reverse_perm _, by decide,
    iterators_partition CaseTables.ascii sampleTwo sampleTwoQueries sampleTwoQueries.reverse
      sampleTwoQueries sampleTwoQueries.reverse (by decide) (List.reverse_perm _)
      (List.Perm.refl _) (List.reverse_perm _) (by decide)⟩

/-! ## Slice bounds -/

theorem parseLine_classifies (T : CaseTables) (l : Str) :
    (parseLine T l).Type_ ∈ [lineName, lineQuery, lastLineQuery, lineTag, lineToSkip, lineComment] := by
  rcases parseLine_cases T l with h | ⟨rest, _, h⟩ | h | ⟨v, h, _⟩ | ⟨v, h, _⟩
  · rw [h]; decide
  · rw [h]
    by_cases hn : tagName T (matched (TrimSpace l) rest) = bytes "name"
    · simp only [hn, if_true]; decide
    · simp only [hn, if_false]; decide
  · rw [h]; decide
  · rw [h]; simp [lineName, lineQuery, lastLineQuery]
  · rw [h]; simp [lineName, lineQuery, lastLineQuery]

/-- C24: `sqlType` is not total.  The slice `q[:10]` is guarded by `len(q) < 10`,
but the slices `s[:6]` and `s[:10]` of the upper-cased prefix are not guarded:
upper-casing U+017F gives `S`, one byte for two, so the ten-byte prefix of
`ſſſſſ;` becomes the five bytes `SSSSS` and `s[:6]` is out of range, and the
ten-byte prefix of `drop tſſ x;` becomes the eight bytes `DROP TSS` and
`s[:10]` is out of range.  `ParseReader` reaches the first through a
terminating fragment. -/
theorem sqlType_slice_out_of_range :
    (bytes "ſſſſſ;").length = 11
    ∧ (ToUpper CaseTables.longS ((bytes "ſſſſſ;").take 10)).length = 5
    ∧ sqlType CaseTables.longS (bytes "ſſſſſ;") = none
    ∧ (bytes "drop tſſ x;").length = 13
    ∧ (ToUpper CaseTables.longS ((bytes "drop tſſ x;").take 10)).length = 8
    ∧ sqlType CaseTables.longS (bytes "drop tſſ x;") = none
    ∧ parseLine CaseTables.longS (bytes "ſſſſſ;") = ⟨lastLineQuery, [], bytes "ſſſſſ;"⟩
    ∧ ParseReader CaseTables.longS [bytes "-- tag=name: a", bytes "ſſſſſ;"] = .error .panic := by
  decide

/-! ## What `TrimSpace` leaves at the start of a text -/

theorem spaceRunes_pos : ∀ r ∈ spaceRunes, 0 < r.length := by decide

theorem spacePrefixLen_eq_zero_iff (s : Str) :
    spacePrefixLen s = 0 ↔ ∀ r ∈ spaceRunes, r.isPrefixOf s = false := by
  unfold spacePrefixLen
  cases hf : spaceRunes.find? (fun r => r.isPrefixOf s) with
  | none =>
    simp only [true_iff]
    intro r hr
    have := List.find?_eq_none.mp hf r hr
    exact Bool.eq_false_iff.mpr this
  | some r =>
    have hmem := List.mem_of_find?_eq_some hf
    have hpre := List.find?_some hf
    have hpos := spaceRunes_pos r hmem
    constructor
    · intro h0
      simp only at h0
      omega
    · intro hall
      have := hall r hmem
      rw [this] at hpre
      cases hpre

theorem trimLeftAux_fix (n : Nat) : ∀ s : Str, s.length ≤ n →
    spacePrefixLen (trimLeftAux n s) = 0 := by
  induction n with
  | zero =>
    intro s hs
    have : s = [] := List.length_eq_zero.mp (Nat.le_zero.mp hs)
    subst this
    decide
  | succ n ih =>
    intro s hs
    by_cases h0 : spacePrefixLen s = 0
    · simp only [trimLeftAux, h0, if_true]
    · simp only [trimLeftAux, h0, if_false]
      apply ih
      rw [List.length_drop]
      omega

theorem trimRightAux_take (n : Nat) : ∀ s : Str, ∃ k, trimRightAux n s = s.take k := by
  induction n with
  | zero => intro s; exact ⟨s.length, by simp [trimRightAux]⟩
  | succ n ih =>
    intro s
    by_cases h0 : spaceSuffixLen s = 0
    · exact ⟨s.length, by simp [trimRightAux, h0]⟩
    · obtain ⟨k, hk⟩ := ih (s.take (s.length - spaceSuffixLen s))
      refine ⟨min k (s.length - spaceSuffixLen s), ?_⟩
      simp only [trimRightAux, h0, if_false]
      rw [hk, List.take_take]

theorem spacePrefixLen_take (s : Str) (k : Nat) (h : spacePrefixLen s = 0) :
    spacePrefixLen (s.take k) = 0 := by
  rw [spacePrefixLen_eq_zero_iff] at h ⊢
  intro r hr
  have hs := h r hr
  by_contra hc
  have hc1 : r.isPrefixOf (s.take k) = true := by simpa using hc
  have p1 := List.isPrefixOf_iff_prefix.mp hc1
  have p2 : r <+: s := p1.trans (List.take_prefix k s)
  have := List.isPrefixOf_iff_prefix.mpr p2
  rw [hs] at this
  cases this

theorem spacePrefixLen_TrimSpace (s : Str) : spacePrefixLen (TrimSpace s) = 0 := by
  unfold TrimSpace
  simp only
  obtain ⟨k, hk⟩ := trimRightAux_take (trimLeftAux s.length s).length (trimLeftAux s.length s)
  rw [hk]
  exact spacePrefixLen_take _ k (trimLeftAux_fix s.length s (Nat.le_refl _))

theorem skipSpaces_of_noPrefix (s : Str) (h : spacePrefixLen s = 0) : skipSpaces s = s := by
  cases s with
  | nil => rfl
  | cons c t =>
    rw [spacePrefixLen_eq_zero_iff] at h
    have hc : reSpace c = false := by
      by_contra hc
      have hc1 : reSpace c = true := by simpa using hc
      have hmem : [c] ∈ spaceRunes := by
        unfold reSpace at hc1
        simp only [Bool.or_eq_true, decide_eq_true_eq] at hc1
        rcases hc1 with (((h9 | h10) | h12) | h13) | h32 <;> subst_vars <;> decide
      have := h [c] hmem
      simp at this
    exact skipSpaces_cons c t hc

theorem trimLeftAux_noPrefix (n : Nat) (s : Str) (h : spacePrefixLen s = 0) :
    trimLeftAux n s = s := by
  cases n with
  | zero => rfl
  | succ n => simp only [trimLeftAux, h, if_true]

theorem spaceSuffixLen_cases (s : Str) :
    spaceSuffixLen s = 0
    ∨ ∃ r ∈ spaceRunes, r.isSuffixOf s = true ∧ spaceSuffixLen s = r.length := by
  unfold spaceSuffixLen
  cases hf : spaceRunes.find? (fun r => r.isSuffixOf s) with
  | none => left; rfl
  | some r =>
    right
    have hsuf := List.find?_some hf
    exact ⟨r, List.mem_of_find?_eq_some hf, hsuf, rfl⟩

theorem trimRightAux_ne_nil (n : Nat) : ∀ s : Str, s ≠ [] → spacePrefixLen s = 0 →
    trimRightAux n s ≠ [] := by
  induction n with
  | zero => intro s hne _; exact hne
  | succ n ih =>
    intro s hne h0
    rcases spaceSuffixLen_cases s with hz | ⟨r, hmem, hsuf, hlen⟩
    · simp only [trimRightAux, hz, if_true]; exact hne
    · have hpos := spaceRunes_pos r hmem
      have hnz : ¬ spaceSuffixLen s = 0 := by omega
      simp only [trimRightAux, hnz, if_false]
      have hsuf1 : r <:+ s := List.isSuffixOf_iff_suffix.mp hsuf
      have hle : r.length ≤ s.length := hsuf1.length_le
      have hlt : r.length < s.length := by
        rcases Nat.lt_or_ge r.length s.length with h | h
        · exact h
        · exfalso
          have heq : r = s := hsuf1.eq_of_length (by omega)
          have hp := (spacePrefixLen_eq_zero_iff s).mp h0 r hmem
          rw [heq, List.isPrefixOf_iff_prefix.mpr (List.prefix_refl s)] at hp
          cases hp
      apply ih
      · intro hnil
        have := congrArg List.length hnil
        rw [List.length_take] at this
        simp only [List.length_nil] at this
        omega
      · exact spacePrefixLen_take s _ h0

theorem TrimSpace_ne_nil (s : Str) (hne : s ≠ []) (h0 : spacePrefixLen s = 0) :
    TrimSpace s ≠ [] := by
  unfold TrimSpace
  simp only
  rw [trimLeftAux_noPrefix s.length s h0]
  exact trimRightAux_ne_nil s.length s hne h0

theorem matchTagPrefix_prefix (s r : Str) (h : matchTagPrefix s = some r) :
    ∃ s1, skipSpaces s = 45 :: 45 :: s1 := by
  unfold matchTagPrefix at h
  split at h
  · exact ⟨_, by assumption⟩
  · cases h

theorem matchTagRegular_prefix (s r : Str) (h : matchTagRegular s = some r) :
    ∃ s1, skipSpaces s = 45 :: 45 :: s1 := by
  unfold matchTagRegular at h
  cases hp : matchTagPrefix s with
  | none => rw [hp] at h; cases h
  | some s1 => exact matchTagPrefix_prefix s s1 hp

theorem matchTagRegular_TrimSpace (l : Str) (hp : HasPrefix (TrimSpace l) [45, 45] = false) :
    matchTagRegular (TrimSpace l) = none := by
  cases hm : matchTagRegular (TrimSpace l) with
  | none => rfl
  | some r =>
    exfalso
    obtain ⟨s1, hs⟩ := matchTagRegular_prefix _ r hm
    rw [skipSpaces_of_noPrefix _ (spacePrefixLen_TrimSpace l)] at hs
    rw [hs] at hp
    simp [HasPrefix] at hp

/-! ## The trailing single-line comment of a query line -/

/-- C23 (amended): a line that is not blank, is not a control line and does
not start with `--` is classified as a query fragment, and it is cut at the
first `--` of the trimmed line wherever that marker lies, inside a block
comment or not: the value is the text before the first `--`, trimmed.  A line
that holds no `--` keeps its trimmed text. -/
theorem parseLine_strips_at_first_marker (T : CaseTables) (l : Str)
    (hne : TrimSpace l ≠ [])
    (hc : ¬ ((TrimSpace l).length ≥ 6 ∧ ToUpper T ((TrimSpace l).take 6) = bytes "COMMIT"))
    (hr : ¬ ((TrimSpace l).length ≥ 8 ∧ ToUpper T ((TrimSpace l).take 8) = bytes "ROLLBACK"))
    (hp : HasPrefix (TrimSpace l) [45, 45] = false) :
    ((parseLine T l).Type_ = lineQuery ∨ (parseLine T l).Type_ = lastLineQuery)
    ∧ (parseLine T l).Tag = []
    ∧ (∀ p, FirstAt [45, 45] (TrimSpace l) p →
        (parseLine T l).Value = TrimSpace ((TrimSpace l).take p))
    ∧ (Absent [45, 45] (TrimSpace l) → (parseLine T l).Value = TrimSpace l) := by
  have hm := matchTagRegular_TrimSpace l hp
  have hp1 : ¬ HasPrefix (TrimSpace l) [45, 45] = true := by rw [hp]; decide
  have e : parseLine T l =
      if isQueryLastLine (if Index (TrimSpace l) [45, 45] > 0 then
          TrimSpace ((TrimSpace l).take (Index (TrimSpace l) [45, 45]).toNat)
        else TrimSpace l) = true then
        ⟨lastLineQuery, [], if Index (TrimSpace l) [45, 45] > 0 then
          TrimSpace ((TrimSpace l).take (Index (TrimSpace l) [45, 45]).toNat)
        else TrimSpace l⟩
      else ⟨lineQuery, [], if Index (TrimSpace l) [45, 45] > 0 then
          TrimSpace ((TrimSpace l).take (Index (TrimSpace l) [45, 45]).toNat)
        else TrimSpace l⟩ := by
    unfold parseLine
    simp only
    rw [if_neg hne, if_neg hc, if_neg hr, hm]
    simp only
    rw [if_neg hp1]
  have hv : (parseLine T l).Value = if Index (TrimSpace l) [45, 45] > 0 then
          TrimSpace ((TrimSpace l).take (Index (TrimSpace l) [45, 45]).toNat)
        else TrimSpace l := by
    rw [e]; split_ifs <;> rfl
  refine ⟨?_, ?_, ?_, ?_⟩
  · rw [e]; split_ifs <;> first | (left; rfl) | (right; rfl)
  · rw [e]; split_ifs <;> rfl
  · intro p hfirst
    have hi := Index_of_firstAt [45, 45] (TrimSpace l) (by decide) p hfirst
    have hpos : 0 < p := by
      rcases Nat.eq_zero_or_pos p with h0 | h0
      · exfalso
        subst h0
        have := hfirst.1
        unfold occursAt at this
        rw [List.drop_zero] at this
        unfold HasPrefix at hp
        rw [hp] at this
        cases this
      · exact h0
    rw [hv, hi, if_pos (by omega)]
    rfl
  · intro ha
    have hi := Index_of_absent [45, 45] (TrimSpace l) (by decide) ha
    rw [hv, hi, if_neg (by decide)]

theorem parseLine_strips_at_first_marker_witness :
    TrimSpace (bytes "from pets   -- quantity of pets") ≠ []
    ∧ HasPrefix (TrimSpace (bytes "from pets   -- quantity of pets")) [45, 45] = false
    ∧ FirstAt [45, 45] (TrimSpace (bytes "from pets   -- quantity of pets")) 12
    ∧ TrimSpace ((TrimSpace (bytes "from pets   -- quantity of pets")).take 12) = bytes "from pets"
    ∧ (parseLine CaseTables.ascii (bytes "from pets   -- quantity of pets")).Value
        = TrimSpace ((TrimSpace (bytes "from pets   -- quantity of pets")).take 12) :=
  ⟨by decide, by decide, by decide, by decide,
    (parseLine_strips_at_first_marker CaseTables.ascii (bytes "from pets   -- quantity of pets")
      (by decide) (by decide) (by decide) (by decide)).2.2.1 12 (by decide)⟩

/-- C23, as stated, fails: in `select 1 /* a -- b */ from t;` the `--` lies
inside a block comment that is open at its position, and the text from it on
is removed all the same. -/
theorem parseLine_strips_inside_block_comment :
    FirstAt [45, 45] (bytes "select 1 /* a -- b */ from t;") 14
    ∧ occursAt [47, 42] (bytes "select 1 /* a -- b */ from t;") 9 = true
    ∧ (∀ k < 14, 9 < k → occursAt [42, 47] (bytes "select 1 /* a -- b */ from t;") k = false)
    ∧ parseLine CaseTables.ascii (bytes "select 1 /* a -- b */ from t;")
        = ⟨lineQuery, [], bytes "select 1 /* a"⟩
    ∧ (parseLine CaseTables.ascii (bytes "select 1 /* a -- b */ from t;")).Value
        ≠ bytes "select 1 /* a -- b */ from t;" := by
  decide

/-! ## The text and the kind of an assembled statement -/

theorem parseLine_fragment_value (T : CaseTables) (l : Str)
    (h : (parseLine T l).Type_ = lineQuery ∨ (parseLine T l).Type_ = lastLineQuery) :
    TrimSpace l ≠ []
    ∧ (parseLine T l).Value = if Index (TrimSpace l) [45, 45] > 0 then
          TrimSpace ((TrimSpace l).take (Index (TrimSpace l) [45, 45]).toNat)
        else TrimSpace l := by
  have d1 : ¬ (lineToSkip = lineQuery ∨ lineToSkip = lastLineQuery) := by decide
  have d2 : ¬ (lineComment = lineQuery ∨ lineComment = lastLineQuery) := by decide
  have d3 : ¬ (lineName = lineQuery ∨ lineName = lastLineQuery) := by decide
  have d4 : ¬ (lineTag = lineQuery ∨ lineTag = lastLineQuery) := by decide
  revert h
  unfold parseLine
  simp only
  by_cases h1 : TrimSpace l = []
  · rw [if_pos h1]; intro h; exact absurd h d1
  · rw [if_neg h1]
    by_cases h2 : (TrimSpace l).length ≥ 6 ∧ ToUpper T ((TrimSpace l).take 6) = bytes "COMMIT"
    · rw [if_pos h2]; intro h; exact absurd h d1
    · rw [if_neg h2]
      by_cases h3 : (TrimSpace l).length ≥ 8
          ∧ ToUpper T ((TrimSpace l).take 8) = bytes "ROLLBACK"
      · rw [if_pos h3]; intro h; exact absurd h d1
      · rw [if_neg h3]
        cases hm : matchTagRegular (TrimSpace l) with
        | some rest =>
          simp only
          intro h
          exfalso
          by_cases hn : tagName T (matched (TrimSpace l) rest) = bytes "name"
          · rw [if_pos hn] at h; exact d3 h
          · rw [if_neg hn] at h; exact d4 h
        | none =>
          simp only
          by_cases h4 : HasPrefix (TrimSpace l) [45, 45] = true
          · rw [if_pos h4]; intro h; exact absurd h d2
          · rw [if_neg h4]
            intro _
            refine ⟨h1, ?_⟩
            split_ifs <;> rfl

theorem parseLine_fragment_ne (T : CaseTables) (l : Str)
    (h : (parseLine T l).Type_ = lineQuery ∨ (parseLine T l).Type_ = lastLineQuery) :
    (parseLine T l).Value ≠ [] := by
  obtain ⟨hne, hv⟩ := parseLine_fragment_value T l h
  rw [hv]
  by_cases hpos : Index (TrimSpace l) [45, 45] > 0
  · rw [if_pos hpos]
    apply TrimSpace_ne_nil
    · intro hnil
      have := congrArg List.length hnil
      rw [List.length_take] at this
      have hlen : 0 < (TrimSpace l).length := List.length_pos.mpr hne
      simp only [List.length_nil] at this
      omega
    · exact spacePrefixLen_take _ _ (spacePrefixLen_TrimSpace l)
  · rw [if_neg hpos]; exact hne

theorem joinSpaces_head (a f : Str) (fs : List Str) :
    joinSpaces ((a ++ 32 :: f) :: fs) = a ++ 32 :: joinSpaces (f :: fs) := by
  cases fs with
  | nil => rfl
  | cons g gs => simp [joinSpaces]

theorem foldl_addFragment (fs : List Str) : ∀ acc : Str, acc ≠ [] →
    fs.foldl addFragment acc = joinSpaces (acc :: fs) := by
  induction fs with
  | nil => intro acc _; rfl
  | cons f fs ih =>
    intro acc hacc
    have hlen : acc.length > 0 := List.length_pos.mpr hacc
    have e : addFragment acc f = acc ++ 32 :: f := by
      unfold addFragment
      rw [if_pos hlen]
      simp
    rw [List.foldl_cons, e, ih _ (by simp), joinSpaces_head]
    rfl

theorem joinFragments_eq_joinSpaces (fs : List Str) (h : ∀ f ∈ fs, f ≠ []) :
    joinFragments fs = joinSpaces fs := by
  cases fs with
  | nil => rfl
  | cons f fs =>
    unfold joinFragments
    rw [List.foldl_cons]
    have e : addFragment [] f = f := by
      unfold addFragment
      simp
    rw [e]
    exact foldl_addFragment fs f (h f (List.mem_cons_self _ _))

theorem parseLoop_fragments (T : CaseTables) (frags : List Str) :
    ∀ (st : ParseState) (q : Query), st.FF = false → st.q = some q →
      (∀ l ∈ frags, (parseLine T l).Type_ = lineQuery) →
      parseLoop T st frags = .ok { st with
        q := some { q with
          Query := (frags.map (fun l => (parseLine T l).Value)).foldl addFragment q.Query } } := by
  induction frags with
  | nil =>
    intro st q _ hq _
    cases st
    simp only at hq
    subst hq
    rfl
  | cons l frags ih =>
    intro st q hff hq hall
    have hl := hall l (List.mem_cons_self _ _)
    rw [parseLoop, parseStep_query T st l q hl hff hq]
    simp only
    rw [ih { st with q := some { q with Query := addFragment q.Query (parseLine T l).Value } }
      { q with Query := addFragment q.Query (parseLine T l).Value } hff rfl
      (fun m hm => hall m (List.mem_cons_of_mem _ hm))]
    rfl

theorem assembled_lines (T : CaseTables) (nameLine : Str) (frags : List Str)
    (lastLine : Str) (hname : (parseLine T nameLine).Type_ = lineName)
    (hfr : ∀ l ∈ frags, (parseLine T l).Type_ = lineQuery)
    (hlast : (parseLine T lastLine).Type_ = lastLineQuery) :
    ParseReader T (nameLine :: (frags ++ [lastLine])) =
      match sqlType T (joinSpaces ((frags ++ [lastLine]).map (fun l => (parseLine T l).Value))) with
      | none => .error .panic
      | some k => .ok [(ToLower T (parseLine T nameLine).Value,
          ⟨if k ≠ DDL then
              scapeColon (joinSpaces ((frags ++ [lastLine]).map (fun l => (parseLine T l).Value)))
            else joinSpaces ((frags ++ [lastLine]).map (fun l => (parseLine T l).Value)),
            k, [(bytes "name", (parseLine T nameLine).Value)], 0⟩)] := by
  have hne : ∀ f ∈ (frags ++ [lastLine]).map (fun l => (parseLine T l).Value), f ≠ [] := by
    intro f hf
    obtain ⟨l, hl, rfl⟩ := List.mem_map.mp hf
    apply parseLine_fragment_ne
    rcases List.mem_append.mp hl with h | h
    · left; exact hfr l h
    · right
      have : l = lastLine := by simpa using h
      rw [this]; exact hlast
  have hJ : addFragment ((frags.map (fun l => (parseLine T l).Value)).foldl addFragment [])
        (parseLine T lastLine).Value
      = joinSpaces ((frags ++ [lastLine]).map (fun l => (parseLine T l).Value)) := by
    rw [← joinFragments_eq_joinSpaces _ hne, List.map_append, List.map_singleton,
      joinFragments_append_single]
    rfl
  have htag : ToLower T (parseLine T nameLine).Tag = bytes "name" := by
    rw [parseLine_name_tag T nameLine hname]; exact toLower_name T
  unfold ParseReader
  rw [parseLoop, parseStep_name T parseInit nameLine hname rfl]
  simp only
  rw [parseLoop_append, parseLoop_fragments T frags _ _ rfl rfl hfr]
  simp only
  rw [parseLoop]
  cases hs : sqlType T (joinSpaces ((frags ++ [lastLine]).map (fun l => (parseLine T l).Value)))
    with
  | none =>
    rw [parseStep_last_panic T _ lastLine _ hlast rfl rfl (by rw [← hs, ← hJ])]
  | some k =>
    rw [parseStep_last T _ lastLine _ k hlast rfl rfl (by rw [← hs, ← hJ])]
    simp only [parseLoop, hJ, htag, parseInit, mapSet]

/-! ## The scanner: a carriage return before the line break -/

theorem find?_congr_mem {α : Type} (l : List α) (p q : α → Bool) (h : ∀ x ∈ l, p x = q x) :
    l.find? p = l.find? q := by
  induction l with
  | nil => rfl
  | cons a l ih =>
    rw [List.find?_cons, List.find?_cons, h a (List.mem_cons_self _ _),
      ih (fun x hx => h x (List.mem_cons_of_mem _ hx))]

theorem spaceRunes_cr : ∀ r ∈ spaceRunes, r.getLast? = some 13 → r = [13] := by decide

theorem isPrefixOf_append_cr (r s : Str) (hr : r ∈ spaceRunes) (hs : s ≠ []) :
    r.isPrefixOf (s ++ [13]) = r.isPrefixOf s := by
  apply Bool.eq_iff_iff.mpr
  rw [List.isPrefixOf_iff_prefix, List.isPrefixOf_iff_prefix]
  constructor
  · intro h
    rcases Nat.lt_or_ge s.length r.length with hlt | hge
    · exfalso
      have hle := h.length_le
      rw [List.length_append, List.length_singleton] at hle
      have heq : r = s ++ [13] :=
        h.eq_of_length (by rw [List.length_append, List.length_singleton]; omega)
      have hl : r.getLast? = some 13 := by rw [heq]; simp
      have h13 := spaceRunes_cr r hr hl
      rw [h13] at heq
      have hlen := congrArg List.length heq
      simp only [List.length_append, List.length_singleton] at hlen
      exact hs (List.length_eq_zero.mp (by omega))
    · exact List.prefix_of_prefix_length_le h (List.prefix_append s [13]) hge
  · intro h
    exact h.trans (List.prefix_append s [13])

theorem spacePrefixLen_append_cr (s : Str) (hs : s ≠ []) :
    spacePrefixLen (s ++ [13]) = spacePrefixLen s := by
  unfold spacePrefixLen
  rw [find?_congr_mem spaceRunes _ (fun r => r.isPrefixOf s)
    (fun r hr => isPrefixOf_append_cr r s hr hs)]

theorem spacePrefixLen_le (s : Str) : spacePrefixLen s ≤ s.length := by
  unfold spacePrefixLen
  cases hf : spaceRunes.find? (fun r => r.isPrefixOf s) with
  | none => exact Nat.zero_le _
  | some r =>
    have hpre := List.find?_some hf
    exact (List.isPrefixOf_iff_prefix.mp hpre).length_le

theorem trimLeftAux_append_cr (n : Nat) : ∀ s : Str, s.length ≤ n →
    trimLeftAux (n + 1) (s ++ [13])
      = if trimLeftAux n s = [] then [] else trimLeftAux n s ++ [13] := by
  have e0 : spacePrefixLen [] = 0 := by decide
  have e1 : spacePrefixLen [13] = 1 := by decide
  induction n with
  | zero =>
    intro s hs
    have : s = [] := List.length_eq_zero.mp (Nat.le_zero.mp hs)
    subst this
    decide
  | succ n ih =>
    intro s hs
    by_cases hnil : s = []
    · subst hnil
      simp [trimLeftAux, e0, e1]
    · have e := spacePrefixLen_append_cr s hnil
      by_cases h0 : spacePrefixLen s = 0
      · have h0c : spacePrefixLen (s ++ [13]) = 0 := by rw [e]; exact h0
        have hl : trimLeftAux (n + 1 + 1) (s ++ [13]) = s ++ [13] := by
          simp only [trimLeftAux, h0c, if_true]
        have hr : trimLeftAux (n + 1) s = s := by
          simp only [trimLeftAux, h0, if_true]
        rw [hl, hr, if_neg hnil]
      · have h0c : ¬ spacePrefixLen (s ++ [13]) = 0 := by rw [e]; exact h0
        have hk := spacePrefixLen_le s
        have hl : trimLeftAux (n + 1 + 1) (s ++ [13])
            = trimLeftAux (n + 1) (s.drop (spacePrefixLen s) ++ [13]) := by
          simp only [trimLeftAux, h0c, if_false]
          rw [e, List.drop_append_of_le_length hk]
        have hr : trimLeftAux (n + 1) s = trimLeftAux n (s.drop (spacePrefixLen s)) := by
          simp only [trimLeftAux, h0, if_false]
        rw [hl, hr]
        apply ih
        rw [List.length_drop]
        omega

theorem TrimSpace_append_cr (s : Str) : TrimSpace (s ++ [13]) = TrimSpace s := by
  unfold TrimSpace
  simp only
  rw [List.length_append, List.length_singleton, trimLeftAux_append_cr s.length s (Nat.le_refl _)]
  by_cases h : trimLeftAux s.length s = []
  · rw [if_pos h, h]
  · rw [if_neg h, List.length_append, List.length_singleton]
    have h1 := spaceSuffixLen_space (trimLeftAux s.length s) 13 (by decide)
    have h2 : ¬ (1 = 0) := by decide
    simp only [trimRightAux, h1, List.length_append, List.length_singleton,
      Nat.add_sub_cancel, List.take_left']
    rw [if_neg h2]

theorem TrimSpace_dropCR (l : Str) : TrimSpace (dropCR l) = TrimSpace l := by
  unfold dropCR
  by_cases h : l.getLast? = some 13
  · rw [if_pos h]
    have e : l.dropLast ++ [13] = l := List.dropLast_append_getLast? 13 (Option.mem_def.mpr h)
    rw [← TrimSpace_append_cr, e]
  · rw [if_neg h]

theorem parseLine_dropCR (T : CaseTables) (l : Str) : parseLine T (dropCR l) = parseLine T l := by
  unfold parseLine
  rw [TrimSpace_dropCR]

theorem parseStep_dropCR (T : CaseTables) (st : ParseState) (l : Str) :
    parseStep T st (dropCR l) = parseStep T st l := by
  unfold parseStep
  rw [parseLine_dropCR]

theorem parseLoop_dropCR (T : CaseTables) (ls : List Str) : ∀ st : ParseState,
    parseLoop T st (ls.map dropCR) = parseLoop T st ls := by
  induction ls with
  | nil => intro st; rfl
  | cons l ls ih =>
    intro st
    rw [List.map_cons, parseLoop, parseLoop, parseStep_dropCR]
    cases parseStep T st l with
    | error e => rfl
    | ok st1 => exact ih st1

/-! ## The scanner: what `ParseReader` gets to read -/

theorem ParseReader_scanLines (T : CaseTables) (input : List Str) :
    ParseReader T (scanLines input) = ParseReader T (input.takeWhile fitsBuffer) := by
  unfold ParseReader scanLines
  rw [parseLoop_dropCR]

theorem takeWhile_append_all (p : Str → Bool) (a b : List Str) (h : ∀ l ∈ a, p l = true) :
    (a ++ b).takeWhile p = a ++ b.takeWhile p := by
  induction a with
  | nil => rfl
  | cons x a ih =>
    rw [List.cons_append, List.takeWhile_cons_of_pos (h x (List.mem_cons_self _ _)),
      ih (fun l hl => h l (List.mem_cons_of_mem _ hl))]
    rfl

theorem fitsBuffer_iff (l : Str) : fitsBuffer l = true ↔ l.length < MaxScanTokenSize := by
  unfold fitsBuffer
  exact decide_eq_true_iff

theorem ParseReader_scanLines_fit (T : CaseTables) (pre post : List Str)
    (h : ∀ l ∈ pre, l.length < MaxScanTokenSize) :
    ParseReader T (scanLines (pre ++ post)) = ParseReader T (pre ++ post.takeWhile fitsBuffer) := by
  rw [ParseReader_scanLines,
    takeWhile_append_all fitsBuffer pre post (fun l hl => (fitsBuffer_iff l).mpr (h l hl))]

theorem ParseReader_scanLines_all (T : CaseTables) (input : List Str)
    (h : ∀ l ∈ input, l.length < MaxScanTokenSize) :
    ParseReader T (scanLines input) = ParseReader T input := by
  have := ParseReader_scanLines_fit T input [] h
  rw [List.append_nil, List.takeWhile_nil, List.append_nil] at this
  exact this

theorem fitsBuffer_sampleLongLine : fitsBuffer sampleLongLine = false := by
  unfold fitsBuffer sampleLongLine
  rw [List.length_replicate]
  exact decide_eq_false (Nat.lt_irrefl _)

/-! ## A repeated name -/

/-- C2 (amended): when a name line carries, after lower-casing, the name of an
earlier name line whose statement was completed before it (a terminating
fragment follows that earlier line, with no name line and no other terminating
fragment in between), every line up to and including it is shorter than
`MaxScanTokenSize`, and the lines before it raise no failure, `ParseReader`
returns the error `duplicated query name` and no collection, whatever lines
follow. -/
theorem ParseReader_duplicate_completed (T : CaseTables) (before : List Str) (l1 : Str)
    (mid : List Str) (lt : Str) (between : List Str) (l2 : Str) (post : List Str)
    (hfit : ∀ l ∈ (before ++ l1 :: (mid ++ lt :: between)) ++ [l2], l.length < MaxScanTokenSize)
    (h1 : (parseLine T l1).Type_ = lineName)
    (hmid : ∀ m ∈ mid, (parseLine T m).Type_ ≠ lineName ∧ (parseLine T m).Type_ ≠ lastLineQuery)
    (ht : (parseLine T lt).Type_ = lastLineQuery)
    (h2 : (parseLine T l2).Type_ = lineName)
    (hsame : ToLower T (parseLine T l2).Value = ToLower T (parseLine T l1).Value)
    (hpre : ∃ qs, ParseReader T (scanLines (before ++ l1 :: (mid ++ lt :: between))) = .ok qs) :
    ParseReader T (scanLines ((before ++ l1 :: (mid ++ lt :: between)) ++ l2 :: post))
      = .error (.duplicated (ToLower T (parseLine T l2).Value)) := by
  have hfitP : ∀ l ∈ before ++ l1 :: (mid ++ lt :: between), l.length < MaxScanTokenSize :=
    fun l hl => hfit l (List.mem_append_left _ hl)
  have hsplit : (before ++ l1 :: (mid ++ lt :: between)) ++ l2 :: post
      = ((before ++ l1 :: (mid ++ lt :: between)) ++ [l2]) ++ post := by
    simp only [List.append_assoc, List.singleton_append, List.cons_append, List.nil_append]
  rw [ParseReader_scanLines_all T _ hfitP] at hpre
  rw [hsplit, ParseReader_scanLines_fit T _ post hfit]
  have hjoin : ((before ++ l1 :: (mid ++ lt :: between)) ++ [l2]) ++ post.takeWhile fitsBuffer
      = (before ++ l1 :: (mid ++ lt :: between)) ++ l2 :: post.takeWhile fitsBuffer := by
    simp only [List.append_assoc, List.singleton_append, List.cons_append, List.nil_append]
  rw [hjoin]
  exact duplicate_completed_lines T before l1 mid lt between l2 _ h1 hmid ht h2 hsame hpre

theorem ParseReader_duplicate_completed_witness :
    (∀ l ∈ ([] ++ bytes "-- tag=name: Test1" :: ([bytes "select 1"] ++ bytes "from dual;" :: []))
        ++ [bytes "-- tag=name: TEST1"], l.length < MaxScanTokenSize)
    ∧ ParseReader CaseTables.ascii (scanLines
        ([] ++ bytes "-- tag=name: Test1" :: ([bytes "select 1"] ++ bytes "from dual;" :: [])))
      = .ok [(bytes "test1",
          ⟨bytes "select 1 from dual;", DQL, [(bytes "name", bytes "Test1")], 0⟩)]
    ∧ ParseReader CaseTables.ascii (scanLines
        (([] ++ bytes "-- tag=name: Test1" :: ([bytes "select 1"] ++ bytes "from dual;" :: []))
          ++ bytes "-- tag=name: TEST1" :: [bytes "select 2 from dual;", sampleLongLine]))
      = .error (.duplicated (ToLower CaseTables.ascii
          (parseLine CaseTables.ascii (bytes "-- tag=name: TEST1")).Value)) :=
  ⟨by decide, by decide,
    ParseReader_duplicate_completed CaseTables.ascii [] (bytes "-- tag=name: Test1")
      [bytes "select 1"] (bytes "from dual;") [] (bytes "-- tag=name: TEST1")
      [bytes "select 2 from dual;", sampleLongLine] (by decide) (by decide) (by decide)
      (by decide) (by decide) (by decide)
      ⟨[(bytes "test1", ⟨bytes "select 1 from dual;", DQL, [(bytes "name", bytes "Test1")], 0⟩)],
        by decide⟩⟩

/-- C2, as stated, fails: two name lines carry the same name after lower-casing,
no statement is completed before the second, and `ParseReader` returns a
collection. -/
theorem ParseReader_repeated_name_accepted :
    (parseLine CaseTables.ascii (bytes "-- tag=name: a")).Type_ = lineName
    ∧ (parseLine CaseTables.ascii (bytes "-- tag=name: A")).Type_ = lineName
    ∧ ToLower CaseTables.ascii (parseLine CaseTables.ascii (bytes "-- tag=name: a")).Value
        = ToLower CaseTables.ascii (parseLine CaseTables.ascii (bytes "-- tag=name: A")).Value
    ∧ scanLines sampleRepeatedName = sampleRepeatedName
    ∧ ParseReader CaseTables.ascii (scanLines sampleRepeatedName)
        = .ok [(bytes "a", ⟨bytes "select 1 from dual;", DQL, [(bytes "name", bytes "A")], 0⟩)] := by
  decide

/-! ## The text and the kind of an assembled statement, from the input -/

theorem takeWhile_not_all (p : Str → Bool) (a : List Str) (x : Str)
    (h : ¬ ∀ l ∈ a ++ [x], p l = true) : (a ++ [x]).takeWhile p = a.takeWhile p := by
  induction a with
  | nil =>
    have hx : ¬ p x = true := fun hx => h (fun l hl => by
      have : l = x := by simpa using hl
      rw [this]; exact hx)
    rw [List.nil_append, List.takeWhile_cons_of_neg hx]
    rfl
  | cons y a ih =>
    by_cases hy : p y = true
    · rw [List.cons_append, List.takeWhile_cons_of_pos hy, List.takeWhile_cons_of_pos hy, ih]
      intro hall
      apply h
      intro l hl
      rcases List.mem_cons.mp hl with e | e
      · rw [e]; exact hy
      · exact hall l e
    · rw [List.cons_append, List.takeWhile_cons_of_neg hy, List.takeWhile_cons_of_neg hy]

theorem ParseReader_unfinished (T : CaseTables) (nameLine : Str) (body : List Str)
    (hname : (parseLine T nameLine).Type_ = lineName) (hbody : Inner T body) :
    ParseReader T (nameLine :: body) = .ok [] := by
  unfold ParseReader
  rw [parseLoop, parseStep_name T parseInit nameLine hname rfl]
  simp only
  obtain ⟨st1, h1, hq, _⟩ := parseLoop_inner T body
    { parseInit with
      FF := false, qName := ToLower T (parseLine T nameLine).Value,
      q := some ⟨[], 0, mapSet [] (ToLower T (parseLine T nameLine).Tag)
        (parseLine T nameLine).Value, 0⟩ } rfl rfl hbody
  rw [h1]
  simp only
  rw [hq]
  rfl

/-- C21: on an input made of a name line, lines that are plain query
fragments and one terminating fragment, with `J` the values of the fragments
joined by single spaces: when every line is shorter than `MaxScanTokenSize`,
`ParseReader` returns a collection with one statement, under the lower-cased
name, whose kind is `sqlType J` and whose text is `J` itself when the kind is
DDL and `scapeColon J` otherwise, and it fails where `sqlType` fails on `J`;
when a line is longer, the scanner stops before the end of the terminating
fragment and `ParseReader` returns the empty collection. -/
theorem assembled_statement (T : CaseTables) (nameLine : Str) (frags : List Str)
    (lastLine : Str) (hname : (parseLine T nameLine).Type_ = lineName)
    (hfr : ∀ l ∈ frags, (parseLine T l).Type_ = lineQuery)
    (hlast : (parseLine T lastLine).Type_ = lastLineQuery) :
    ParseReader T (scanLines (nameLine :: (frags ++ [lastLine]))) =
      if ∀ l ∈ nameLine :: (frags ++ [lastLine]), l.length < MaxScanTokenSize then
        match sqlType T
          (joinSpaces ((frags ++ [lastLine]).map (fun l => (parseLine T l).Value))) with
        | none => .error .panic
        | some k => .ok [(ToLower T (parseLine T nameLine).Value,
            ⟨if k ≠ DDL then
                scapeColon (joinSpaces ((frags ++ [lastLine]).map (fun l => (parseLine T l).Value)))
              else joinSpaces ((frags ++ [lastLine]).map (fun l => (parseLine T l).Value)),
              k, [(bytes "name", (parseLine T nameLine).Value)], 0⟩)]
      else .ok [] := by
  by_cases hall : ∀ l ∈ nameLine :: (frags ++ [lastLine]), l.length < MaxScanTokenSize
  · rw [if_pos hall, ParseReader_scanLines_all T _ hall]
    exact assembled_lines T nameLine frags lastLine hname hfr hlast
  · rw [if_neg hall, ParseReader_scanLines]
    have hnot : ¬ ∀ l ∈ (nameLine :: frags) ++ [lastLine], fitsBuffer l = true := by
      intro h
      apply hall
      intro l hl
      exact (fitsBuffer_iff l).mp (h l (by simpa using hl))
    have e : nameLine :: (frags ++ [lastLine]) = (nameLine :: frags) ++ [lastLine] := rfl
    rw [e, takeWhile_not_all fitsBuffer _ lastLine hnot]
    by_cases hn : fitsBuffer nameLine = true
    · rw [List.takeWhile_cons_of_pos hn]
      apply ParseReader_unfinished T nameLine _ hname
      intro m hm
      have hmem : m ∈ frags := (List.takeWhile_prefix fitsBuffer).subset hm
      rw [hfr m hmem]
      exact ⟨by decide, by decide⟩
    · rw [List.takeWhile_cons_of_neg hn]
      rfl

theorem assembled_statement_witness :
    (parseLine CaseTables.ascii (bytes "-- tag=name: Update1")).Type_ = lineName
    ∧ (∀ l ∈ [bytes "update peoples set Name = :Name,", bytes "  Hour = 'HH:MI'"],
        (parseLine CaseTables.ascii l).Type_ = lineQuery)
    ∧ (parseLine CaseTables.ascii (bytes "where ID = 1; -- one row")).Type_ = lastLineQuery
    ∧ joinSpaces (([bytes "update peoples set Name = :Name,", bytes "  Hour = 'HH:MI'"]
          ++ [bytes "where ID = 1; -- one row"]).map
            (fun l => (parseLine CaseTables.ascii l).Value))
        = bytes "update peoples set Name = :Name, Hour = 'HH:MI' where ID = 1;"
    ∧ ParseReader CaseTables.ascii (scanLines (bytes "-- tag=name: Update1"
          :: ([bytes "update peoples set Name = :Name,", bytes "  Hour = 'HH:MI'"]
            ++ [bytes "where ID = 1; -- one row"])))
        = .ok [(bytes "update1",
            ⟨bytes "update peoples set Name = :Name, Hour = 'HH::MI' where ID = 1;", DML,
              [(bytes "name", bytes "Update1")], 0⟩)] :=
  ⟨by decide, by decide, by decide, by decide,
    (assembled_statement CaseTables.ascii (bytes "-- tag=name: Update1")
      [bytes "update peoples set Name = :Name,", bytes "  Hour = 'HH:MI'"]
      (bytes "where ID = 1; -- one row") (by decide) (by decide) (by decide)).trans (by decide)⟩

/-! ## Where the code misses what it attempts -/

/-- C3: the lines `-- tag=name: a`, `select 1 from dual;` finalize the statement
`a`, and the later name line `-- tag=name: A` carries that name.  With the
statement `b` between them, whose text `ſſſſſ;` makes `sqlType` panic on
`s[:6]`, `ParseReader` panics before it reads that name line; with a line of
`MaxScanTokenSize` bytes between them the scanner stops there, and
`ParseReader` returns the collection holding `a`, and no error. -/
theorem ParseReader_duplicate_not_reached :
    ParseReader CaseTables.longS (scanLines [bytes "-- tag=name: a", bytes "select 1 from dual;"])
      = .ok [(bytes "a", ⟨bytes "select 1 from dual;", DQL, [(bytes "name", bytes "a")], 0⟩)]
    ∧ (parseLine CaseTables.longS (bytes "-- tag=name: A")).Type_ = lineName
    ∧ ToLower CaseTables.longS (parseLine CaseTables.longS (bytes "-- tag=name: A")).Value
        = bytes "a"
    ∧ ParseReader CaseTables.longS (scanLines [bytes "-- tag=name: a", bytes "select 1 from dual;",
        bytes "-- tag=name: b", bytes "ſſſſſ;", bytes "-- tag=name: A"]) = .error .panic
    ∧ sampleLongLine.length = MaxScanTokenSize
    ∧ ParseReader CaseTables.longS (scanLines [bytes "-- tag=name: a", bytes "select 1 from dual;",
        sampleLongLine, bytes "-- tag=name: A", bytes "select 2 from dual;"])
      = .ok [(bytes "a", ⟨bytes "select 1 from dual;", DQL, [(bytes "name", bytes "a")], 0⟩)] := by
  refine ⟨by decide, by decide, by decide, by decide, List.length_replicate _ _, ?_⟩
  have hlong : ¬ fitsBuffer sampleLongLine = true := by
    rw [fitsBuffer_sampleLongLine]; decide
  rw [ParseReader_scanLines, List.takeWhile_cons_of_pos (by decide),
    List.takeWhile_cons_of_pos (by decide), List.takeWhile_cons_of_neg hlong]
  decide

/-- C13: in the line `/* old; */` the only `;` lies inside the block comment,
which opens at the start of the line and closes after the `;`.  The test
`mlco > 0` of `isQueryLastLine` takes the offset 0 of that `/*` for its absence
and the function returns true; `parseLine` makes the line a terminating
fragment, and `ParseReader` ends the statement there. -/
theorem isQueryLastLine_comment_at_start :
    FirstAt [59] (bytes "/* old; */") 6
    ∧ Shadowed (bytes "/* old; */") 6
    ∧ Index (bytes "/* old; */") [47, 42] = 0
    ∧ isQueryLastLine (bytes "/* old; */") = true
    ∧ isQueryLastLine (bytes "select id /* old; */") = false
    ∧ parseLine CaseTables.ascii (bytes "/* old; */") = ⟨lastLineQuery, [], bytes "/* old; */"⟩
    ∧ ParseReader CaseTables.ascii (scanLines [bytes "-- tag=name: a", bytes "select 1",
        bytes "/* old; */", bytes "from dual;"])
      = .ok [(bytes "a", ⟨bytes "select 1 /* old; */", DQL, [(bytes "name", bytes "a")], 0⟩)] := by
  decide

end Sqlmaper
